import Mathlib

/-
  Verification development for the maze generator / step-by-step solver
  repository (maze_generator.py, solvers/{bfs,dfs,astar}_solver.py,
  ui/maze_display.py, main.py).

  The Python code is shallowly embedded:
  * grids are `List (List Char)` with `'#'` walls and `' '` paths, exactly
    as the character grids of the source;
  * the generator's mutable 2D array is modelled as an explicitly updated
    total function `Coord → Char` that is tabulated into the list grid on
    return;
  * the ambient `random` module is modelled by an oracle stream
    `List Nat`: each call to `randint` / `choice` / `sample` consumes
    entries and reduces them modulo the size of the live range, so every
    actual run of the Python code corresponds to some stream;
  * Python generators are modelled by the finite list of the tuples they
    yield; advancing an exhausted generator (`StopIteration`) corresponds
    to reading past the end of that list;
  * a raised exception is `Except.error ()`.
-/

namespace MazeRepo

/-- Grid coordinates `(x, y)` are Python int pairs. -/
abbrev Coord := Int × Int

/-- The character grid handed to the solvers (list of rows). -/
abbrev Grid := List (List Char)

def wallChar : Char := '#'

def pathChar : Char := ' '

/-- Read `grid[y][x]`; in the embedded code this is only used under the
source's own `0 <= x < width` / `0 <= y < height` guards. -/
def getCell (g : Grid) (x y : Int) : Char :=
  (g.getD y.toNat []).getD x.toNat wallChar

/-- Random oracle: consume one stream entry and reduce it below `n`.
`randint(0, k)` is `randBelow (k+1)` and `choice(l)` is
`l[randBelow l.length]`; every value below the bound is reachable, so the
stream ranges over all possible runs of the randomized code. -/
def randBelow (n : Nat) (s : List Nat) : Nat × List Nat :=
  match s with
  | [] => (0, [])
  | v :: rest => (v % n, rest)

/-! ### Maze generator (`src/maze_generator.py`, `create_maze`) -/

/-- The generator's working grid: the mutable `grid` 2D array as a total
function from coordinates to cell characters. -/
abbrev GridF := Coord → Char

/-- Write `grid[c.2][c.1] = ' '` (carving a cell). -/
def setPathF (g : GridF) (c : Coord) : GridF :=
  fun p => if p = c then pathChar else g p

/-- Candidate logical-neighbour offsets, in source order:
up, down, left, right (two grid cells away). -/
def carveOffsets : List Coord := [(0, -2), (0, 2), (-2, 0), (2, 0)]

/-- The `unvisited_neighbors` list built for the top of the stack: the
four cells two away that are strictly inside the border and still walls. -/
def unvisitedNeighbors (gw gh : Int) (g : GridF) (c : Coord) : List Coord :=
  (carveOffsets.map (fun d => (c.1 + d.1, c.2 + d.2))).filter
    (fun n => 0 < n.2 ∧ n.2 < gh - 1 ∧ 0 < n.1 ∧ n.1 < gw - 1 ∧ g n = wallChar)

/-- The iterative DFS carving loop (`while stack:` in `create_maze`),
with explicit fuel; `none` means the fuel ran out (the termination
theorem shows the fuel passed by `create_maze` never does). -/
def carveLoop (gw gh : Int) : Nat → GridF → List Coord → List Nat →
    Option (GridF × List Nat)
  | 0, _, _, _ => none
  | _ + 1, g, [], s => some (g, s)
  | fuel + 1, g, c :: rest, s =>
      let uns := unvisitedNeighbors gw gh g c
      if uns.length = 0 then
        carveLoop gw gh fuel g rest s
      else
        let k := (randBelow uns.length s).1
        let s1 := (randBelow uns.length s).2
        let n := uns.getD k (0, 0)
        let wall : Coord := (c.1 + (n.1 - c.1) / 2, c.2 + (n.2 - c.2) / 2)
        carveLoop gw gh fuel (setPathF (setPathF g wall) n) (n :: c :: rest) s1

/-- The `edge_cells_logical` list: top row, bottom row, then the interior
of the left and right columns, in source order. -/
def edgeCellsLogical (w h : Int) : List Coord :=
  ((List.range w.toNat).map fun (i : Nat) => (((i : Int), (0 : Int)) : Coord))
    ++ ((List.range w.toNat).map fun (i : Nat) => (((i : Int), h - 1) : Coord))
    ++ ((List.range' 1 (h - 2).toNat).map fun (i : Nat) => (((0 : Int), (i : Int)) : Coord))
    ++ ((List.range' 1 (h - 2).toNat).map fun (i : Nat) => ((w - 1, (i : Int)) : Coord))

/-- `get_opening_coords`: boundary-wall grid cell for a logical edge cell,
testing top, bottom, left, right edge in that order (with the source's
fallback for a non-edge cell). -/
def getOpeningCoords (lx ly gw gh w h : Int) : Coord :=
  if ly = 0 then (2 * lx + 1, 0)
  else if ly = h - 1 then (2 * lx + 1, gh - 1)
  else if lx = 0 then (0, 2 * ly + 1)
  else if lx = w - 1 then (gw - 1, 2 * ly + 1)
  else (2 * lx + 1, 0)

/-- `random.sample(l, 2)`: two positions drawn without replacement.  The
oracle picks the first index `i` and then an index among the remaining
`length - 1` positions; the values may still coincide when the list
contains duplicates, exactly as in Python. -/
def sampleTwo (l : List Coord) (s : List Nat) : (Coord × Coord) × List Nat :=
  let i := (randBelow l.length s).1
  let s1 := (randBelow l.length s).2
  let j0 := (randBelow (l.length - 1) s1).1
  let s2 := (randBelow (l.length - 1) s1).2
  let j := if i ≤ j0 then j0 + 1 else j0
  ((l.getD i (0, 0), l.getD j (0, 0)), s2)

/-- Tabulate the generator's function grid into the list grid returned to
the callers. -/
def toListGrid (g : GridF) (gw gh : Nat) : Grid :=
  (List.range gh).map fun (y : Nat) =>
    (List.range gw).map fun (x : Nat) => g ((x : Int), (y : Int))

/-- Fuel passed to the carving loop; the termination theorem shows it
strictly dominates the loop's decreasing measure
`2·(interior wall cells) + stack length`. -/
def carveFuel (w h : Int) : Nat :=
  2 * ((2 * w - 1).toNat * (2 * h - 1).toNat) + 2

/-- `create_maze(logical_width, logical_height)`: returns
`(grid, start_node, end_node)`, or `none` for the source's
`(None, None, None)` invalid-dimension result (and, as a modelling
artifact, if the carving fuel were to run out, which it never does). -/
def create_maze (w h : Int) (ρ : List Nat) : Option (Grid × Coord × Coord) :=
  if 1 ≤ w ∧ 1 ≤ h then
    let gw : Int := 2 * w + 1
    let gh : Int := 2 * h + 1
    let sxl := (randBelow w.toNat ρ).1
    let ρ1 := (randBelow w.toNat ρ).2
    let syl := (randBelow h.toNat ρ1).1
    let ρ2 := (randBelow h.toNat ρ1).2
    let c0 : Coord := (2 * (sxl : Int) + 1, 2 * (syl : Int) + 1)
    let g1 := setPathF (fun _ => wallChar) c0
    match carveLoop gw gh (carveFuel w h) g1 [c0] ρ2 with
    | none => none
    | some (g2, ρ3) =>
      let edges := edgeCellsLogical w h
      let se :=
        if w = 1 ∧ h = 1 then ((((1 : Int), (0 : Int)) : Coord), (((1 : Int), gh - 1) : Coord))
        else if edges.length = 0 then ((((1 : Int), (0 : Int)) : Coord), ((gw - 2, gh - 1) : Coord))
        else if edges.length < 2 then
          let c1 := edges.getD 0 (0, 0)
          (getOpeningCoords c1.1 c1.2 gw gh w h, getOpeningCoords c1.1 c1.2 gw gh w h)
        else
          let c1 := (sampleTwo edges ρ3).1.1
          let c2 := (sampleTwo edges ρ3).1.2
          (getOpeningCoords c1.1 c1.2 gw gh w h, getOpeningCoords c2.1 c2.2 gw gh w h)
      let g3 := setPathF (setPathF g2 se.1) se.2
      some (toListGrid g3 gw.toNat gh.toNat, se.1, se.2)
  else none

/-- A Python argument as far as `create_maze`'s `isinstance` check can
see it: either an `int` or some non-integer value. -/
inductive PyArg where
  | int : Int → PyArg
  | nonInt : PyArg
deriving DecidableEq

/-- `create_maze` including the `isinstance(…, int)` part of the
dimension validation: any non-integer argument fails the check and the
call returns `(None, None, None)`. -/
def create_maze_py (a b : PyArg) (ρ : List Nat) : Option (Grid × Coord × Coord) :=
  match a, b with
  | .int w, .int h => create_maze w h ρ
  | _, _ => none

/-! ### Step-by-step solvers (`src/solvers/*.py`)

Each solver is a Python generator over one maze grid; we embed it as the
finite list of the tuples it yields.  `Except.error ()` is a raised
exception escaping from the generator body, `Except.ok none` is the
fuel-exhaustion artifact of the embedding (ruled out where needed), and
`Except.ok (some steps)` is the complete yield sequence. -/

/-- One yielded tuple `(visited_set, current_path_segment, is_done,
final_path)`; the mutable visited set is snapshotted as the list of its
elements in insertion order. -/
structure Step where
  visited : List Coord
  frontier : List Coord
  done : Bool
  result : Option (List Coord)
deriving DecidableEq, Repr

/-- The single terminal tuple `(set(), [], True, None)` yielded when the
grid is empty or no start/end can be determined. -/
def emptyDoneStep : Step := ⟨[], [], true, none⟩

/-- Python list indexing `l[i]`: negative indices wrap once from the
right; `none` is an `IndexError`. -/
def pyNth {α : Type} (l : List α) (i : Int) : Option α :=
  let j := if i < 0 then (l.length : Int) + i else i
  if 0 ≤ j then l.get? j.toNat else none

/-- `possible_starts` entries from the top edge (corners excluded). -/
def solverTopStarts (g : Grid) : List Coord :=
  (List.range' 1 ((g.headD []).length - 2)).filterMap fun x =>
    if getCell g (x : Int) 0 = pathChar then some (((x : Int), (0 : Int)) : Coord) else none

/-- `possible_ends` entries from the bottom edge (corners excluded). -/
def solverBottomEnds (g : Grid) : List Coord :=
  (List.range' 1 ((g.headD []).length - 2)).filterMap fun x =>
    if getCell g (x : Int) ((g.length : Int) - 1) = pathChar then
      some (((x : Int), (g.length : Int) - 1) : Coord) else none

/-- `possible_starts` entries from the left edge (corners excluded). -/
def solverLeftStarts (g : Grid) : List Coord :=
  (List.range' 1 (g.length - 2)).filterMap fun y =>
    if getCell g 0 (y : Int) = pathChar then some (((0 : Int), (y : Int)) : Coord) else none

/-- `possible_ends` entries from the right edge (corners excluded). -/
def solverRightEnds (g : Grid) : List Coord :=
  (List.range' 1 (g.length - 2)).filterMap fun y =>
    if getCell g ((((g.headD []).length : Int)) - 1) (y : Int) = pathChar then
      some (((((g.headD []).length : Int)) - 1, (y : Int)) : Coord) else none

/-- `possible_starts` after the corner fallback. -/
def solverStarts (g : Grid) : List Coord :=
  let starts0 := solverTopStarts g ++ solverLeftStarts g
  if starts0.length = 0 then
    (if getCell g 0 0 = pathChar then [(((0 : Int), (0 : Int)) : Coord)] else [])
      ++ (if getCell g 0 ((g.length : Int) - 1) = pathChar then
            [(((0 : Int), (g.length : Int) - 1) : Coord)] else [])
  else starts0

/-- `possible_ends` after the corner fallback. -/
def solverEnds (g : Grid) : List Coord :=
  let ends0 := solverBottomEnds g ++ solverRightEnds g
  if ends0.length = 0 then
    (if getCell g (((g.headD []).length : Int) - 1) 0 = pathChar then
        [((((g.headD []).length : Int) - 1, (0 : Int)) : Coord)] else [])
      ++ (if getCell g (((g.headD []).length : Int) - 1) ((g.length : Int) - 1) = pathChar then
            [((((g.headD []).length : Int) - 1, (g.length : Int) - 1) : Coord)] else [])
  else ends0

/-- The chosen start node, including the hard-coded probe `grid[1][0]`
(which can raise `IndexError` on a one-row grid). -/
def solverStartNode (g : Grid) : Except Unit (Option Coord) :=
  match (solverStarts g).head? with
  | some s => .ok (some s)
  | none =>
    match pyNth g 1 with
    | none => .error ()
    | some row =>
      match pyNth row 0 with
      | none => .error ()
      | some ch => .ok (if ch = pathChar then some ((0 : Int), (1 : Int)) else none)

/-- The chosen end node, including the hard-coded probe
`grid[height-2][width-1]` (Python's negative indexing wraps for
`height = 1`). -/
def solverEndNode (g : Grid) : Except Unit (Option Coord) :=
  match (solverEnds g).head? with
  | some e => .ok (some e)
  | none =>
    match pyNth g ((g.length : Int) - 2) with
    | none => .error ()
    | some row =>
      match pyNth row (((g.headD []).length : Int) - 1) with
      | none => .error ()
      | some ch => .ok (if ch = pathChar then
          some (((g.headD []).length : Int) - 1, (g.length : Int) - 2) else none)

/-- The entrance/exit discovery shared verbatim by the three solvers:
starts come from the top edge then the left edge, ends from the bottom
edge then the right edge (corners only as a fallback), with the final
hard-coded probes. -/
def findStartEnd (g : Grid) : Except Unit (Option Coord × Option Coord) :=
  match solverStartNode g with
  | .error e => .error e
  | .ok so =>
    match solverEndNode g with
    | .error e => .error e
    | .ok eo => .ok (so, eo)

/-- Prepend the initial `yield visited, [start_node], False, None` to a
loop's yields (a fuel-exhausted loop stays the `none` artifact). -/
def prependInitial (s : Coord) (o : Option (List Step)) :
    Except Unit (Option (List Step)) :=
  match o with
  | none => .ok none
  | some steps => .ok (some (⟨[s], [s], false, none⟩ :: steps))

/-- Neighbour offsets used by BFS and A*: up, down, left, right. -/
def bfsOffsets : List Coord := [(0, -1), (0, 1), (-1, 0), (1, 0)]

/-- One neighbour check of the BFS scan: a newly discovered in-bounds
path neighbour is marked visited, appended to the queue, and yields a
tuple. -/
def bfsScanStep (g : Grid) (width height : Nat) (c : Coord) (path : List Coord)
    (acc : List Step × List (Coord × List Coord) × List Coord) (d : Coord) :
    List Step × List (Coord × List Coord) × List Coord :=
  let v := acc.2.2
  let n : Coord := (c.1 + d.1, c.2 + d.2)
  if 0 ≤ n.2 ∧ n.2 < (height : Int) ∧ 0 ≤ n.1 ∧ n.1 < (width : Int) ∧
      getCell g n.1 n.2 = pathChar ∧ n ∉ v then
    let v2 := v ++ [n]
    let p2 := path ++ [n]
    (acc.1 ++ [⟨v2, p2, false, none⟩], acc.2.1 ++ [(n, p2)], v2)
  else acc

/-- One popped node's neighbour scan in BFS, over the four offsets. -/
def bfsScan (g : Grid) (width height : Nat) (c : Coord) (path : List Coord)
    (queue : List (Coord × List Coord)) (visited : List Coord) :
    List Step × List (Coord × List Coord) × List Coord :=
  bfsOffsets.foldl (bfsScanStep g width height c path) ([], queue, visited)

/-- The BFS `while queue:` loop, with fuel. -/
def bfsLoop (g : Grid) (width height : Nat) (endN : Coord) :
    Nat → List (Coord × List Coord) → List Coord → Option (List Step)
  | 0, _, _ => none
  | _ + 1, [], visited => some [⟨visited, [], true, none⟩]
  | fuel + 1, (c, path) :: rest, visited =>
      if c = endN then some [⟨visited, path, true, some path⟩]
      else
        let scan := bfsScan g width height c path rest visited
        (bfsLoop g width height endN fuel scan.2.1 scan.2.2).map (scan.1 ++ ·)

/-- Fuel for the BFS loop (dominates `2·|unvisited| + |queue|`). -/
def bfsFuel (g : Grid) : Nat := 2 * (g.length * (g.headD []).length) + 2

/-- `solve_bfs_step_by_step(grid)`: the full yield sequence of the BFS
generator. -/
def solve_bfs_step_by_step (g : Grid) : Except Unit (Option (List Step)) :=
  let height := g.length
  let width := (g.headD []).length
  if height = 0 ∨ width = 0 then .ok (some [emptyDoneStep])
  else
    match findStartEnd g with
    | .error e => .error e
    | .ok (so, eo) =>
      match so, eo with
      | some s, some e =>
          prependInitial s (bfsLoop g width height e (bfsFuel g) [(s, [s])] [s])
      | _, _ => .ok (some [emptyDoneStep])

/-- Neighbour preference order of the DFS solver: up, right, down, left. -/
def dfsOffsets : List Coord := [(0, -1), (1, 0), (0, 1), (-1, 0)]

/-- First unvisited path neighbour in DFS preference order (the scan
breaks at the first hit). -/
def dfsFirstNeighbor (g : Grid) (width height : Nat) (c : Coord)
    (visited : List Coord) : Option Coord :=
  dfsOffsets.findSome? fun d =>
    let n : Coord := (c.1 + d.1, c.2 + d.2)
    if 0 ≤ n.2 ∧ n.2 < (height : Int) ∧ 0 ≤ n.1 ∧ n.1 < (width : Int) ∧
        getCell g n.1 n.2 = pathChar ∧ n ∉ visited then some n else none

/-- The DFS `while stack:` loop (peek, descend or backtrack), with fuel. -/
def dfsLoop (g : Grid) (width height : Nat) (endN : Coord) :
    Nat → List (Coord × List Coord) → List Coord → Option (List Step)
  | 0, _, _ => none
  | _ + 1, [], visited => some [⟨visited, [], true, none⟩]
  | fuel + 1, (c, path) :: rest, visited =>
      if c = endN then some [⟨visited, path, true, some path⟩]
      else
        match dfsFirstNeighbor g width height c visited with
        | some n =>
            let v2 := visited ++ [n]
            let p2 := path ++ [n]
            (dfsLoop g width height endN fuel ((n, p2) :: (c, path) :: rest) v2).map
              (⟨v2, p2, false, none⟩ :: ·)
        | none =>
            match rest with
            | [] => dfsLoop g width height endN fuel [] visited
            | (_, p2) :: _ =>
                (dfsLoop g width height endN fuel rest visited).map
                  (⟨visited, p2, false, none⟩ :: ·)

/-- Fuel for the DFS loop. -/
def dfsFuel (g : Grid) : Nat := 2 * (g.length * (g.headD []).length) + 4

/-- `solve_dfs_step_by_step(grid)`: the full yield sequence of the DFS
generator. -/
def solve_dfs_step_by_step (g : Grid) : Except Unit (Option (List Step)) :=
  let height := g.length
  let width := (g.headD []).length
  if height = 0 ∨ width = 0 then .ok (some [emptyDoneStep])
  else
    match findStartEnd g with
    | .error e => .error e
    | .ok (so, eo) =>
      match so, eo with
      | some s, some e =>
          prependInitial s (dfsLoop g width height e (dfsFuel g) [(s, [s])] [s])
      | _, _ => .ok (some [emptyDoneStep])

/-- `heuristic(a, b)`: Manhattan distance. -/
def heuristic (a b : Coord) : Int := |a.1 - b.1| + |a.2 - b.2|

/-- One `(f_cost, g_cost, node, path_to_node)` tuple on the A* heap. -/
structure AEntry where
  f : Int
  g : Int
  node : Coord
  path : List Coord
deriving DecidableEq, Repr

/-- Python `<` on coordinate tuples (lexicographic). -/
def coordLtB (a b : Coord) : Bool :=
  decide (a.1 < b.1) || (a.1 == b.1 && decide (a.2 < b.2))

/-- Python `<` on lists of coordinates (lexicographic, proper prefixes
are smaller). -/
def pathLtB : List Coord → List Coord → Bool
  | [], [] => false
  | [], _ :: _ => true
  | _ :: _, [] => false
  | a :: l1, b :: l2 => if a = b then pathLtB l1 l2 else coordLtB a b

/-- Python `<` on the heap tuples `(f, g, node, path)`, as used by
`heapq` to order the priority queue. -/
def entryLtB (a b : AEntry) : Bool :=
  decide (a.f < b.f) || (a.f == b.f && (decide (a.g < b.g) || (a.g == b.g &&
    (coordLtB a.node b.node || (a.node == b.node && pathLtB a.path b.path)))))

/-- The heap order as a relation: `a` precedes `b` when `b` is not
strictly smaller. -/
def entryLe (a b : AEntry) : Prop := entryLtB b a = false

instance : DecidableRel entryLe := fun a b => by
  unfold entryLe; infer_instance

/-- `heapq.heappush`: the heap is modelled as a list kept sorted by the
tuple order, so the head is always the minimum that `heappop` returns. -/
def heapPush (e : AEntry) (l : List AEntry) : List AEntry :=
  List.orderedInsert entryLe e l

/-- One neighbour relaxation of the A* scan: an improved neighbour
updates `g_costs` and is pushed; a newly visited one also yields a
tuple. -/
def astarScanStep (g : Grid) (width height : Nat) (endN : Coord) (c : Coord)
    (gc : Int) (path : List Coord)
    (acc : List Step × List AEntry × (Coord → Option Int) × List Coord)
    (d : Coord) :
    List Step × List AEntry × (Coord → Option Int) × List Coord :=
  let gcs := acc.2.2.1
  let v := acc.2.2.2
  let n : Coord := (c.1 + d.1, c.2 + d.2)
  if 0 ≤ n.2 ∧ n.2 < (height : Int) ∧ 0 ≤ n.1 ∧ n.1 < (width : Int) ∧
      getCell g n.1 n.2 = pathChar then
    let newg := gc + 1
    let improves := match gcs n with
      | none => true
      | some old => decide (newg < old)
    if improves then
      let gcs2 : Coord → Option Int := fun p => if p = n then some newg else gcs p
      let f := newg + heuristic n endN
      let p2 := path ++ [n]
      let o2 := heapPush ⟨f, newg, n, p2⟩ acc.2.1
      if n ∉ v then
        let v2 := v ++ [n]
        (acc.1 ++ [⟨v2, p2, false, none⟩], o2, gcs2, v2)
      else (acc.1, o2, gcs2, v)
    else acc
  else acc

/-- One popped entry's neighbour relaxation scan in A*, over the four
offsets. -/
def astarScan (g : Grid) (width height : Nat) (endN : Coord) (c : Coord)
    (gc : Int) (path : List Coord) (opn : List AEntry)
    (gcosts : Coord → Option Int) (visited : List Coord) :
    List Step × List AEntry × (Coord → Option Int) × List Coord :=
  bfsOffsets.foldl (astarScanStep g width height endN c gc path)
    ([], opn, gcosts, visited)

/-- The A* `while open_set:` loop, with fuel. -/
def astarLoop (g : Grid) (width height : Nat) (endN : Coord) :
    Nat → List AEntry → (Coord → Option Int) → List Coord → Option (List Step)
  | 0, _, _, _ => none
  | _ + 1, [], _, visited => some [⟨visited, [], true, none⟩]
  | fuel + 1, ent :: rest, gcosts, visited =>
      if ent.node = endN then some [⟨visited, ent.path, true, some ent.path⟩]
      else
        let scan := astarScan g width height endN ent.node ent.g ent.path rest gcosts visited
        (astarLoop g width height endN fuel scan.2.1 scan.2.2.1 scan.2.2.2).map (scan.1 ++ ·)

/-- Fuel for the A* loop (dominates the number of pops, which is bounded
by the number of pushes; every push strictly improves some `g_cost`). -/
def astarFuel (g : Grid) : Nat :=
  let n := g.length * (g.headD []).length
  (n + 2) * (n + 2) + 2

/-- `solve_astar_step_by_step(grid)`: the full yield sequence of the A*
generator. -/
def solve_astar_step_by_step (g : Grid) : Except Unit (Option (List Step)) :=
  let height := g.length
  let width := (g.headD []).length
  if height = 0 ∨ width = 0 then .ok (some [emptyDoneStep])
  else
    match findStartEnd g with
    | .error e => .error e
    | .ok (so, eo) =>
      match so, eo with
      | some s, some e =>
          prependInitial s (astarLoop g width height e (astarFuel g)
            [⟨0 + heuristic s e, 0, s, [s]⟩]
            (fun p => if p = s then some 0 else none) [s])
      | _, _ => .ok (some [emptyDoneStep])

/-! ### Coordinator (`ui/maze_display.py` and the `main.py` registry)

`MazeDisplay` drives the solver generators.  A solver function is a
Python callable with a fixed parameter count; `start_single_solve` and
`start_algorithm_battle` invoke it with three positional arguments
`(grid, start, end)`, which raises `TypeError` at the call site unless
the callable accepts three parameters. -/

/-- A registered solver callable: its parameter count (from its `def`
line) and the generator trace it produces from a grid when called
compatibly. -/
structure PyFun where
  arity : Nat
  run : Grid → Except Unit (Option (List Step))

/-- Python call semantics for `solver_function(self.char_grid,
self.start_node_coords, self.end_node_coords)`: binding three positional
arguments raises `TypeError` (`Except.error ()`) unless the callable
takes three parameters. -/
def callWith3Args (f : PyFun) (g : Grid) (_s _e : Coord) :
    Except Unit (Option (List Step)) :=
  if f.arity = 3 then f.run g else .error ()

/-- `solve_bfs_step_by_step` as registered in `main.SOLVER_ALGORITHMS`:
`def solve_bfs_step_by_step(grid):` takes exactly one parameter. -/
def bfsSolverFun : PyFun := ⟨1, solve_bfs_step_by_step⟩

/-- `solve_dfs_step_by_step` as registered: one parameter. -/
def dfsSolverFun : PyFun := ⟨1, solve_dfs_step_by_step⟩

/-- `solve_astar_step_by_step` as registered: one parameter. -/
def astarSolverFun : PyFun := ⟨1, solve_astar_step_by_step⟩

/-- `main.SOLVER_ALGORITHMS` in dict insertion order. -/
def SOLVER_ALGORITHMS : List (String × PyFun) :=
  [("BFS", bfsSolverFun), ("DFS", dfsSolverFun), ("A*", astarSolverFun)]

/-- One entry of `MazeDisplay._solver_states`: the generator (its
remaining yields) plus the cached visualization fields. -/
structure EngSt where
  rem : List Step
  visitedC : List Coord
  curPath : List Coord
  finalPath : Option (List Coord)
  isDone : Bool
  foundPath : Bool
deriving DecidableEq, Repr

/-- `_create_empty_solver_state(generator)`. -/
def initEngSt (tr : List Step) : EngSt := ⟨tr, [], [], none, false, false⟩

/-- `_ai_solve_step_for_solver` acting on one engine: returns the updated
state and whether the engine stays in the active set.  An empty `rem` is
the generator's `StopIteration`. -/
def stepEngine (s : EngSt) : EngSt × Bool :=
  if s.isDone then (s, false)
  else
    match s.rem with
    | [] =>
        ({ s with isDone := true,
                  foundPath := match s.finalPath with
                    | some (_ :: _) => s.foundPath
                    | _ => false }, false)
    | st :: rest =>
        let s1 : EngSt :=
          { s with rem := rest, visitedC := st.visited, curPath := st.frontier,
                   isDone := st.done }
        if st.done then
          ({ s1 with finalPath := st.result,
                     foundPath := match st.result with
                       | some (_ :: _) => true
                       | _ => false }, false)
        else (s1, true)

/-- The solving-related state of a `MazeDisplay`.  `solverStates` is the
`_solver_states` dict in insertion (registration) order; `activeNames`
holds the members of the `_active_solver_names` Python set — its order
carries no meaning, and iteration order over the set is supplied
separately wherever the source iterates it. -/
structure Display where
  charGrid : Option Grid
  startC : Option Coord
  endC : Option Coord
  solverStates : List (String × EngSt)
  activeNames : List String
  isBattle : Bool

/-- `is_solving`. -/
def isSolving (d : Display) : Bool := d.activeNames ≠ []

/-- `reset_solve_visuals` (the parts that matter to the solving state). -/
def resetSolveVisuals (d : Display) : Display :=
  { d with solverStates := [], activeNames := [], isBattle := false }

/-- `_is_maze_ready_for_solve`: an unset or empty grid, or a missing
start or end node, blocks solving. -/
def mazeReady (d : Display) : Bool :=
  match d.charGrid, d.startC, d.endC with
  | some (_ :: _), some _, some _ => true
  | _, _, _ => false

/-- Look up a solver state. -/
def lookupState (l : List (String × EngSt)) (name : String) : Option EngSt :=
  (l.find? (fun p => p.1 = name)).map (·.2)

/-- Replace a solver state in the dict. -/
def updState (l : List (String × EngSt)) (name : String) (st : EngSt) :
    List (String × EngSt) :=
  l.map fun p => if p.1 = name then (name, st) else p

/-- `_ai_solve_step_for_solver(solver_name)` on the display: a missing or
finished state is discarded from the active set; otherwise the generator
is advanced once and the state updated. -/
def aiSolveStepFor (d : Display) (name : String) : Display :=
  match lookupState d.solverStates name with
  | none => { d with activeNames := d.activeNames.erase name }
  | some st =>
      { d with solverStates := updState d.solverStates name (stepEngine st).1,
               activeNames := if (stepEngine st).2 then d.activeNames
                              else d.activeNames.erase name }

/-- `start_single_solve(solver_function, solver_name)`. -/
def startSingleSolve (f : PyFun) (name : String) (d : Display) :
    Display × Bool :=
  if isSolving d then (d, false)
  else if mazeReady d = false then (d, false)
  else
    let d1 := resetSolveVisuals d
    let d2 := { d1 with activeNames := d1.activeNames ++ [name] }
    match d.charGrid, d.startC, d.endC with
    | some g, some s, some e =>
        (match callWith3Args f g s e with
         | .error _ => (resetSolveVisuals d2, false)
         | .ok tr =>
             let d3 := { d2 with solverStates := [(name, initEngSt (tr.getD []))] }
             (aiSolveStepFor d3 name, true))
    | _, _, _ => (d, false)

/-- `start_algorithm_battle(solver_functions_map)`: register each entry
of the map in insertion order; a solver whose invocation raises is
skipped; with no valid solver the whole start is rolled back. -/
def startAlgorithmBattle (funcs : List (String × PyFun)) (d : Display) :
    Display × Bool :=
  if isSolving d then (d, false)
  else if mazeReady d = false then (d, false)
  else if funcs.length = 0 then (d, false)
  else
    match d.charGrid, d.startC, d.endC with
    | some g, some s, some e =>
        let d1 := { resetSolveVisuals d with isBattle := true }
        let res := funcs.foldl
          (fun (acc : Display × Nat) p =>
            match callWith3Args p.2 g s e with
            | .error _ => acc
            | .ok tr =>
                let dd2 : Display :=
                  { acc.1 with
                      solverStates := acc.1.solverStates ++ [(p.1, initEngSt (tr.getD []))],
                      activeNames := acc.1.activeNames ++ [p.1] }
                (aiSolveStepFor dd2 p.1, acc.2 + 1))
          (d1, 0)
        if res.2 = 0 then (resetSolveVisuals res.1, false) else (res.1, true)
    | _, _, _ => (d, false)

/-- `handle_solve_event`: one timer tick.  The source iterates over
`list(self._active_solver_names)` — a copy of a Python *set* — so the
iteration order `enum` is an arbitrary enumeration of that set, supplied
here as an explicit parameter.  Returns the updated display and the
order in which engines were actually advanced. -/
def handleSolveEvent (d : Display) (enum : List String) :
    Display × List String :=
  if isSolving d then
    enum.foldl
      (fun (acc : Display × List String) name =>
        if name ∈ acc.1.activeNames then (aiSolveStepFor acc.1 name, acc.2 ++ [name])
        else acc)
      (d, [])
  else (d, [])

/-! ### Auxiliary definitions for the statements -/

/-- A rectangular grid: every row has the width the solvers compute from
`grid[0]` (the generator only ever produces such grids). -/
def Rect (g : Grid) : Prop := ∀ row ∈ g, row.length = (g.headD []).length

/-- The 3×3 grid of the 1×1 maze, together with its openings — this is
exactly `create_maze 1 1` (the spec's concrete scenario). -/
def mazeGrid11 : Grid :=
  [['#', ' ', '#'], ['#', ' ', '#'], ['#', ' ', '#']]

/-- The yield sequence of each solver on `mazeGrid11`. -/
def steps11 : List Step :=
  [⟨[(1, 0)], [(1, 0)], false, none⟩,
   ⟨[(1, 0), (1, 1)], [(1, 0), (1, 1)], false, none⟩,
   ⟨[(1, 0), (1, 1), (1, 2)], [(1, 0), (1, 1), (1, 2)], false, none⟩,
   ⟨[(1, 0), (1, 1), (1, 2)], [(1, 0), (1, 1), (1, 2)], true,
     some [(1, 0), (1, 1), (1, 2)]⟩]

/-- Extract the yield list from a solver run (empty on error). -/
def traceOf (r : Except Unit (Option (List Step))) : List Step :=
  match r with
  | .ok (some s) => s
  | _ => []

/-- A battle-mode display with the three engines registered in the order
BFS, DFS, A* over `mazeGrid11`, all still active. -/
def battleDisplay11 : Display :=
  { charGrid := some mazeGrid11
    startC := some (1, 0)
    endC := some (1, 2)
    solverStates :=
      [("BFS", initEngSt (traceOf (solve_bfs_step_by_step mazeGrid11))),
       ("DFS", initEngSt (traceOf (solve_dfs_step_by_step mazeGrid11))),
       ("A*", initEngSt (traceOf (solve_astar_step_by_step mazeGrid11)))]
    activeNames := ["BFS", "DFS", "A*"]
    isBattle := true }

/-- An all-wall single-row grid; no opening can be found on it. -/
def oneRowGrid : Grid := [['#', '#']]

/-- An all-wall 3×3 grid: two rows or more, but no opening anywhere. -/
def allWall3 : Grid :=
  [['#', '#', '#'], ['#', '#', '#'], ['#', '#', '#']]

/-- Monotone step evolution: the visited set never shrinks, `done` never
reverts, and a set `result_path` is preserved. -/
def stepMono (a b : Step) : Prop :=
  a.visited ⊆ b.visited ∧ (a.done = true → b.done = true) ∧
    (∀ p, a.result = some p → b.result = some p)

/-- A trace is monotone when `stepMono` relates every pair of yields in
order. -/
def MonoTrace (steps : List Step) : Prop :=
  ∀ (i j : Nat) (hi : i < steps.length) (hj : j < steps.length), i ≤ j →
    stepMono (steps.get ⟨i, hi⟩) (steps.get ⟨j, hj⟩)

/-- `done` (with the result) appears exactly on the final yield of a
trace. -/
def OnlyLastDone (steps : List Step) : Prop :=
  (∀ st ∈ steps.dropLast, st.done = false ∧ st.result = none) ∧
    (∀ st ∈ steps.getLast?, st.done = true)

/-- Invariant of a neighbour scan's accumulator: the yields so far are
chained, all in-progress, and their visited lists sit between the
visited list `v0` from before the scan and the current one `v`. -/
def ScanInv (v0 : List Coord) (steps : List Step) (v : List Coord) : Prop :=
  List.Chain' stepMono steps ∧
    (∀ st ∈ steps, st.done = false ∧ st.result = none ∧
      v0 ⊆ st.visited ∧ st.visited ⊆ v) ∧
    v0 ⊆ v

/-- Structural properties of a search loop's yields, relative to the
visited list at loop entry: nonempty, chained by `stepMono`, every yield
extends the entry visited list, and `done` (with the result) appears
exactly on the final yield. -/
def LoopTrace (v : List Coord) (steps : List Step) : Prop :=
  steps ≠ [] ∧
  List.Chain' stepMono steps ∧
  (∀ st ∈ steps, v ⊆ st.visited) ∧
  (∀ st ∈ steps.dropLast, st.done = false ∧ st.result = none) ∧
  (∀ st ∈ steps.getLast?, st.done = true)

/-- The passage-centre cells of a logical `w × h` maze: grid coordinates
`(2i+1, 2j+1)`. -/
def centersF (w h : Int) : Finset Coord :=
  (Finset.range w.toNat ×ˢ Finset.range h.toNat).image
    (fun ij => ((2 * (ij.1 : Int) + 1, 2 * (ij.2 : Int) + 1) : Coord))

/-- The inter-cell wall joints: horizontal between `(i,j)` and
`(i+1,j)`, vertical between `(i,j)` and `(i,j+1)`. -/
def jointsF (w h : Int) : Finset Coord :=
  ((Finset.range (w.toNat - 1) ×ˢ Finset.range h.toNat).image
    (fun ij => ((2 * (ij.1 : Int) + 2, 2 * (ij.2 : Int) + 1) : Coord))) ∪
  ((Finset.range w.toNat ×ˢ Finset.range (h.toNat - 1)).image
    (fun ij => ((2 * (ij.1 : Int) + 1, 2 * (ij.2 : Int) + 2) : Coord)))

/-- Number of passage-centre cells currently carved to `Path`. -/
def centerPathCount (F : GridF) (w h : Int) : Nat :=
  ((centersF w h).filter (fun c => F c = pathChar)).card

/-- Number of wall joints currently carved to `Path`. -/
def jointPathCount (F : GridF) (w h : Int) : Nat :=
  ((jointsF w h).filter (fun c => F c = pathChar)).card

/-- The strictly interior cells of the `(2w+1) × (2h+1)` grid. -/
def interiorF (w h : Int) : Finset Coord :=
  Finset.Icc (1 : Int) (2 * w - 1) ×ˢ Finset.Icc (1 : Int) (2 * h - 1)

/-- Interior cells still walls: the decreasing half of the carving
measure. -/
def wallInteriorCount (F : GridF) (w h : Int) : Nat :=
  ((interiorF w h).filter (fun c => F c = wallChar)).card

/-- The two passage-centres adjacent to a wall joint. -/
def jointNbrs (c : Coord) : Coord × Coord :=
  if c.1 % 2 = 0 then ((c.1 - 1, c.2), (c.1 + 1, c.2))
  else ((c.1, c.2 - 1), (c.1, c.2 + 1))

/-- The carving loop's invariant: stack cells are carved centres; every
carved centre is on the stack or fully explored; carved joints are one
fewer than carved centres and connect two carved centres; only centres
and joints are ever carved; cells are two-valued. -/
def CarveInv (w h : Int) (F : GridF) (stack : List Coord) : Prop :=
  (∀ c ∈ stack, c ∈ centersF w h ∧ F c = pathChar) ∧
  (∀ c ∈ centersF w h, F c = pathChar →
      c ∈ stack ∨ unvisitedNeighbors (2 * w + 1) (2 * h + 1) F c = []) ∧
  jointPathCount F w h + 1 = centerPathCount F w h ∧
  (∀ j ∈ jointsF w h, F j = pathChar →
      F (jointNbrs j).1 = pathChar ∧ F (jointNbrs j).2 = pathChar) ∧
  (∀ c : Coord, F c = pathChar → c ∈ centersF w h ∨ c ∈ jointsF w h) ∧
  (∀ c : Coord, F c = wallChar ∨ F c = pathChar)

/-- Shorthand for the opening cell assigned to a logical edge cell by
`create_maze`. -/
def mazeOpening (w h : Int) (c : Coord) : Coord :=
  getOpeningCoords c.1 c.2 (2 * w + 1) (2 * h + 1) w h

/-- Carved passage-centre count of a returned character grid. -/
def gridCenterPathCount (g : Grid) (w h : Int) : Nat :=
  ((centersF w h).filter (fun c => getCell g c.1 c.2 = pathChar)).card

/-- Carved wall-joint count of a returned character grid. -/
def gridJointPathCount (g : Grid) (w h : Int) : Nat :=
  ((jointsF w h).filter (fun c => getCell g c.1 c.2 = pathChar)).card

/-- The cell test shared by the BFS and A* neighbour scans: in bounds
and a path character. -/
def inBoundsOpen (g : Grid) (c : Coord) : Prop :=
  0 ≤ c.2 ∧ c.2 < (g.length : Int) ∧ 0 ≤ c.1 ∧
    c.1 < ((g.headD []).length : Int) ∧ getCell g c.1 c.2 = pathChar

instance (g : Grid) (c : Coord) : Decidable (inBoundsOpen g c) := by
  unfold inBoundsOpen; infer_instance

/-- One search move of the grid graph: `b` is an open in-bounds cell one
offset step away from `a`. -/
def stepAdj (g : Grid) (a b : Coord) : Prop :=
  inBoundsOpen g b ∧ ∃ d ∈ bfsOffsets, b = (a.1 + d.1, a.2 + d.2)

instance (g : Grid) (a b : Coord) : Decidable (stepAdj g a b) := by
  unfold stepAdj
  exact instDecidableAnd

/-- A walk of the grid graph from `s` to `e`: the node sequence starts at
`s`, ends at `e` and each consecutive pair is a search move. -/
def IsPath (g : Grid) (s e : Coord) (p : List Coord) : Prop :=
  p.head? = some s ∧ p.getLast? = some e ∧ List.Chain' (stepAdj g) p

instance (g : Grid) (s e : Coord) (p : List Coord) : Decidable (IsPath g s e p) := by
  unfold IsPath
  exact instDecidableAnd

/-- The invariant of the BFS loop, with recorded discovery lengths `μ`:
queued entries carry valid paths of their recorded lengths to already
visited nodes with pairwise distinct nodes; queued lengths are
nondecreasing and spread at most one apart; fully processed nodes have
all their neighbours visited one level deeper at most; visited levels
never exceed any queued length plus one; the start is visited at level
one. -/
def BfsInv (g : Grid) (s : Coord) (μ : Coord → Nat)
    (queue : List (Coord × List Coord)) (visited : List Coord) : Prop :=
  (∀ x ∈ queue, IsPath g s x.1 x.2 ∧ x.2.length = μ x.1 ∧ x.1 ∈ visited) ∧
  List.Pairwise (fun x y : Coord × List Coord => x.2.length ≤ y.2.length)
    queue ∧
  (∀ x ∈ queue, ∀ y ∈ queue, x.2.length ≤ y.2.length + 1) ∧
  (∀ v ∈ visited, (∀ p, (v, p) ∉ queue) →
    ∀ w, stepAdj g v w → w ∈ visited ∧ μ w ≤ μ v + 1) ∧
  (∀ v ∈ visited, ∀ x ∈ queue, μ v ≤ x.2.length + 1) ∧
  (μ s = 1 ∧ s ∈ visited) ∧
  (queue.map Prod.fst).Nodup

/-- The ordering on heap entries actually used by the optimality
argument: nondecreasing `f`. -/
def fLe (a b : AEntry) : Prop := a.f ≤ b.f

/-- The invariant of the A* loop, with the ghost list `P` of finalised
(processed, non-stale) nodes: open entries carry valid paths matching
their `g` and `f` values and never beat the recorded cost of their node;
the open list has nondecreasing `f`; the start is recorded at cost `0`;
every recorded cost is carried by an open entry unless its node is
finalised; finalised nodes have optimal recorded costs and fully relaxed
neighbours; the search target is never finalised. -/
def AstarInv (g : Grid) (s e : Coord) (opn : List AEntry)
    (gcs : Coord → Option Int) (P : List Coord) : Prop :=
  (∀ x ∈ opn, IsPath g s x.node x.path ∧ (x.path.length : Int) = x.g + 1 ∧
    0 ≤ x.g ∧ x.f = x.g + heuristic x.node e ∧
    ∃ gx, gcs x.node = some gx ∧ gx ≤ x.g) ∧
  List.Pairwise fLe opn ∧
  gcs s = some 0 ∧
  (∀ v gv, gcs v = some gv →
    v ∈ P ∨ ∃ y ∈ opn, y.node = v ∧ y.g = gv) ∧
  (∀ u ∈ P, ∃ gu, gcs u = some gu ∧
    (∀ q, IsPath g s u q → gu + 1 ≤ (q.length : Int)) ∧
    (∀ d ∈ bfsOffsets, inBoundsOpen g (u.1 + d.1, u.2 + d.2) →
      ∃ gw, gcs (u.1 + d.1, u.2 + d.2) = some gw ∧ gw ≤ gu + 1)) ∧
  e ∉ P

/-! ## Theorems -/

/-- Invoking a one-parameter solver callable with three arguments raises
`TypeError`. -/
theorem callWith3Args_arity_one (f : PyFun) (hf : f.arity = 1) (g : Grid)
    (s e : Coord) : callWith3Args f g s e = .error () := by
  simp [callWith3Args, hf]

/-- A display that is not currently solving has an empty active set. -/
theorem not_solving_active_nil (d : Display) (hs : ¬ isSolving d = true) :
    d.activeNames = [] := by
  by_contra h
  exact hs (by simpa [isSolving] using h)

/-- `start_single_solve` with a one-parameter solver callable fails and
leaves the active set unchanged. -/
theorem startSingleSolve_arity_one_fails (f : PyFun) (hf : f.arity = 1)
    (name : String) (d : Display) :
    (startSingleSolve f name d).2 = false ∧
      (startSingleSolve f name d).1.activeNames = d.activeNames := by
  unfold startSingleSolve
  by_cases hs : isSolving d = true
  · simp [hs]
  · have hact : d.activeNames = [] := not_solving_active_nil d hs
    rcases hcg : d.charGrid with _ | g
    · simp [hs, mazeReady, hcg]
    · rcases g with _ | ⟨r, rs⟩
      · simp [hs, mazeReady, hcg]
      · rcases hsc : d.startC with _ | s
        · simp [hs, mazeReady, hcg, hsc]
        · rcases hec : d.endC with _ | e
          · simp [hs, mazeReady, hcg, hsc, hec]
          · simp [hs, mazeReady, hcg, hsc, hec, callWith3Args, hf,
              resetSolveVisuals, hact]

/-- `start_algorithm_battle` over the registry of one-parameter solver
callables fails and leaves the active set unchanged. -/
theorem startAlgorithmBattle_arity_one_fails (d : Display) :
    (startAlgorithmBattle SOLVER_ALGORITHMS d).2 = false ∧
      (startAlgorithmBattle SOLVER_ALGORITHMS d).1.activeNames = d.activeNames := by
  unfold startAlgorithmBattle
  by_cases hs : isSolving d = true
  · simp [hs]
  · have hact : d.activeNames = [] := not_solving_active_nil d hs
    rcases hcg : d.charGrid with _ | g
    · simp [hs, mazeReady, hcg]
    · rcases g with _ | ⟨r, rs⟩
      · simp [hs, mazeReady, hcg]
      · rcases hsc : d.startC with _ | s
        · simp [hs, mazeReady, hcg, hsc]
        · rcases hec : d.endC with _ | e
          · simp [hs, mazeReady, hcg, hsc, hec]
          · simp [hs, mazeReady, hcg, hsc, hec, SOLVER_ALGORITHMS,
              callWith3Args, bfsSolverFun, dfsSolverFun, astarSolverFun,
              resetSolveVisuals, hact]

/-- C1: for every display state (in particular any generated maze), both
`start_single_solve` (for each of BFS, DFS, A*) and
`start_algorithm_battle` over the `SOLVER_ALGORITHMS` map return `False`:
the coordinator invokes the solver functions with three arguments while
each takes exactly one parameter, so the call raises `TypeError`, the
handler rolls the start back, and the active-solver set is unchanged —
no solver state ever becomes active through these entry points. -/
theorem C1_start_entry_points_always_fail (d : Display) :
    (startSingleSolve bfsSolverFun "BFS" d).2 = false ∧
    (startSingleSolve dfsSolverFun "DFS" d).2 = false ∧
    (startSingleSolve astarSolverFun "A*" d).2 = false ∧
    (startAlgorithmBattle SOLVER_ALGORITHMS d).2 = false ∧
    (startSingleSolve bfsSolverFun "BFS" d).1.activeNames = d.activeNames ∧
    (startSingleSolve dfsSolverFun "DFS" d).1.activeNames = d.activeNames ∧
    (startSingleSolve astarSolverFun "A*" d).1.activeNames = d.activeNames ∧
    (startAlgorithmBattle SOLVER_ALGORITHMS d).1.activeNames = d.activeNames := by
  refine ⟨(startSingleSolve_arity_one_fails bfsSolverFun rfl "BFS" d).1,
    (startSingleSolve_arity_one_fails dfsSolverFun rfl "DFS" d).1,
    (startSingleSolve_arity_one_fails astarSolverFun rfl "A*" d).1,
    (startAlgorithmBattle_arity_one_fails d).1,
    (startSingleSolve_arity_one_fails bfsSolverFun rfl "BFS" d).2,
    (startSingleSolve_arity_one_fails dfsSolverFun rfl "DFS" d).2,
    (startSingleSolve_arity_one_fails astarSolverFun rfl "A*" d).2,
    (startAlgorithmBattle_arity_one_fails d).2⟩

/-- C2 counterexample: `create_maze(2, 1)` can return identical start and
end nodes.  For logical height 1 the `edge_cells_logical` list repeats
every cell (top and bottom row coincide), so `random.sample` can draw the
same logical cell twice; both copies map to the same opening `(1, 0)`. -/
theorem C2_counterexample_start_eq_end :
    ∃ g s e, create_maze 2 1 [0, 0, 0, 0, 1] = some (g, s, e) ∧ s = e ∧
      s = ((1 : Int), (0 : Int)) := by
  exact ⟨_, _, _, rfl, rfl, rfl⟩

/-- C6 counterexample: on the 1×1 maze grid the BFS generator yields its
terminal tuple (`done = true` with the final path) as its fourth and last
yield; the next `advance()` does not re-return that terminal result — the
generator is exhausted (`StopIteration`), so reading step 4 gives nothing
rather than the terminal result again. -/
theorem C6_counterexample_stop_iteration :
    solve_bfs_step_by_step mazeGrid11 = .ok (some steps11) ∧
    (steps11.get? 3).map Step.done = some true ∧
    steps11.get? 4 = none ∧
    steps11.get? 4 ≠ steps11.get? 3 := by
  refine ⟨rfl, by decide, by decide, by decide⟩

/-- C9 counterexample: in battle mode the tick handler iterates a copy of
the Python *set* `_active_solver_names`; `["A*", "DFS", "BFS"]` is a
valid enumeration of that set (a permutation of the active names), and
under it the engines are advanced in that order — not in the
registration order BFS, DFS, A* the claim asserts. -/
theorem C9_counterexample_set_iteration_order :
    List.Perm ["A*", "DFS", "BFS"] battleDisplay11.activeNames ∧
    battleDisplay11.isBattle = true ∧
    (handleSolveEvent battleDisplay11 ["A*", "DFS", "BFS"]).2 =
      ["A*", "DFS", "BFS"] ∧
    (handleSolveEvent battleDisplay11 ["A*", "DFS", "BFS"]).2 ≠
      ["BFS", "DFS", "A*"] := by
  refine ⟨by decide, rfl, by decide, by decide⟩

/-- C10 counterexample: on an all-wall single-row grid no start or end
node can be determined, yet none of the solvers yields a terminal step —
the hard-coded probe `grid[1][0]` raises `IndexError` out of the first
`advance()` instead. -/
theorem C10_counterexample_one_row_raises :
    (oneRowGrid.all fun row => row.all fun ch => ch == wallChar) = true ∧
    solve_bfs_step_by_step oneRowGrid = .error () ∧
    solve_dfs_step_by_step oneRowGrid = .error () ∧
    solve_astar_step_by_step oneRowGrid = .error () := by
  refine ⟨by decide, rfl, rfl, rfl⟩

/-- Advancing one engine only ever removes that engine's own name from
the active set. -/
theorem aiSolveStepFor_mem_active (d : Display) (name m : String)
    (hm : m ≠ name) :
    m ∈ (aiSolveStepFor d name).activeNames ↔ m ∈ d.activeNames := by
  unfold aiSolveStepFor
  cases h : lookupState d.solverStates name with
  | none => simp [List.mem_erase_of_ne hm]
  | some st =>
      cases hb : (stepEngine st).2 <;> simp [hb, List.mem_erase_of_ne hm]

/-- The tick handler's fold advances exactly the enumerated names, in
enumeration order. -/
theorem handleSolveEvent_foldl_order (enum : List String) :
    ∀ (d : Display) (order : List String), enum.Nodup →
      (∀ n ∈ enum, n ∈ d.activeNames) →
      (enum.foldl
        (fun (acc : Display × List String) name =>
          if name ∈ acc.1.activeNames then (aiSolveStepFor acc.1 name, acc.2 ++ [name])
          else acc) (d, order)).2 = order ++ enum := by
  induction enum with
  | nil => intro d order _ _; simp
  | cons n rest ih =>
      intro d order hnd hmem
      have hn : n ∈ d.activeNames := hmem n (by simp)
      rw [List.foldl_cons, if_pos hn]
      have hrest : ∀ m ∈ rest, m ∈ (aiSolveStepFor d n).activeNames := by
        intro m hmr
        have hne : m ≠ n := by
          rintro rfl
          exact (List.nodup_cons.mp hnd).1 hmr
        exact (aiSolveStepFor_mem_active d n m hne).mpr (hmem m (by simp [hmr]))
      have := ih (aiSolveStepFor d n) (order ++ [n]) (List.nodup_cons.mp hnd).2 hrest
      simpa [List.append_assoc] using this

/-- C9 (amended): within one `tick()` in battle (or any) mode the still
active engines are advanced in exactly the iteration order of the copied
`_active_solver_names` Python set — a deterministic order within one
call, but an arbitrary enumeration of the set, not necessarily the
registration order (see the counterexample). -/
theorem C9_amended_tick_follows_set_enumeration (d : Display)
    (enum : List String) (hs : isSolving d = true) (hnd : enum.Nodup)
    (hmem : ∀ n ∈ enum, n ∈ d.activeNames) :
    (handleSolveEvent d enum).2 = enum := by
  unfold handleSolveEvent
  rw [if_pos hs]
  simpa using handleSolveEvent_foldl_order enum d [] hnd hmem

/-- Witness for the amended C9 at a concrete battle state and
enumeration. -/
theorem C9_amended_witness :
    (handleSolveEvent battleDisplay11 ["BFS", "DFS", "A*"]).2 =
      ["BFS", "DFS", "A*"] :=
  C9_amended_tick_follows_set_enumeration battleDisplay11 ["BFS", "DFS", "A*"]
    (by decide) (by decide) (by decide)

/-- `pyNth` at a nonnegative index is plain list indexing. -/
theorem pyNth_nonneg {α : Type} (l : List α) (i : Int) (h : 0 ≤ i) :
    pyNth l i = l.get? i.toNat := by
  simp [pyNth, not_lt.mpr h, h]

/-- The start-node probe cannot raise on a grid with at least two rows
of positive width. -/
theorem solverStartNode_isOk (g : Grid) (hh : 2 ≤ g.length)
    (hw : 1 ≤ (g.headD []).length) (hr : Rect g) :
    ∃ so, solverStartNode g = .ok so := by
  unfold solverStartNode
  cases hhd : (solverStarts g).head? with
  | some s => exact ⟨some s, rfl⟩
  | none =>
      have h1 : (1 : Int).toNat < g.length := by omega
      obtain ⟨row, hrow⟩ : ∃ row, g.get? (1 : Int).toNat = some row :=
        ⟨_, List.get?_eq_get h1⟩
      have hmem : row ∈ g := List.get?_mem hrow
      have hlen : 1 ≤ row.length := le_of_le_of_eq hw (hr row hmem).symm
      obtain ⟨ch, hch⟩ : ∃ ch, row.get? (0 : Int).toNat = some ch :=
        ⟨_, List.get?_eq_get (by omega)⟩
      have e1 : pyNth g 1 = some row := by
        rw [pyNth_nonneg g 1 (by omega)]; exact hrow
      have e2 : pyNth row 0 = some ch := by
        rw [pyNth_nonneg row 0 (by omega)]; exact hch
      simp only [e1, e2]
      exact ⟨_, rfl⟩

/-- The end-node probe cannot raise on a grid with at least two rows of
positive width. -/
theorem solverEndNode_isOk (g : Grid) (hh : 2 ≤ g.length)
    (hw : 1 ≤ (g.headD []).length) (hr : Rect g) :
    ∃ eo, solverEndNode g = .ok eo := by
  unfold solverEndNode
  cases hhd : (solverEnds g).head? with
  | some e => exact ⟨some e, rfl⟩
  | none =>
      have h1 : ((g.length : Int) - 2).toNat < g.length := by omega
      obtain ⟨row, hrow⟩ : ∃ row, g.get? ((g.length : Int) - 2).toNat = some row :=
        ⟨_, List.get?_eq_get h1⟩
      have hmem : row ∈ g := List.get?_mem hrow
      have hlen : 1 ≤ row.length := le_of_le_of_eq hw (hr row hmem).symm
      have h2 : (((g.headD []).length : Int) - 1).toNat < row.length := by
        rw [hr row hmem]; omega
      obtain ⟨ch, hch⟩ : ∃ ch, row.get? (((g.headD []).length : Int) - 1).toNat = some ch :=
        ⟨_, List.get?_eq_get h2⟩
      have e1 : pyNth g ((g.length : Int) - 2) = some row := by
        rw [pyNth_nonneg g _ (by omega)]; exact hrow
      have e2 : pyNth row (((g.headD []).length : Int) - 1) = some ch := by
        rw [pyNth_nonneg row _ (by omega)]; exact hch
      simp only [e1, e2]
      exact ⟨_, rfl⟩

/-- The whole entrance/exit discovery cannot raise on a grid with at
least two rows of positive width. -/
theorem findStartEnd_isOk (g : Grid) (hh : 2 ≤ g.length)
    (hw : 1 ≤ (g.headD []).length) (hr : Rect g) :
    ∃ so eo, findStartEnd g = .ok (so, eo) := by
  obtain ⟨so, hso⟩ := solverStartNode_isOk g hh hw hr
  obtain ⟨eo, heo⟩ := solverEndNode_isOk g hh hw hr
  exact ⟨so, eo, by rw [findStartEnd, hso, heo]⟩

/-- On an empty grid (no rows or no columns) every solver immediately
yields the terminal tuple. -/
theorem solvers_on_empty_grid (g : Grid)
    (h0 : g.length = 0 ∨ (g.headD []).length = 0) :
    solve_bfs_step_by_step g = .ok (some [emptyDoneStep]) ∧
    solve_dfs_step_by_step g = .ok (some [emptyDoneStep]) ∧
    solve_astar_step_by_step g = .ok (some [emptyDoneStep]) := by
  rcases h0 with h | h
  · have hg : g = [] := List.length_eq_zero.mp h
    subst hg
    simp [solve_bfs_step_by_step, solve_dfs_step_by_step, solve_astar_step_by_step]
  · have hw : (g.headD []) = [] := List.length_eq_zero.mp h
    have hw2 : (g.head?).getD [] = [] := by
      rw [← List.headD_eq_head?]; exact hw
    simp [solve_bfs_step_by_step, solve_dfs_step_by_step,
      solve_astar_step_by_step, hw, hw2]

/-- When discovery completes but one of the nodes is missing, each solver
yields the single terminal tuple `(set(), [], True, None)`. -/
theorem solvers_on_missing_node (g : Grid) (so eo : Option Coord)
    (hfe : findStartEnd g = .ok (so, eo)) (hmiss : so = none ∨ eo = none) :
    solve_bfs_step_by_step g = .ok (some [emptyDoneStep]) ∧
    solve_dfs_step_by_step g = .ok (some [emptyDoneStep]) ∧
    solve_astar_step_by_step g = .ok (some [emptyDoneStep]) := by
  by_cases h0 : g.length = 0 ∨ (g.headD []).length = 0
  · exact solvers_on_empty_grid g h0
  · unfold solve_bfs_step_by_step solve_dfs_step_by_step solve_astar_step_by_step
    rcases hmiss with rfl | rfl
    · cases eo <;> simp [h0, hfe]
    · cases so <;> simp [h0, hfe]

/-- C10 (amended): on every rectangular grid with at least two rows, no
exception escapes any solver; if additionally the discovery reports a
missing start or end node, each solver's first and only yield is the
terminal tuple with empty visited set, empty path, `done = true` and no
result path.  (On a one-row grid without a detectable start, the probe
`grid[1][0]` instead raises `IndexError` — see the counterexample.) -/
theorem C10_amended_missing_node_terminal_step (g : Grid) (hr : Rect g)
    (hh : 2 ≤ g.length) :
    (solve_bfs_step_by_step g ≠ .error () ∧
     solve_dfs_step_by_step g ≠ .error () ∧
     solve_astar_step_by_step g ≠ .error ()) ∧
    ∀ so eo, findStartEnd g = .ok (so, eo) → so = none ∨ eo = none →
      solve_bfs_step_by_step g = .ok (some [emptyDoneStep]) ∧
      solve_dfs_step_by_step g = .ok (some [emptyDoneStep]) ∧
      solve_astar_step_by_step g = .ok (some [emptyDoneStep]) := by
  constructor
  · by_cases h0 : g.length = 0 ∨ (g.headD []).length = 0
    · obtain ⟨h1, h2, h3⟩ := solvers_on_empty_grid g h0
      rw [h1, h2, h3]
      exact ⟨by simp, by simp, by simp⟩
    · have hw : 1 ≤ (g.headD []).length := by
        rcases Nat.eq_zero_or_pos (g.headD []).length with hz | hp
        · exact absurd (Or.inr hz) h0
        · exact hp
      obtain ⟨so, eo, hfe⟩ := findStartEnd_isOk g hh hw hr
      have hpi : ∀ (s : Coord) (o : Option (List Step)),
          prependInitial s o ≠ .error () := by
        intro s o; cases o <;> simp [prependInitial]
      unfold solve_bfs_step_by_step solve_dfs_step_by_step solve_astar_step_by_step
      cases so <;> cases eo <;> simp [h0, hfe, hpi] <;>
        refine ⟨?_, ?_, ?_⟩ <;> split_ifs <;> simp [hpi]
  · intro so eo hfe hmiss
    exact solvers_on_missing_node g so eo hfe hmiss

/-- Witness for the amended C10 on the all-wall 3×3 grid. -/
theorem C10_amended_witness :
    solve_bfs_step_by_step allWall3 = .ok (some [emptyDoneStep]) ∧
    solve_dfs_step_by_step allWall3 = .ok (some [emptyDoneStep]) ∧
    solve_astar_step_by_step allWall3 = .ok (some [emptyDoneStep]) :=
  (C10_amended_missing_node_terminal_step allWall3
      (by unfold Rect; decide) (by decide)).2
    none none (by rfl) (Or.inl rfl)

/-- `stepMono` is reflexive. -/
theorem stepMono_rfl (a : Step) : stepMono a a :=
  ⟨fun _ hx => hx, id, fun _ hp => hp⟩

instance : IsTrans Step stepMono where
  trans := by
    rintro a b c ⟨v1, d1, r1⟩ ⟨v2, d2, r2⟩
    exact ⟨fun _ hx => v2 (v1 hx), fun hd => d2 (d1 hd), fun p hp => r2 p (r1 p hp)⟩

/-- An element of `getLast?` is a member of the list. -/
theorem mem_of_mem_getLast {α : Type} {l : List α} {a : α}
    (h : a ∈ l.getLast?) : a ∈ l := by
  obtain ⟨hne, rfl⟩ := List.mem_getLast?_eq_getLast h
  exact List.getLast_mem hne

/-- A single terminal yield whose visited list extends the entry one is a
valid loop trace. -/
theorem loopTrace_single (v : List Coord) (st : Step) (hv : v ⊆ st.visited)
    (hd : st.done = true) : LoopTrace v [st] := by
  refine ⟨by simp, List.chain'_singleton _, ?_, by simp, ?_⟩
  · intro x hx
    rw [List.mem_singleton] at hx
    subst hx; exact hv
  · intro x hx
    simp only [List.getLast?_singleton, Option.mem_def, Option.some.injEq] at hx
    subst hx; exact hd

/-- One BFS neighbour check preserves the scan invariant and grows the
visited list. -/
theorem bfsScanStep_inv (g : Grid) (width height : Nat) (c : Coord)
    (path : List Coord) (v0 : List Coord)
    (acc : List Step × List (Coord × List Coord) × List Coord) (d : Coord)
    (hI : ScanInv v0 acc.1 acc.2.2) :
    ScanInv v0 (bfsScanStep g width height c path acc d).1
        (bfsScanStep g width height c path acc d).2.2 ∧
      acc.2.2 ⊆ (bfsScanStep g width height c path acc d).2.2 := by
  obtain ⟨hch, hall, hv0⟩ := hI
  simp only [bfsScanStep]
  split_ifs with hc
  · refine ⟨⟨?_, ?_, ?_⟩, ?_⟩
    · refine List.chain'_append.mpr ⟨hch, List.chain'_singleton _, ?_⟩
      intro x hx y hy
      simp only [List.head?_cons, Option.mem_def, Option.some.injEq] at hy
      subst hy
      obtain ⟨hd, hr, _, hvs⟩ := hall x (mem_of_mem_getLast hx)
      refine ⟨hvs.trans (List.subset_append_left _ _), ?_, ?_⟩
      · intro hcontra; rw [hd] at hcontra; exact absurd hcontra (by simp)
      · intro p hp; rw [hr] at hp; exact absurd hp (by simp)
    · intro st hst
      rcases List.mem_append.mp hst with hmem | hmem
      · obtain ⟨hd, hr, hv0s, hvs⟩ := hall st hmem
        exact ⟨hd, hr, hv0s, hvs.trans (List.subset_append_left _ _)⟩
      · rw [List.mem_singleton] at hmem
        subst hmem
        exact ⟨rfl, rfl, hv0.trans (List.subset_append_left _ _), List.Subset.refl _⟩
    · exact hv0.trans (List.subset_append_left _ _)
    · exact List.subset_append_left _ _
  · exact ⟨⟨hch, hall, hv0⟩, List.Subset.refl _⟩

/-- Folding BFS neighbour checks preserves the scan invariant. -/
theorem bfsScan_foldl_inv (g : Grid) (width height : Nat) (c : Coord)
    (path : List Coord) (v0 : List Coord) (offs : List Coord) :
    ∀ (acc : List Step × List (Coord × List Coord) × List Coord),
      ScanInv v0 acc.1 acc.2.2 →
      ScanInv v0 (offs.foldl (bfsScanStep g width height c path) acc).1
          (offs.foldl (bfsScanStep g width height c path) acc).2.2 ∧
        acc.2.2 ⊆ (offs.foldl (bfsScanStep g width height c path) acc).2.2 := by
  induction offs with
  | nil => intro acc hI; exact ⟨hI, List.Subset.refl _⟩
  | cons d rest ih =>
      intro acc hI
      rw [List.foldl_cons]
      obtain ⟨h1, h2⟩ := bfsScanStep_inv g width height c path v0 acc d hI
      obtain ⟨h3, h4⟩ := ih _ h1
      exact ⟨h3, h2.trans h4⟩

/-- The BFS neighbour scan satisfies the scan invariant relative to the
visited list it starts from. -/
theorem bfsScan_spec (g : Grid) (width height : Nat) (c : Coord)
    (path : List Coord) (q : List (Coord × List Coord)) (v : List Coord) :
    ScanInv v (bfsScan g width height c path q v).1
        (bfsScan g width height c path q v).2.2 ∧
      v ⊆ (bfsScan g width height c path q v).2.2 := by
  have hInit : ScanInv v ([] : List Step) v :=
    ⟨List.chain'_nil, by simp, List.Subset.refl _⟩
  exact bfsScan_foldl_inv g width height c path v bfsOffsets ([], q, v) hInit

/-- Every completed BFS loop run yields a structurally valid trace. -/
theorem bfsLoop_loopTrace (g : Grid) (width height : Nat) (e : Coord) :
    ∀ (fuel : Nat) (q : List (Coord × List Coord)) (v : List Coord)
      (steps : List Step),
      bfsLoop g width height e fuel q v = some steps → LoopTrace v steps := by
  intro fuel
  induction fuel with
  | zero => intro q v steps hrun; exact absurd hrun (by simp [bfsLoop])
  | succ fuel ih =>
      intro q v steps hrun
      rcases q with _ | ⟨⟨c, path⟩, rest⟩
      · simp only [bfsLoop, Option.some.injEq] at hrun
        subst hrun
        exact loopTrace_single v _ (List.Subset.refl _) rfl
      · simp only [bfsLoop] at hrun
        by_cases hce : c = e
        · rw [if_pos hce, Option.some.injEq] at hrun
          subst hrun
          exact loopTrace_single v _ (List.Subset.refl _) rfl
        · rw [if_neg hce] at hrun
          cases hb : bfsLoop g width height e fuel
              (bfsScan g width height c path rest v).2.1
              (bfsScan g width height c path rest v).2.2 with
          | none => rw [hb] at hrun; exact absurd hrun (by simp)
          | some recSteps =>
              rw [hb] at hrun
              simp only [Option.map_some', Option.some.injEq] at hrun
              subst hrun
              obtain ⟨⟨sch, sall, _⟩, svsub⟩ :=
                bfsScan_spec g width height c path rest v
              obtain ⟨hne, hch, hsub, hdrop, hlast⟩ := ih _ _ _ hb
              refine ⟨?_, ?_, ?_, ?_, ?_⟩
              · intro hnil
                exact hne (List.append_eq_nil.mp hnil).2
              · refine List.chain'_append.mpr ⟨sch, hch, ?_⟩
                intro x hx y hy
                obtain ⟨hd, hr, _, hvs⟩ := sall x (mem_of_mem_getLast hx)
                refine ⟨hvs.trans (hsub y (List.mem_of_mem_head? hy)), ?_, ?_⟩
                · intro hcontra; rw [hd] at hcontra; exact absurd hcontra (by simp)
                · intro p hp; rw [hr] at hp; exact absurd hp (by simp)
              · intro st hst
                rcases List.mem_append.mp hst with hmem | hmem
                · exact (sall st hmem).2.2.1
                · exact svsub.trans (hsub st hmem)
              · rw [List.dropLast_append_of_ne_nil _ hne]
                intro st hst
                rcases List.mem_append.mp hst with hmem | hmem
                · exact ⟨(sall st hmem).1, (sall st hmem).2.1⟩
                · exact hdrop st hmem
              · rw [List.getLast?_append_of_ne_nil _ hne]
                exact hlast

/-- `getLast?` of a cons with nonempty tail is the tail's. -/
theorem getLast?_cons_of_ne_nil {α : Type} (a : α) {l : List α} (h : l ≠ []) :
    (a :: l).getLast? = l.getLast? := by
  have hput : a :: l = [a] ++ l := rfl
  rw [hput, List.getLast?_append_of_ne_nil _ h]

/-- Attaching an in-progress yield in front of a loop trace keeps the
chain and the done-only-last shape. -/
theorem cons_step_loopTrace (st : Step) (v : List Coord) (ls : List Step)
    (hlt : LoopTrace v ls) (hd : st.done = false) (hr : st.result = none)
    (hvs : st.visited ⊆ v) :
    (st :: ls ≠ []) ∧ List.Chain' stepMono (st :: ls) ∧
      (∀ x ∈ st :: ls.dropLast, x.done = false ∧ x.result = none) ∧
      (∀ x ∈ (st :: ls).getLast?, x.done = true) := by
  obtain ⟨hne, hch, hsub, hdrop, hlast⟩ := hlt
  refine ⟨by simp, ?_, ?_, ?_⟩
  · refine List.chain'_cons'.mpr ⟨?_, hch⟩
    intro y hy
    refine ⟨hvs.trans (hsub y (List.mem_of_mem_head? hy)), ?_, ?_⟩
    · intro hcontra; rw [hd] at hcontra; exact absurd hcontra (by simp)
    · intro p hp; rw [hr] at hp; exact absurd hp (by simp)
  · intro x hx
    rcases List.mem_cons.mp hx with rfl | hmem
    · exact ⟨hd, hr⟩
    · exact hdrop x hmem
  · rw [getLast?_cons_of_ne_nil _ hne]
    exact hlast

/-- Every completed DFS loop run yields a structurally valid trace. -/
theorem dfsLoop_loopTrace (g : Grid) (width height : Nat) (e : Coord) :
    ∀ (fuel : Nat) (stack : List (Coord × List Coord)) (v : List Coord)
      (steps : List Step),
      dfsLoop g width height e fuel stack v = some steps → LoopTrace v steps := by
  intro fuel
  induction fuel with
  | zero => intro stack v steps hrun; exact absurd hrun (by simp [dfsLoop])
  | succ fuel ih =>
      intro stack v steps hrun
      rcases stack with _ | ⟨⟨c, path⟩, rest⟩
      · simp only [dfsLoop, Option.some.injEq] at hrun
        subst hrun; exact loopTrace_single v _ (List.Subset.refl _) rfl
      · simp only [dfsLoop] at hrun
        by_cases hce : c = e
        · rw [if_pos hce, Option.some.injEq] at hrun
          subst hrun; exact loopTrace_single v _ (List.Subset.refl _) rfl
        · rw [if_neg hce] at hrun
          cases hfn : dfsFirstNeighbor g width height c v with
          | some n =>
              rw [hfn] at hrun
              simp only [] at hrun
              cases hb : dfsLoop g width height e fuel
                  ((n, path ++ [n]) :: (c, path) :: rest) (v ++ [n]) with
              | none => rw [hb] at hrun; exact absurd hrun (by simp)
              | some recSteps =>
                  rw [hb] at hrun
                  simp only [Option.map_some', Option.some.injEq] at hrun
                  subst hrun
                  have hlt := ih _ _ _ hb
                  obtain ⟨hc1, hc2, hc3, hc4⟩ := cons_step_loopTrace
                    ⟨v ++ [n], path ++ [n], false, none⟩ (v ++ [n]) recSteps hlt
                    rfl rfl (List.Subset.refl _)
                  refine ⟨hc1, hc2, ?_, ?_, hc4⟩
                  · intro x hx
                    rcases List.mem_cons.mp hx with rfl | hmem
                    · exact List.subset_append_left _ _
                    · exact (List.subset_append_left v [n]).trans (hlt.2.2.1 x hmem)
                  · rw [List.dropLast_cons_of_ne_nil hlt.1]
                    exact hc3
          | none =>
              rw [hfn] at hrun
              rcases rest with _ | ⟨⟨c2, p2⟩, rest2⟩
              · simp only [] at hrun
                exact ih _ _ _ hrun
              · simp only [] at hrun
                cases hb : dfsLoop g width height e fuel ((c2, p2) :: rest2) v with
                | none => rw [hb] at hrun; exact absurd hrun (by simp)
                | some recSteps =>
                    rw [hb] at hrun
                    simp only [Option.map_some', Option.some.injEq] at hrun
                    subst hrun
                    have hlt := ih _ _ _ hb
                    obtain ⟨hc1, hc2, hc3, hc4⟩ := cons_step_loopTrace
                      ⟨v, p2, false, none⟩ v recSteps hlt rfl rfl
                      (List.Subset.refl _)
                    refine ⟨hc1, hc2, ?_, ?_, hc4⟩
                    · intro x hx
                      rcases List.mem_cons.mp hx with rfl | hmem
                      · exact List.Subset.refl _
                      · exact hlt.2.2.1 x hmem
                    · rw [List.dropLast_cons_of_ne_nil hlt.1]
                      exact hc3

/-- One A* neighbour relaxation preserves the scan invariant and grows
the visited list. -/
theorem astarScanStep_inv (g : Grid) (width height : Nat) (endN c : Coord)
    (gc : Int) (path : List Coord) (v0 : List Coord)
    (acc : List Step × List AEntry × (Coord → Option Int) × List Coord)
    (d : Coord) (hI : ScanInv v0 acc.1 acc.2.2.2) :
    ScanInv v0 (astarScanStep g width height endN c gc path acc d).1
        (astarScanStep g width height endN c gc path acc d).2.2.2 ∧
      acc.2.2.2 ⊆ (astarScanStep g width height endN c gc path acc d).2.2.2 := by
  obtain ⟨hch, hall, hv0⟩ := hI
  simp only [astarScanStep]
  split_ifs with h1 h2 h3
  · exact ⟨⟨hch, hall, hv0⟩, List.Subset.refl _⟩
  · refine ⟨⟨?_, ?_, ?_⟩, ?_⟩
    · refine List.chain'_append.mpr ⟨hch, List.chain'_singleton _, ?_⟩
      intro x hx y hy
      simp only [List.head?_cons, Option.mem_def, Option.some.injEq] at hy
      subst hy
      obtain ⟨hd, hr, _, hvs⟩ := hall x (mem_of_mem_getLast hx)
      refine ⟨hvs.trans (List.subset_append_left _ _), ?_, ?_⟩
      · intro hcontra; rw [hd] at hcontra; exact absurd hcontra (by simp)
      · intro p hp; rw [hr] at hp; exact absurd hp (by simp)
    · intro st hst
      rcases List.mem_append.mp hst with hmem | hmem
      · obtain ⟨hd, hr, hv0s, hvs⟩ := hall st hmem
        exact ⟨hd, hr, hv0s, hvs.trans (List.subset_append_left _ _)⟩
      · rw [List.mem_singleton] at hmem
        subst hmem
        exact ⟨rfl, rfl, hv0.trans (List.subset_append_left _ _), List.Subset.refl _⟩
    · exact hv0.trans (List.subset_append_left _ _)
    · exact List.subset_append_left _ _
  · exact ⟨⟨hch, hall, hv0⟩, List.Subset.refl _⟩
  · exact ⟨⟨hch, hall, hv0⟩, List.Subset.refl _⟩

/-- Folding A* neighbour relaxations preserves the scan invariant. -/
theorem astarScan_foldl_inv (g : Grid) (width height : Nat) (endN c : Coord)
    (gc : Int) (path : List Coord) (v0 : List Coord) (offs : List Coord) :
    ∀ (acc : List Step × List AEntry × (Coord → Option Int) × List Coord),
      ScanInv v0 acc.1 acc.2.2.2 →
      ScanInv v0 (offs.foldl (astarScanStep g width height endN c gc path) acc).1
          (offs.foldl (astarScanStep g width height endN c gc path) acc).2.2.2 ∧
        acc.2.2.2 ⊆
          (offs.foldl (astarScanStep g width height endN c gc path) acc).2.2.2 := by
  induction offs with
  | nil => intro acc hI; exact ⟨hI, List.Subset.refl _⟩
  | cons d rest ih =>
      intro acc hI
      rw [List.foldl_cons]
      obtain ⟨h1, h2⟩ := astarScanStep_inv g width height endN c gc path v0 acc d hI
      obtain ⟨h3, h4⟩ := ih _ h1
      exact ⟨h3, h2.trans h4⟩

/-- The A* neighbour scan satisfies the scan invariant relative to the
visited list it starts from. -/
theorem astarScan_spec (g : Grid) (width height : Nat) (endN c : Coord)
    (gc : Int) (path : List Coord) (opn : List AEntry)
    (gcosts : Coord → Option Int) (v : List Coord) :
    ScanInv v (astarScan g width height endN c gc path opn gcosts v).1
        (astarScan g width height endN c gc path opn gcosts v).2.2.2 ∧
      v ⊆ (astarScan g width height endN c gc path opn gcosts v).2.2.2 := by
  have hInit : ScanInv v ([] : List Step) v :=
    ⟨List.chain'_nil, by simp, List.Subset.refl _⟩
  exact astarScan_foldl_inv g width height endN c gc path v bfsOffsets
    ([], opn, gcosts, v) hInit

/-- Every completed A* loop run yields a structurally valid trace. -/
theorem astarLoop_loopTrace (g : Grid) (width height : Nat) (e : Coord) :
    ∀ (fuel : Nat) (opn : List AEntry) (gcosts : Coord → Option Int)
      (v : List Coord) (steps : List Step),
      astarLoop g width height e fuel opn gcosts v = some steps →
        LoopTrace v steps := by
  intro fuel
  induction fuel with
  | zero => intro opn gcosts v steps hrun; exact absurd hrun (by simp [astarLoop])
  | succ fuel ih =>
      intro opn gcosts v steps hrun
      rcases opn with _ | ⟨ent, rest⟩
      · simp only [astarLoop, Option.some.injEq] at hrun
        subst hrun; exact loopTrace_single v _ (List.Subset.refl _) rfl
      · simp only [astarLoop] at hrun
        by_cases hce : ent.node = e
        · rw [if_pos hce, Option.some.injEq] at hrun
          subst hrun; exact loopTrace_single v _ (List.Subset.refl _) rfl
        · rw [if_neg hce] at hrun
          cases hb : astarLoop g width height e fuel
              (astarScan g width height e ent.node ent.g ent.path rest gcosts v).2.1
              (astarScan g width height e ent.node ent.g ent.path rest gcosts v).2.2.1
              (astarScan g width height e ent.node ent.g ent.path rest gcosts v).2.2.2 with
          | none => rw [hb] at hrun; exact absurd hrun (by simp)
          | some recSteps =>
              rw [hb] at hrun
              simp only [Option.map_some', Option.some.injEq] at hrun
              subst hrun
              obtain ⟨⟨sch, sall, _⟩, svsub⟩ :=
                astarScan_spec g width height e ent.node ent.g ent.path rest gcosts v
              obtain ⟨hne, hch, hsub, hdrop, hlast⟩ := ih _ _ _ _ hb
              refine ⟨?_, ?_, ?_, ?_, ?_⟩
              · intro hnil
                exact hne (List.append_eq_nil.mp hnil).2
              · refine List.chain'_append.mpr ⟨sch, hch, ?_⟩
                intro x hx y hy
                obtain ⟨hd, hr, _, hvs⟩ := sall x (mem_of_mem_getLast hx)
                refine ⟨hvs.trans (hsub y (List.mem_of_mem_head? hy)), ?_, ?_⟩
                · intro hcontra; rw [hd] at hcontra; exact absurd hcontra (by simp)
                · intro p hp; rw [hr] at hp; exact absurd hp (by simp)
              · intro st hst
                rcases List.mem_append.mp hst with hmem | hmem
                · exact (sall st hmem).2.2.1
                · exact svsub.trans (hsub st hmem)
              · rw [List.dropLast_append_of_ne_nil _ hne]
                intro st hst
                rcases List.mem_append.mp hst with hmem | hmem
                · exact ⟨(sall st hmem).1, (sall st hmem).2.1⟩
                · exact hdrop st hmem
              · rw [List.getLast?_append_of_ne_nil _ hne]
                exact hlast

/-- The trace shape of the single terminal yield. -/
theorem trace_props_single_terminal :
    ([emptyDoneStep] : List Step) ≠ [] ∧ List.Chain' stepMono [emptyDoneStep] ∧
      OnlyLastDone [emptyDoneStep] := by
  refine ⟨by simp, List.chain'_singleton _, by simp, ?_⟩
  intro st hst
  simp only [List.getLast?_singleton, Option.mem_def, Option.some.injEq] at hst
  subst hst; rfl

/-- The trace shape of an initial yield followed by a loop trace. -/
theorem trace_props_cons (s : Coord) (ls : List Step) (hlt : LoopTrace [s] ls) :
    ((⟨[s], [s], false, none⟩ : Step) :: ls) ≠ [] ∧
      List.Chain' stepMono ((⟨[s], [s], false, none⟩ : Step) :: ls) ∧
      OnlyLastDone ((⟨[s], [s], false, none⟩ : Step) :: ls) := by
  obtain ⟨hc1, hc2, hc3, hc4⟩ := cons_step_loopTrace ⟨[s], [s], false, none⟩ [s]
    ls hlt rfl rfl (List.Subset.refl _)
  refine ⟨hc1, hc2, ?_, hc4⟩
  rw [List.dropLast_cons_of_ne_nil hlt.1]
  exact hc3

/-- Trace shape of every completed BFS run. -/
theorem bfs_trace_shape (g : Grid) (steps : List Step)
    (h : solve_bfs_step_by_step g = .ok (some steps)) :
    steps ≠ [] ∧ List.Chain' stepMono steps ∧ OnlyLastDone steps := by
  simp only [solve_bfs_step_by_step] at h
  by_cases h0 : g.length = 0 ∨ (g.headD []).length = 0
  · rw [if_pos h0] at h
    simp only [Except.ok.injEq, Option.some.injEq] at h
    subst h; exact trace_props_single_terminal
  · rw [if_neg h0] at h
    cases hfe : findStartEnd g with
    | error u => rw [hfe] at h; exact absurd h (by simp)
    | ok pr =>
        obtain ⟨so, eo⟩ := pr
        rw [hfe] at h
        rcases so with _ | s
        · simp only [Except.ok.injEq, Option.some.injEq] at h
          subst h; exact trace_props_single_terminal
        · rcases eo with _ | e
          · simp only [Except.ok.injEq, Option.some.injEq] at h
            subst h; exact trace_props_single_terminal
          · simp only [] at h
            cases hb : bfsLoop g (g.headD []).length g.length e (bfsFuel g)
                [(s, [s])] [s] with
            | none => rw [hb] at h; exact absurd h (by simp [prependInitial])
            | some ls =>
                rw [hb] at h
                simp only [prependInitial, Except.ok.injEq, Option.some.injEq] at h
                subst h
                exact trace_props_cons s ls (bfsLoop_loopTrace g _ _ e _ _ _ _ hb)

/-- Trace shape of every completed DFS run. -/
theorem dfs_trace_shape (g : Grid) (steps : List Step)
    (h : solve_dfs_step_by_step g = .ok (some steps)) :
    steps ≠ [] ∧ List.Chain' stepMono steps ∧ OnlyLastDone steps := by
  simp only [solve_dfs_step_by_step] at h
  by_cases h0 : g.length = 0 ∨ (g.headD []).length = 0
  · rw [if_pos h0] at h
    simp only [Except.ok.injEq, Option.some.injEq] at h
    subst h; exact trace_props_single_terminal
  · rw [if_neg h0] at h
    cases hfe : findStartEnd g with
    | error u => rw [hfe] at h; exact absurd h (by simp)
    | ok pr =>
        obtain ⟨so, eo⟩ := pr
        rw [hfe] at h
        rcases so with _ | s
        · simp only [Except.ok.injEq, Option.some.injEq] at h
          subst h; exact trace_props_single_terminal
        · rcases eo with _ | e
          · simp only [Except.ok.injEq, Option.some.injEq] at h
            subst h; exact trace_props_single_terminal
          · simp only [] at h
            cases hb : dfsLoop g (g.headD []).length g.length e (dfsFuel g)
                [(s, [s])] [s] with
            | none => rw [hb] at h; exact absurd h (by simp [prependInitial])
            | some ls =>
                rw [hb] at h
                simp only [prependInitial, Except.ok.injEq, Option.some.injEq] at h
                subst h
                exact trace_props_cons s ls (dfsLoop_loopTrace g _ _ e _ _ _ _ hb)

/-- Trace shape of every completed A* run. -/
theorem astar_trace_shape (g : Grid) (steps : List Step)
    (h : solve_astar_step_by_step g = .ok (some steps)) :
    steps ≠ [] ∧ List.Chain' stepMono steps ∧ OnlyLastDone steps := by
  simp only [solve_astar_step_by_step] at h
  by_cases h0 : g.length = 0 ∨ (g.headD []).length = 0
  · rw [if_pos h0] at h
    simp only [Except.ok.injEq, Option.some.injEq] at h
    subst h; exact trace_props_single_terminal
  · rw [if_neg h0] at h
    cases hfe : findStartEnd g with
    | error u => rw [hfe] at h; exact absurd h (by simp)
    | ok pr =>
        obtain ⟨so, eo⟩ := pr
        rw [hfe] at h
        rcases so with _ | s
        · simp only [Except.ok.injEq, Option.some.injEq] at h
          subst h; exact trace_props_single_terminal
        · rcases eo with _ | e
          · simp only [Except.ok.injEq, Option.some.injEq] at h
            subst h; exact trace_props_single_terminal
          · simp only [] at h
            cases hb : astarLoop g (g.headD []).length g.length e (astarFuel g)
                [⟨0 + heuristic s e, 0, s, [s]⟩]
                (fun p => if p = s then some 0 else none) [s] with
            | none => rw [hb] at h; exact absurd h (by simp [prependInitial])
            | some ls =>
                rw [hb] at h
                simp only [prependInitial, Except.ok.injEq, Option.some.injEq] at h
                subst h
                exact trace_props_cons s ls (astarLoop_loopTrace g _ _ e _ _ _ _ _ hb)

/-- A chained trace is monotone between any two positions. -/
theorem monoTrace_of_chain (steps : List Step)
    (h : List.Chain' stepMono steps) : MonoTrace steps := by
  intro i j hi hj hij
  rcases Nat.lt_or_ge i j with hlt | hge
  · exact List.pairwise_iff_get.mp (List.chain'_iff_pairwise.mp h) ⟨i, hi⟩ ⟨j, hj⟩ hlt
  · have hij2 : i = j := le_antisymm hij hge
    subst hij2
    exact stepMono_rfl _

/-- C8: across the successive yields of any one engine run (BFS, DFS or
A*, on any grid), the visited set never shrinks, `done` never reverts
from true to false, and a `result_path`, once set, is never changed or
retracted. -/
theorem C8_monotone_engine_traces (g : Grid) :
    (∀ steps, solve_bfs_step_by_step g = .ok (some steps) → MonoTrace steps) ∧
    (∀ steps, solve_dfs_step_by_step g = .ok (some steps) → MonoTrace steps) ∧
    (∀ steps, solve_astar_step_by_step g = .ok (some steps) → MonoTrace steps) :=
  ⟨fun steps h => monoTrace_of_chain steps (bfs_trace_shape g steps h).2.1,
   fun steps h => monoTrace_of_chain steps (dfs_trace_shape g steps h).2.1,
   fun steps h => monoTrace_of_chain steps (astar_trace_shape g steps h).2.1⟩

/-- Witness for C8 on the concrete 1×1 maze grid. -/
theorem C8_witness : MonoTrace steps11 :=
  (C8_monotone_engine_traces mazeGrid11).1 steps11 rfl

/-- C6 (amended): after the terminal yield a generator is exhausted —
`done` and the result appear only on the final yield, and reading past it
gives nothing (`StopIteration`) instead of the terminal result again; at
the coordinator level a finished engine's step is a no-op that leaves its
stored terminal state (including `final_path_coords`) unchanged and
deactivates it. -/
theorem C6_amended_terminal_exhaustion :
    (∀ s : EngSt, s.isDone = true → stepEngine s = (s, false)) ∧
    (∀ g steps, solve_bfs_step_by_step g = .ok (some steps) →
      OnlyLastDone steps ∧ steps.get? steps.length = none) ∧
    (∀ g steps, solve_dfs_step_by_step g = .ok (some steps) →
      OnlyLastDone steps ∧ steps.get? steps.length = none) ∧
    (∀ g steps, solve_astar_step_by_step g = .ok (some steps) →
      OnlyLastDone steps ∧ steps.get? steps.length = none) := by
  refine ⟨fun s hdone => by simp [stepEngine, hdone], ?_, ?_, ?_⟩
  · intro g steps h
    exact ⟨(bfs_trace_shape g steps h).2.2, List.get?_eq_none.mpr (le_refl _)⟩
  · intro g steps h
    exact ⟨(dfs_trace_shape g steps h).2.2, List.get?_eq_none.mpr (le_refl _)⟩
  · intro g steps h
    exact ⟨(astar_trace_shape g steps h).2.2, List.get?_eq_none.mpr (le_refl _)⟩

/-- The random oracle only produces values below the live bound. -/
theorem randBelow_lt (n : Nat) (s : List Nat) (hn : 1 ≤ n) :
    (randBelow n s).1 < n := by
  cases s with
  | nil => simpa [randBelow] using hn
  | cons v rest => simp only [randBelow]; exact Nat.mod_lt _ hn

/-- Carving a cell makes it a path. -/
theorem setPathF_self (F : GridF) (c : Coord) : setPathF F c c = pathChar := by
  simp [setPathF]

/-- Carving a cell leaves other cells alone. -/
theorem setPathF_ne (F : GridF) (c p : Coord) (h : p ≠ c) :
    setPathF F c p = F p := by
  simp [setPathF, h]

/-- Carving never turns a path back into a wall. -/
theorem setPathF_path (F : GridF) (c p : Coord) (h : F p = pathChar) :
    setPathF F c p = pathChar := by
  by_cases hp : p = c
  · subst hp; exact setPathF_self F p
  · rw [setPathF_ne F c p hp]; exact h

/-- A wall after carving was a wall before, away from the carved cell. -/
theorem setPathF_wall (F : GridF) (c p : Coord) (h : setPathF F c p = wallChar) :
    F p = wallChar ∧ p ≠ c := by
  by_cases hp : p = c
  · subst hp; rw [setPathF_self] at h; exact absurd h (by decide)
  · rw [setPathF_ne F c p hp] at h; exact ⟨h, hp⟩

/-- Membership in the passage-centre set. -/
theorem mem_centersF {w h : Int} {c : Coord} :
    c ∈ centersF w h ↔
      ∃ i j : Nat, i < w.toNat ∧ j < h.toNat ∧
        c = ((2 * (i : Int) + 1, 2 * (j : Int) + 1) : Coord) := by
  simp only [centersF, Finset.mem_image, Finset.mem_product, Finset.mem_range,
    Prod.exists]
  constructor
  · rintro ⟨i, j, ⟨hi, hj⟩, rfl⟩; exact ⟨i, j, hi, hj, rfl⟩
  · rintro ⟨i, j, hi, hj, rfl⟩; exact ⟨i, j, ⟨hi, hj⟩, rfl⟩

/-- Membership in the wall-joint set. -/
theorem mem_jointsF {w h : Int} {c : Coord} :
    c ∈ jointsF w h ↔
      (∃ i j : Nat, i < w.toNat - 1 ∧ j < h.toNat ∧
        c = ((2 * (i : Int) + 2, 2 * (j : Int) + 1) : Coord)) ∨
      (∃ i j : Nat, i < w.toNat ∧ j < h.toNat - 1 ∧
        c = ((2 * (i : Int) + 1, 2 * (j : Int) + 2) : Coord)) := by
  simp only [jointsF, Finset.mem_union, Finset.mem_image, Finset.mem_product,
    Finset.mem_range, Prod.exists]
  constructor
  · rintro (⟨i, j, ⟨hi, hj⟩, rfl⟩ | ⟨i, j, ⟨hi, hj⟩, rfl⟩)
    · exact Or.inl ⟨i, j, hi, hj, rfl⟩
    · exact Or.inr ⟨i, j, hi, hj, rfl⟩
  · rintro (⟨i, j, hi, hj, rfl⟩ | ⟨i, j, hi, hj, rfl⟩)
    · exact Or.inl ⟨i, j, ⟨hi, hj⟩, rfl⟩
    · exact Or.inr ⟨i, j, ⟨hi, hj⟩, rfl⟩

/-- Passage-centres have odd coordinates. -/
theorem centersF_parity {w h : Int} {c : Coord} (hc : c ∈ centersF w h) :
    c.1 % 2 = 1 ∧ c.2 % 2 = 1 := by
  obtain ⟨i, j, _, _, rfl⟩ := mem_centersF.mp hc
  constructor <;> (simp <;> omega)

/-- Wall joints have one even coordinate. -/
theorem jointsF_parity {w h : Int} {c : Coord} (hc : c ∈ jointsF w h) :
    c.1 % 2 = 0 ∨ c.2 % 2 = 0 := by
  rcases mem_jointsF.mp hc with ⟨i, j, _, _, rfl⟩ | ⟨i, j, _, _, rfl⟩
  · left; simp <;> omega
  · right; simp <;> omega

/-- A cell cannot be both a passage-centre and a wall joint. -/
theorem centers_joints_disjoint {w h : Int} {c : Coord}
    (hc : c ∈ centersF w h) (hj : c ∈ jointsF w h) : False := by
  obtain ⟨h1, h2⟩ := centersF_parity hc
  rcases jointsF_parity hj with h3 | h3 <;> omega

/-- Membership in the interior cell set. -/
theorem mem_interiorF {w h : Int} {c : Coord} :
    c ∈ interiorF w h ↔
      1 ≤ c.1 ∧ c.1 ≤ 2 * w - 1 ∧ 1 ≤ c.2 ∧ c.2 ≤ 2 * h - 1 := by
  simp only [interiorF, Finset.mem_product, Finset.mem_Icc]
  tauto

/-- Passage-centres are interior cells. -/
theorem centersF_subset_interior {w h : Int} (hw : 1 ≤ w) (hh : 1 ≤ h)
    {c : Coord} (hc : c ∈ centersF w h) : c ∈ interiorF w h := by
  obtain ⟨i, j, hi, hj, rfl⟩ := mem_centersF.mp hc
  have hi' : (i : Int) < w := by
    have := (Int.toNat_of_nonneg (by omega : (0 : Int) ≤ w))
    omega
  have hj' : (j : Int) < h := by
    have := (Int.toNat_of_nonneg (by omega : (0 : Int) ≤ h))
    omega
  rw [mem_interiorF]
  refine ⟨by simp <;> omega, by simp <;> omega, by simp <;> omega, by simp <;> omega⟩

/-- Wall joints are interior cells. -/
theorem jointsF_subset_interior {w h : Int} (hw : 1 ≤ w) (hh : 1 ≤ h)
    {c : Coord} (hc : c ∈ jointsF w h) : c ∈ interiorF w h := by
  have hwn := Int.toNat_of_nonneg (by omega : (0 : Int) ≤ w)
  have hhn := Int.toNat_of_nonneg (by omega : (0 : Int) ≤ h)
  rcases mem_jointsF.mp hc with ⟨i, j, hi, hj, rfl⟩ | ⟨i, j, hi, hj, rfl⟩ <;>
    · rw [mem_interiorF]
      refine ⟨by simp <;> omega, by simp <;> omega, by simp <;> omega, by simp <;> omega⟩

/-- Carving a cell outside a region leaves the region's path count
unchanged. -/
theorem filter_path_set_not_mem (S : Finset Coord) (F : GridF) (t : Coord)
    (ht : t ∉ S) :
    (S.filter (fun c => setPathF F t c = pathChar)).card =
      (S.filter (fun c => F c = pathChar)).card := by
  have hset : S.filter (fun c => setPathF F t c = pathChar) =
      S.filter (fun c => F c = pathChar) :=
    Finset.filter_congr (fun c hc => by
      rw [setPathF_ne F t c (fun e => ht (e ▸ hc))])
  rw [hset]

/-- Carving a wall cell inside a region bumps the region's path count by
one. -/
theorem filter_path_set_mem (S : Finset Coord) (F : GridF) (t : Coord)
    (ht : t ∈ S) (hwall : F t ≠ pathChar) :
    (S.filter (fun c => setPathF F t c = pathChar)).card =
      (S.filter (fun c => F c = pathChar)).card + 1 := by
  have hset : S.filter (fun c => setPathF F t c = pathChar) =
      insert t (S.filter (fun c => F c = pathChar)) := by
    ext c
    simp only [Finset.mem_filter, Finset.mem_insert]
    constructor
    · rintro ⟨hcS, hcp⟩
      by_cases hct : c = t
      · exact Or.inl hct
      · right; exact ⟨hcS, by rwa [setPathF_ne F t c hct] at hcp⟩
    · rintro (rfl | ⟨hcS, hcp⟩)
      · exact ⟨ht, setPathF_self F c⟩
      · exact ⟨hcS, setPathF_path F t c hcp⟩
  rw [hset, Finset.card_insert_of_not_mem]
  simp only [Finset.mem_filter, not_and]
  intro _
  exact hwall

/-- Length of the logical edge-cell list. -/
theorem edgeCells_length (w h : Int) :
    (edgeCellsLogical w h).length =
      w.toNat + w.toNat + (h - 2).toNat + (h - 2).toNat := by
  unfold edgeCellsLogical
  simp only [List.length_append, List.length_map, List.length_range,
    List.length_range']

/-- For logical sizes at least 2×2 the opening cells assigned to the
logical edge cells are pairwise distinct. -/
theorem openings_nodup (w h : Int) (hw : 2 ≤ w) (hh : 2 ≤ h) :
    ((edgeCellsLogical w h).map (mazeOpening w h)).Nodup := by
  have hwn : (w.toNat : Int) = w := Int.toNat_of_nonneg (by omega)
  have hhn : (h.toNat : Int) = h := Int.toNat_of_nonneg (by omega)
  have hh2n : ((h - 2).toNat : Int) = h - 2 := Int.toNat_of_nonneg (by omega)
  have hA : ((List.range w.toNat).map
      (fun (i : Nat) => (((i : Int), (0 : Int)) : Coord))).map (mazeOpening w h) =
      (List.range w.toNat).map
        (fun (i : Nat) => ((2 * (i : Int) + 1, (0 : Int)) : Coord)) := by
    rw [List.map_map]
    refine List.map_congr_left ?_
    intro a _
    simp [mazeOpening, getOpeningCoords]
  have hB : ((List.range w.toNat).map
      (fun (i : Nat) => (((i : Int), h - 1) : Coord))).map (mazeOpening w h) =
      (List.range w.toNat).map
        (fun (i : Nat) => ((2 * (i : Int) + 1, 2 * h) : Coord)) := by
    rw [List.map_map]
    refine List.map_congr_left ?_
    intro a _
    simp only [mazeOpening, getOpeningCoords, Function.comp_apply]
    split_ifs <;> simp only [Prod.mk.injEq, true_and, and_true] <;> first | trivial | omega
  have hC : ((List.range' 1 (h - 2).toNat).map
      (fun (i : Nat) => (((0 : Int), (i : Int)) : Coord))).map (mazeOpening w h) =
      (List.range' 1 (h - 2).toNat).map
        (fun (i : Nat) => (((0 : Int), 2 * (i : Int) + 1) : Coord)) := by
    rw [List.map_map]
    refine List.map_congr_left ?_
    intro a ha
    obtain ⟨k, hk, rfl⟩ := List.mem_range'.mp ha
    simp only [mazeOpening, getOpeningCoords, Function.comp_apply]
    split_ifs <;> simp only [Prod.mk.injEq, true_and, and_true] <;> first | trivial | omega
  have hD : ((List.range' 1 (h - 2).toNat).map
      (fun (i : Nat) => ((w - 1, (i : Int)) : Coord))).map (mazeOpening w h) =
      (List.range' 1 (h - 2).toNat).map
        (fun (i : Nat) => ((2 * w, 2 * (i : Int) + 1) : Coord)) := by
    rw [List.map_map]
    refine List.map_congr_left ?_
    intro a ha
    obtain ⟨k, hk, rfl⟩ := List.mem_range'.mp ha
    simp only [mazeOpening, getOpeningCoords, Function.comp_apply]
    split_ifs <;> simp only [Prod.mk.injEq, true_and, and_true] <;> first | trivial | omega
  have memA : ∀ x ∈ (List.range w.toNat).map
      (fun (i : Nat) => ((2 * (i : Int) + 1, (0 : Int)) : Coord)),
      x.1 % 2 = 1 ∧ x.2 = 0 := by
    intro x hx
    obtain ⟨i, _, rfl⟩ := List.mem_map.mp hx
    exact ⟨by simp <;> omega, rfl⟩
  have memB : ∀ x ∈ (List.range w.toNat).map
      (fun (i : Nat) => ((2 * (i : Int) + 1, 2 * h) : Coord)),
      x.1 % 2 = 1 ∧ x.2 = 2 * h := by
    intro x hx
    obtain ⟨i, _, rfl⟩ := List.mem_map.mp hx
    exact ⟨by simp <;> omega, rfl⟩
  have memC : ∀ x ∈ (List.range' 1 (h - 2).toNat).map
      (fun (i : Nat) => (((0 : Int), 2 * (i : Int) + 1) : Coord)),
      x.1 = 0 ∧ x.2 % 2 = 1 := by
    intro x hx
    obtain ⟨i, _, rfl⟩ := List.mem_map.mp hx
    exact ⟨rfl, by simp <;> omega⟩
  have memD : ∀ x ∈ (List.range' 1 (h - 2).toNat).map
      (fun (i : Nat) => ((2 * w, 2 * (i : Int) + 1) : Coord)),
      x.1 = 2 * w ∧ x.2 % 2 = 1 := by
    intro x hx
    obtain ⟨i, _, rfl⟩ := List.mem_map.mp hx
    exact ⟨rfl, by simp <;> omega⟩
  have ndA : ((List.range w.toNat).map
      (fun (i : Nat) => ((2 * (i : Int) + 1, (0 : Int)) : Coord))).Nodup := by
    refine List.Nodup.map ?_ (List.nodup_range _)
    intro a b hab
    simp only [Prod.mk.injEq] at hab
    omega
  have ndB : ((List.range w.toNat).map
      (fun (i : Nat) => ((2 * (i : Int) + 1, 2 * h) : Coord))).Nodup := by
    refine List.Nodup.map ?_ (List.nodup_range _)
    intro a b hab
    simp only [Prod.mk.injEq] at hab
    omega
  have ndR : (List.range' 1 (h - 2).toNat).Nodup := List.nodup_range' ..
  have ndC : ((List.range' 1 (h - 2).toNat).map
      (fun (i : Nat) => (((0 : Int), 2 * (i : Int) + 1) : Coord))).Nodup := by
    refine List.Nodup.map ?_ ndR
    intro a b hab
    simp only [Prod.mk.injEq] at hab
    omega
  have ndD : ((List.range' 1 (h - 2).toNat).map
      (fun (i : Nat) => ((2 * w, 2 * (i : Int) + 1) : Coord))).Nodup := by
    refine List.Nodup.map ?_ ndR
    intro a b hab
    simp only [Prod.mk.injEq] at hab
    omega
  unfold edgeCellsLogical
  rw [List.map_append, List.map_append, List.map_append, hA, hB, hC, hD]
  rw [List.append_assoc, List.append_assoc]
  rw [List.nodup_append]
  refine ⟨ndA, ?_, ?_⟩
  · rw [List.nodup_append]
    refine ⟨ndB, ?_, ?_⟩
    · rw [List.nodup_append]
      refine ⟨ndC, ndD, ?_⟩
      intro x hxC hxD
      obtain ⟨h1, -⟩ := memC x hxC
      obtain ⟨h2, -⟩ := memD x hxD
      omega
    · intro x hxB hx
      obtain ⟨hb1, -⟩ := memB x hxB
      rcases List.mem_append.mp hx with hxC | hxD
      · obtain ⟨h1, -⟩ := memC x hxC
        omega
      · obtain ⟨h1, -⟩ := memD x hxD
        omega
  · intro x hxA hx
    obtain ⟨ha1, ha2⟩ := memA x hxA
    rcases List.mem_append.mp hx with hxB | hx2
    · obtain ⟨-, hb2⟩ := memB x hxB
      omega
    · rcases List.mem_append.mp hx2 with hxC | hxD
      · obtain ⟨-, hc2⟩ := memC x hxC
        omega
      · obtain ⟨-, hd2⟩ := memD x hxD
        omega

/-- The first element drawn by `random.sample(l, 2)`. -/
theorem sampleTwo_fst (l : List Coord) (s : List Nat) :
    (sampleTwo l s).1.1 = l.getD (randBelow l.length s).1 (0, 0) := rfl

/-- The second element drawn by `random.sample(l, 2)`. -/
theorem sampleTwo_snd (l : List Coord) (s : List Nat) :
    (sampleTwo l s).1.2 =
      l.getD
        (if (randBelow l.length s).1 ≤
            (randBelow (l.length - 1) (randBelow l.length s).2).1
         then (randBelow (l.length - 1) (randBelow l.length s).2).1 + 1
         else (randBelow (l.length - 1) (randBelow l.length s).2).1) (0, 0) := rfl

/-- `random.sample(l, 2)` draws two distinct positions of the list. -/
theorem sampleTwo_indices (l : List Coord) (s : List Nat) (hl : 2 ≤ l.length) :
    ∃ i j, i < l.length ∧ j < l.length ∧ i ≠ j ∧
      (sampleTwo l s).1.1 = l.getD i (0, 0) ∧
      (sampleTwo l s).1.2 = l.getD j (0, 0) := by
  have hi := randBelow_lt l.length s (by omega)
  have hj0 := randBelow_lt (l.length - 1) (randBelow l.length s).2 (by omega)
  refine ⟨(randBelow l.length s).1,
    if (randBelow l.length s).1 ≤
        (randBelow (l.length - 1) (randBelow l.length s).2).1
     then (randBelow (l.length - 1) (randBelow l.length s).2).1 + 1
     else (randBelow (l.length - 1) (randBelow l.length s).2).1,
    hi, ?_, ?_, sampleTwo_fst l s, sampleTwo_snd l s⟩
  · split_ifs <;> omega
  · split_ifs <;> omega

/-- C2 (amended): the start and end nodes returned by `create_maze` are
distinct whenever both logical dimensions are at least 2, in the
special-cased 1×1 maze, and in the 1×2 maze (whose edge-cell list
`[(0,0),(0,1)]` has no duplicates, so the two sampled cells always map
to the two distinct openings).  Only when the edge-cell list contains
duplicate logical cells — the top row coincides with the bottom row for
`h = 1` with `w ≥ 2`, and the left-column interior coincides with the
right-column interior for `w = 1` with `h ≥ 3` — can `random.sample`
draw the same cell twice and the two openings coincide, as the
counterexample shows at `(2, 1)`. -/
theorem C2_amended_distinct_nodes :
    (∀ (w h : Int) (ρ : List Nat) (g : Grid) (s e : Coord), 2 ≤ w → 2 ≤ h →
       create_maze w h ρ = some (g, s, e) → s ≠ e) ∧
    (∀ (ρ : List Nat) (g : Grid) (s e : Coord),
       create_maze 1 1 ρ = some (g, s, e) → s ≠ e) ∧
    (∀ (ρ : List Nat) (g : Grid) (s e : Coord),
       create_maze 1 2 ρ = some (g, s, e) → s ≠ e) := by
  refine ⟨?_, ?_, ?_⟩
  · intro w h ρ g s e hw hh hcm
    have hlen2 : 2 ≤ (edgeCellsLogical w h).length := by
      rw [edgeCells_length]; omega
    simp only [create_maze] at hcm
    rw [if_pos ⟨by omega, by omega⟩] at hcm
    split at hcm
    · exact absurd hcm (by simp)
    · rw [if_neg (by rintro ⟨rfl, -⟩; omega), if_neg (by omega),
        if_neg (by omega)] at hcm
      simp only [Option.some.injEq, Prod.mk.injEq] at hcm
      obtain ⟨-, hs, he⟩ := hcm
      obtain ⟨i, j, hi, hj, hij, hfst, hsnd⟩ :=
        sampleTwo_indices (edgeCellsLogical w h) _ hlen2
      subst hs he
      rw [hfst, hsnd]
      rw [List.getD_eq_get?, List.getD_eq_get?, List.get?_eq_get hi,
        List.get?_eq_get hj, Option.getD_some, Option.getD_some]
      intro hcontra
      have hmap : ((edgeCellsLogical w h).map (mazeOpening w h)).get
            ⟨i, by rw [List.length_map]; exact hi⟩ =
          ((edgeCellsLogical w h).map (mazeOpening w h)).get
            ⟨j, by rw [List.length_map]; exact hj⟩ := by
        rw [List.get_map, List.get_map]
        exact hcontra
      have := (List.Nodup.get_inj_iff (openings_nodup w h hw hh)).mp hmap
      rw [Fin.mk.injEq] at this
      exact hij this
  · intro ρ g s e hcm
    simp only [create_maze] at hcm
    rw [if_pos ⟨le_refl 1, le_refl 1⟩] at hcm
    split at hcm
    · exact absurd hcm (by simp)
    · rw [if_pos (by norm_num)] at hcm
      simp only [Option.some.injEq, Prod.mk.injEq] at hcm
      obtain ⟨-, hs, he⟩ := hcm
      subst hs he
      decide
  · intro ρ g s e hcm
    simp only [create_maze] at hcm
    rw [if_pos (by norm_num : (1 : Int) ≤ 1 ∧ (1 : Int) ≤ 2)] at hcm
    split at hcm
    · exact absurd hcm (by simp)
    · split_ifs at hcm with hb1 hb2 hb3
      · exact absurd hb1 (by decide)
      · exact absurd hb2 (by decide)
      · exact absurd hb3 (by decide)
      · simp only [Option.some.injEq, Prod.mk.injEq] at hcm
        obtain ⟨-, hs, he⟩ := hcm
        obtain ⟨i, j, hi, hj, hij, hfst, hsnd⟩ :=
          sampleTwo_indices (edgeCellsLogical 1 2) _ (by decide)
        subst hs he
        rw [hfst, hsnd]
        have hlen : (edgeCellsLogical 1 2).length = 2 := by decide
        rw [hlen] at hi hj
        interval_cases i <;> interval_cases j <;>
          first | (exact absurd rfl hij) | decide

/-- Witness for the amended C2 at concrete sizes 2×2, 1×1 and 1×2. -/
theorem C2_amended_witness :
    (∃ g s e, create_maze 2 2 [0, 0, 0, 0, 0, 0, 0, 0, 0] = some (g, s, e) ∧
      s ≠ e) ∧
    (∃ g s e, create_maze 1 1 [] = some (g, s, e) ∧ s ≠ e) ∧
    (∃ g s e, create_maze 1 2 [] = some (g, s, e) ∧ s ≠ e) := by
  refine ⟨?_, ?_, ?_⟩
  · refine ⟨_, _, _, rfl, ?_⟩
    exact C2_amended_distinct_nodes.1 2 2 [0, 0, 0, 0, 0, 0, 0, 0, 0] _ _ _
      (by omega) (by omega) rfl
  · refine ⟨_, _, _, rfl, ?_⟩
    exact C2_amended_distinct_nodes.2.1 [] _ _ _ rfl
  · refine ⟨_, _, _, rfl, ?_⟩
    exact C2_amended_distinct_nodes.2.2 [] _ _ _ rfl

/-- Membership in the unvisited-neighbour candidate list. -/
theorem mem_unvisitedNeighbors {gw gh : Int} {F : GridF} {c n : Coord} :
    n ∈ unvisitedNeighbors gw gh F c ↔
      (∃ d ∈ carveOffsets, n = (c.1 + d.1, c.2 + d.2)) ∧
      0 < n.2 ∧ n.2 < gh - 1 ∧ 0 < n.1 ∧ n.1 < gw - 1 ∧ F n = wallChar := by
  simp only [unvisitedNeighbors, List.mem_filter, List.mem_map,
    decide_eq_true_eq]
  constructor
  · rintro ⟨⟨d, hd, rfl⟩, hcond⟩
    exact ⟨⟨d, hd, rfl⟩, hcond⟩
  · rintro ⟨⟨d, hd, rfl⟩, hcond⟩
    exact ⟨⟨d, hd, rfl⟩, hcond⟩

/-- Geometry of one carve: the chosen neighbour is an unvisited
passage-centre, and the wall cell between it and the current centre is
the joint connecting exactly those two centres. -/
theorem carve_target (w h : Int) (hw : 1 ≤ w) (hh : 1 ≤ h) (F : GridF)
    {c n : Coord} (hc : c ∈ centersF w h)
    (hn : n ∈ unvisitedNeighbors (2 * w + 1) (2 * h + 1) F c) :
    n ∈ centersF w h ∧ F n = wallChar ∧
      ((c.1 + (n.1 - c.1) / 2, c.2 + (n.2 - c.2) / 2) : Coord) ∈ jointsF w h ∧
      (jointNbrs (c.1 + (n.1 - c.1) / 2, c.2 + (n.2 - c.2) / 2) = (c, n) ∨
       jointNbrs (c.1 + (n.1 - c.1) / 2, c.2 + (n.2 - c.2) / 2) = (n, c)) := by
  obtain ⟨i, j, hi, hj, rfl⟩ := mem_centersF.mp hc
  obtain ⟨⟨d, hd, hnd⟩, hb1, hb2, hb3, hb4, hwall⟩ :=
    mem_unvisitedNeighbors.mp hn
  have hwn : (w.toNat : Int) = w := Int.toNat_of_nonneg (by omega)
  have hhn : (h.toNat : Int) = h := Int.toNat_of_nonneg (by omega)
  simp only [carveOffsets, List.mem_cons, List.mem_singleton] at hd
  subst hnd
  rcases hd with rfl | rfl | rfl | (rfl | hfalse)
  · -- up: d = (0, -2)
    simp only [] at hb1 hb2 hb3 hb4 hwall ⊢
    have hj1 : 1 ≤ j := by omega
    refine ⟨?_, hwall, ?_, ?_⟩
    · refine mem_centersF.mpr ⟨i, j - 1, hi, by omega, ?_⟩
      simp only [Prod.mk.injEq]
      omega
    · refine mem_jointsF.mpr (Or.inr ⟨i, j - 1, hi, by omega, ?_⟩)
      simp only [Prod.mk.injEq]
      constructor
      · norm_num
      · have he : (2 * (j : Int) + 1 + -2 - (2 * (j : Int) + 1)) / 2 = -1 := by
          norm_num
        rw [he]
        omega
    · right
      have he : (2 * (j : Int) + 1 + -2 - (2 * (j : Int) + 1)) / 2 = -1 := by
        norm_num
      have he2 : (2 * (i : Int) + 1 + 0 - (2 * (i : Int) + 1)) / 2 = 0 := by
        norm_num
      simp only [jointNbrs, he, he2]
      rw [if_neg (by omega)]
      simp only [Prod.mk.injEq]
      refine ⟨⟨?_, ?_⟩, ?_, ?_⟩ <;> first | trivial | omega
  · -- down: d = (0, 2)
    simp only [] at hb1 hb2 hb3 hb4 hwall ⊢
    have hj1 : j + 1 < h.toNat := by omega
    refine ⟨?_, hwall, ?_, ?_⟩
    · refine mem_centersF.mpr ⟨i, j + 1, hi, by omega, ?_⟩
      simp only [Prod.mk.injEq]
      omega
    · refine mem_jointsF.mpr (Or.inr ⟨i, j, hi, by omega, ?_⟩)
      simp only [Prod.mk.injEq]
      constructor
      · norm_num
      · have he : (2 * (j : Int) + 1 + 2 - (2 * (j : Int) + 1)) / 2 = 1 := by
          norm_num
        rw [he]
        omega
    · left
      have he : (2 * (j : Int) + 1 + 2 - (2 * (j : Int) + 1)) / 2 = 1 := by
        norm_num
      have he2 : (2 * (i : Int) + 1 + 0 - (2 * (i : Int) + 1)) / 2 = 0 := by
        norm_num
      simp only [jointNbrs, he, he2]
      rw [if_neg (by omega)]
      simp only [Prod.mk.injEq]
      refine ⟨⟨?_, ?_⟩, ?_, ?_⟩ <;> first | trivial | omega
  · -- left: d = (-2, 0)
    simp only [] at hb1 hb2 hb3 hb4 hwall ⊢
    have hi1 : 1 ≤ i := by omega
    refine ⟨?_, hwall, ?_, ?_⟩
    · refine mem_centersF.mpr ⟨i - 1, j, by omega, hj, ?_⟩
      simp only [Prod.mk.injEq]
      omega
    · refine mem_jointsF.mpr (Or.inl ⟨i - 1, j, by omega, hj, ?_⟩)
      simp only [Prod.mk.injEq]
      constructor
      · have he : (2 * (i : Int) + 1 + -2 - (2 * (i : Int) + 1)) / 2 = -1 := by
          norm_num
        rw [he]
        omega
      · norm_num
    · right
      have he : (2 * (i : Int) + 1 + -2 - (2 * (i : Int) + 1)) / 2 = -1 := by
        norm_num
      have he2 : (2 * (j : Int) + 1 + 0 - (2 * (j : Int) + 1)) / 2 = 0 := by
        norm_num
      simp only [jointNbrs, he, he2]
      rw [if_pos (by omega)]
      simp only [Prod.mk.injEq]
      refine ⟨⟨?_, ?_⟩, ?_, ?_⟩ <;> first | trivial | omega
  · -- right: d = (2, 0)
    simp only [] at hb1 hb2 hb3 hb4 hwall ⊢
    have hi1 : i + 1 < w.toNat := by omega
    refine ⟨?_, hwall, ?_, ?_⟩
    · refine mem_centersF.mpr ⟨i + 1, j, by omega, hj, ?_⟩
      simp only [Prod.mk.injEq]
      omega
    · refine mem_jointsF.mpr (Or.inl ⟨i, j, by omega, hj, ?_⟩)
      simp only [Prod.mk.injEq]
      constructor
      · have he : (2 * (i : Int) + 1 + 2 - (2 * (i : Int) + 1)) / 2 = 1 := by
          norm_num
        rw [he]
        omega
      · norm_num
    · left
      have he : (2 * (i : Int) + 1 + 2 - (2 * (i : Int) + 1)) / 2 = 1 := by
        norm_num
      have he2 : (2 * (j : Int) + 1 + 0 - (2 * (j : Int) + 1)) / 2 = 0 := by
        norm_num
      simp only [jointNbrs, he, he2]
      rw [if_pos (by omega)]
      simp only [Prod.mk.injEq]
      refine ⟨⟨?_, ?_⟩, ?_, ?_⟩ <;> first | trivial | omega
  · exact absurd hfalse (by simp)

/-- Witness for the amended C6 at a concrete finished engine and the
concrete 1×1-maze BFS trace. -/
theorem C6_amended_witness :
    stepEngine ⟨[], [(1, 0)], [], some [(1, 0)], true, true⟩ =
      (⟨[], [(1, 0)], [], some [(1, 0)], true, true⟩, false) ∧
    OnlyLastDone steps11 :=
  ⟨C6_amended_terminal_exhaustion.1 _ rfl,
   (C6_amended_terminal_exhaustion.2.1 mazeGrid11 steps11 rfl).1⟩

/-- Carving a wall cell inside a region removes exactly one cell from the
region's wall count. -/
theorem filter_wall_set_mem (S : Finset Coord) (F : GridF) (t : Coord)
    (ht : t ∈ S) (hW : F t = wallChar) :
    (S.filter (fun c => setPathF F t c = wallChar)).card + 1 =
      (S.filter (fun c => F c = wallChar)).card := by
  have hset : S.filter (fun c => setPathF F t c = wallChar) =
      (S.filter (fun c => F c = wallChar)).erase t := by
    ext c
    simp only [Finset.mem_filter, Finset.mem_erase]
    constructor
    · rintro ⟨hcS, hcW⟩
      obtain ⟨hFW, hne⟩ := setPathF_wall F t c hcW
      exact ⟨hne, hcS, hFW⟩
    · rintro ⟨hne, hcS, hFW⟩
      exact ⟨hcS, by rw [setPathF_ne F t c hne]; exact hFW⟩
  rw [hset, Finset.card_erase_of_mem (Finset.mem_filter.mpr ⟨ht, hW⟩)]
  have hpos : 0 < (S.filter (fun c => F c = wallChar)).card :=
    Finset.card_pos.mpr ⟨t, Finset.mem_filter.mpr ⟨ht, hW⟩⟩
  omega

/-- Carving only removes walls, so a cell with no unvisited neighbours
left keeps having none. -/
theorem unvisitedNeighbors_nil_mono (gw gh : Int) (F G : GridF) (c : Coord)
    (hW : ∀ p, G p = wallChar → F p = wallChar)
    (hnil : unvisitedNeighbors gw gh F c = []) :
    unvisitedNeighbors gw gh G c = [] := by
  rw [unvisitedNeighbors, List.filter_eq_nil] at hnil ⊢
  intro a ha
  have h1 := hnil a ha
  simp only [decide_eq_true_eq] at h1 ⊢
  rintro ⟨b1, b2, b3, b4, bW⟩
  exact h1 ⟨b1, b2, b3, b4, hW a bW⟩

/-- `getD` returns either a list element or the default. -/
theorem getD_prop {α : Type} (l : List α) (d : α) (P : α → Prop)
    (hl : ∀ x ∈ l, P x) (hd : P d) (i : Nat) : P (l.getD i d) := by
  rcases Nat.lt_or_ge i l.length with hlt | hge
  · rw [List.getD_eq_get l d hlt]
    exact hl _ (l.get_mem _ _)
  · rw [List.getD_eq_default l d hge]
    exact hd

/-- The randomly chosen neighbour is a member of the candidate list. -/
theorem uns_getD_mem (l : List Coord) (s : List Nat) (hl : l ≠ []) :
    l.getD (randBelow l.length s).1 (0, 0) ∈ l := by
  have hlen : 1 ≤ l.length := List.length_pos.mpr hl
  have hk := randBelow_lt l.length s hlen
  rw [List.getD_eq_get l _ hk]
  exact l.get_mem _ _

/-- Under the carving invariant, every cell outside the interior is a
wall. -/
theorem carveInv_outside_wall {w h : Int} (hw : 1 ≤ w) (hh : 1 ≤ h)
    {F : GridF} {stack : List Coord} (hinv : CarveInv w h F stack)
    {p : Coord} (hp : p ∉ interiorF w h) : F p = wallChar := by
  rcases hinv.2.2.2.2.2 p with hW | hP
  · exact hW
  · exfalso
    rcases hinv.2.2.2.2.1 p hP with hc | hj
    · exact hp (centersF_subset_interior hw hh hc)
    · exact hp (jointsF_subset_interior hw hh hj)

/-- One carve step (carving the chosen neighbour and the wall between)
preserves the carving invariant and removes exactly two interior walls. -/
theorem carve_step_inv (w h : Int) (hw : 1 ≤ w) (hh : 1 ≤ h)
    (F : GridF) (c n : Coord) (rest : List Coord)
    (hinv : CarveInv w h F (c :: rest))
    (hn : n ∈ unvisitedNeighbors (2 * w + 1) (2 * h + 1) F c) :
    CarveInv w h
      (setPathF (setPathF F (c.1 + (n.1 - c.1) / 2, c.2 + (n.2 - c.2) / 2)) n)
      (n :: c :: rest) ∧
    wallInteriorCount
      (setPathF (setPathF F (c.1 + (n.1 - c.1) / 2, c.2 + (n.2 - c.2) / 2)) n)
      w h + 2 = wallInteriorCount F w h := by
  obtain ⟨h1, h2, h3, h4, h5, h6⟩ := hinv
  have hcC : c ∈ centersF w h := (h1 c (List.mem_cons_self _ _)).1
  have hcP : F c = pathChar := (h1 c (List.mem_cons_self _ _)).2
  obtain ⟨hnC, hnW, hjJ, hjnbrs⟩ := carve_target w h hw hh F hcC hn
  set wj : Coord := (c.1 + (n.1 - c.1) / 2, c.2 + (n.2 - c.2) / 2) with hwj
  have hnwj : n ≠ wj := fun e => centers_joints_disjoint hnC (e ▸ hjJ)
  have hwjC : wj ∉ centersF w h := fun e => centers_joints_disjoint e hjJ
  have hnJ : n ∉ jointsF w h := fun e => centers_joints_disjoint hnC e
  have hwp : wallChar ≠ pathChar := by decide
  have hwjW : F wj = wallChar := by
    rcases h6 wj with hW | hP
    · exact hW
    · exfalso
      have hb := h4 wj hjJ hP
      rcases hjnbrs with he | he <;> rw [he] at hb
      · exact hwp (hnW ▸ hb.2)
      · exact hwp (hnW ▸ hb.1)
  set F' := setPathF (setPathF F wj) n with hF'
  have hF'path : ∀ p, F p = pathChar → F' p = pathChar := fun p hp =>
    setPathF_path _ _ _ (setPathF_path _ _ _ hp)
  have hF'n : F' n = pathChar := setPathF_self _ _
  have hF'wj : F' wj = pathChar := by
    rw [hF', setPathF_ne _ n wj (fun e => hnwj e.symm), setPathF_self]
  have hF'wall : ∀ p, F' p = wallChar → F p = wallChar ∧ p ≠ n ∧ p ≠ wj := by
    intro p hp
    obtain ⟨hp1, hpn⟩ := setPathF_wall _ _ _ hp
    obtain ⟨hp2, hpwj⟩ := setPathF_wall _ _ _ hp1
    exact ⟨hp2, hpn, hpwj⟩
  have hF'eq : ∀ p, p ≠ n → p ≠ wj → F' p = F p := fun p e1 e2 => by
    rw [hF', setPathF_ne _ _ _ e1, setPathF_ne _ _ _ e2]
  have hF'pathinv : ∀ p, F' p = pathChar → p = n ∨ p = wj ∨ F p = pathChar := by
    intro p hp
    by_cases hpn : p = n
    · exact Or.inl hpn
    by_cases hpwj : p = wj
    · exact Or.inr (Or.inl hpwj)
    · rw [hF'eq p hpn hpwj] at hp
      exact Or.inr (Or.inr hp)
  have hF'two : ∀ p, F' p = wallChar ∨ F' p = pathChar := by
    intro p
    by_cases hpn : p = n
    · subst hpn; exact Or.inr hF'n
    by_cases hpwj : p = wj
    · subst hpwj; exact Or.inr hF'wj
    · rw [hF'eq p hpn hpwj]; exact h6 p
  have hF1n : setPathF F wj n = wallChar := by
    rw [setPathF_ne _ _ _ hnwj]; exact hnW
  have hcc : centerPathCount F' w h = centerPathCount F w h + 1 := by
    rw [centerPathCount, centerPathCount, hF',
      filter_path_set_mem _ _ _ hnC (by rw [hF1n]; exact hwp),
      filter_path_set_not_mem _ _ _ hwjC]
  have hjc : jointPathCount F' w h = jointPathCount F w h + 1 := by
    rw [jointPathCount, jointPathCount, hF',
      filter_path_set_not_mem _ _ _ hnJ,
      filter_path_set_mem _ _ _ hjJ (by rw [hwjW]; exact hwp)]
  refine ⟨⟨?_, ?_, ?_, ?_, ?_, hF'two⟩, ?_⟩
  · intro x hx
    rcases List.mem_cons.mp hx with rfl | hx'
    · exact ⟨hnC, hF'n⟩
    · exact ⟨(h1 x hx').1, hF'path _ (h1 x hx').2⟩
  · intro x hxC hxP
    rcases hF'pathinv x hxP with rfl | rfl | hxPold
    · exact Or.inl (List.mem_cons_self _ _)
    · exact (centers_joints_disjoint hxC hjJ).elim
    · rcases h2 x hxC hxPold with hmem | hexh
      · exact Or.inl (List.mem_cons_of_mem _ hmem)
      · exact Or.inr (unvisitedNeighbors_nil_mono _ _ _ _ _
          (fun p hp => (hF'wall p hp).1) hexh)
  · rw [hcc, hjc]; omega
  · intro j hjJ' hjP'
    by_cases hjwjq : j = wj
    · subst hjwjq
      rcases hjnbrs with he | he <;> rw [he]
      · exact ⟨hF'path _ hcP, hF'n⟩
      · exact ⟨hF'n, hF'path _ hcP⟩
    by_cases hjnq : j = n
    · exact ((hjnq ▸ hnJ) hjJ').elim
    · rw [hF'eq j hjnq hjwjq] at hjP'
      obtain ⟨ha, hb⟩ := h4 j hjJ' hjP'
      exact ⟨hF'path _ ha, hF'path _ hb⟩
  · intro p hp
    rcases hF'pathinv p hp with rfl | rfl | hpold
    · exact Or.inl hnC
    · exact Or.inr hjJ
    · exact h5 p hpold
  · have hnI : n ∈ interiorF w h := centersF_subset_interior hw hh hnC
    have hwjI : wj ∈ interiorF w h := jointsF_subset_interior hw hh hjJ
    have hs1 : wallInteriorCount F' w h + 1 =
        wallInteriorCount (setPathF F wj) w h := by
      rw [wallInteriorCount, wallInteriorCount, hF']
      exact filter_wall_set_mem _ _ _ hnI hF1n
    have hs2 : wallInteriorCount (setPathF F wj) w h + 1 =
        wallInteriorCount F w h := by
      rw [wallInteriorCount, wallInteriorCount]
      exact filter_wall_set_mem _ _ _ hwjI hwjW
    omega

/-- The carving loop terminates with fuel above its measure
`2·(interior walls) + |stack|`, maintaining the invariant down to the
empty stack. -/
theorem carveLoop_some (w h : Int) (hw : 1 ≤ w) (hh : 1 ≤ h) :
    ∀ (fuel : Nat) (F : GridF) (stack : List Coord) (s : List Nat),
      CarveInv w h F stack →
      2 * wallInteriorCount F w h + stack.length < fuel →
      ∃ G s', carveLoop (2 * w + 1) (2 * h + 1) fuel F stack s = some (G, s') ∧
        CarveInv w h G [] := by
  intro fuel
  induction fuel with
  | zero => intro F stack s _ hm; omega
  | succ fuel ih =>
    intro F stack s hinv hm
    cases stack with
    | nil => exact ⟨F, s, rfl, hinv⟩
    | cons c rest =>
      simp only [carveLoop]
      by_cases hu : (unvisitedNeighbors (2 * w + 1) (2 * h + 1) F c).length = 0
      · rw [if_pos hu]
        obtain ⟨h1, h2, h3, h4, h5, h6⟩ := hinv
        apply ih F rest s
        · refine ⟨fun x hx => h1 x (List.mem_cons_of_mem _ hx), ?_, h3, h4, h5, h6⟩
          intro x hxC hxP
          rcases h2 x hxC hxP with hmem | hexh
          · rcases List.mem_cons.mp hmem with rfl | hmem'
            · exact Or.inr (List.length_eq_zero.mp hu)
            · exact Or.inl hmem'
          · exact Or.inr hexh
        · simp only [List.length_cons] at hm
          omega
      · rw [if_neg hu]
        have hne : unvisitedNeighbors (2 * w + 1) (2 * h + 1) F c ≠ [] :=
          fun e => hu (by rw [e]; rfl)
        have hnmem := uns_getD_mem _ s hne
        obtain ⟨hinv', hmeas'⟩ :=
          carve_step_inv w h hw hh F c _ rest hinv hnmem
        apply ih _ _ _ hinv'
        simp only [List.length_cons] at hm ⊢
        omega

/-- The invariant holds for the freshly carved starting centre. -/
theorem carve_init_inv (w h : Int) (c0 : Coord) (hc0 : c0 ∈ centersF w h) :
    CarveInv w h (setPathF (fun _ => wallChar) c0) [c0] := by
  have hwp : wallChar ≠ pathChar := by decide
  have hpath : ∀ p, setPathF (fun _ => wallChar) c0 p = pathChar ↔ p = c0 := by
    intro p
    constructor
    · intro hp
      by_contra hne
      rw [setPathF_ne _ _ _ hne] at hp
      exact hwp hp
    · rintro rfl
      exact setPathF_self _ _
  refine ⟨?_, ?_, ?_, ?_, ?_, ?_⟩
  · intro x hx
    have hx0 := List.mem_singleton.mp hx
    subst hx0
    exact ⟨hc0, setPathF_self _ _⟩
  · intro x _ hxP
    exact Or.inl (List.mem_singleton.mpr ((hpath x).mp hxP))
  · have hcf : (centersF w h).filter
        (fun c => setPathF (fun _ => wallChar) c0 c = pathChar) = {c0} := by
      ext p
      simp only [Finset.mem_filter, Finset.mem_singleton]
      constructor
      · rintro ⟨_, hp⟩
        exact (hpath p).mp hp
      · rintro rfl
        exact ⟨hc0, setPathF_self _ _⟩
    have hjf : (jointsF w h).filter
        (fun c => setPathF (fun _ => wallChar) c0 c = pathChar) = ∅ := by
      ext p
      simp only [Finset.mem_filter, Finset.not_mem_empty, iff_false, not_and]
      intro hpJ hp
      have hp0 := (hpath p).mp hp
      subst hp0
      exact centers_joints_disjoint hc0 hpJ
    rw [jointPathCount, centerPathCount, hcf, hjf]
    simp
  · intro j hjJ hjP
    have hj0 := (hpath j).mp hjP
    subst hj0
    exact (centers_joints_disjoint hc0 hjJ).elim
  · intro p hp
    have hp0 := (hpath p).mp hp
    subst hp0
    exact Or.inl hc0
  · intro p
    by_cases hp : p = c0
    · subst hp
      exact Or.inr (setPathF_self _ _)
    · rw [setPathF_ne _ _ _ hp]
      exact Or.inl rfl

/-- Size of the interior region. -/
theorem interiorF_card (w h : Int) :
    (interiorF w h).card = (2 * w - 1).toNat * (2 * h - 1).toNat := by
  rw [interiorF, Finset.card_product, Int.card_Icc, Int.card_Icc]
  have e1 : (2 * w - 1 + 1 - 1 : Int) = 2 * w - 1 := by ring
  have e2 : (2 * h - 1 + 1 - 1 : Int) = 2 * h - 1 := by ring
  rw [e1, e2]

/-- The interior wall count is bounded by the interior size. -/
theorem wallInteriorCount_le (F : GridF) (w h : Int) :
    wallInteriorCount F w h ≤ (2 * w - 1).toNat * (2 * h - 1).toNat := by
  rw [← interiorF_card]
  exact Finset.card_filter_le _ _

/-- There are exactly `w·h` passage-centre cells. -/
theorem centersF_card (w h : Int) :
    (centersF w h).card = w.toNat * h.toNat := by
  have hinj : Function.Injective
      (fun ij : Nat × Nat =>
        ((2 * (ij.1 : Int) + 1, 2 * (ij.2 : Int) + 1) : Coord)) := by
    rintro ⟨a1, a2⟩ ⟨b1, b2⟩ hab
    simp only [Prod.mk.injEq] at hab ⊢
    obtain ⟨e1, e2⟩ := hab
    constructor <;> omega
  rw [centersF, Finset.card_image_of_injective _ hinj, Finset.card_product,
    Finset.card_range, Finset.card_range]

/-- At loop exit every carved centre has exhausted its neighbours, so a
lattice neighbour of a carved centre is itself carved. -/
theorem exit_adj (w h : Int) (hw : 1 ≤ w) (hh : 1 ≤ h) (G : GridF)
    (hinv : CarveInv w h G []) {c n : Coord}
    (hc : c ∈ centersF w h) (hcP : G c = pathChar) (hn : n ∈ centersF w h)
    (hd : ∃ d ∈ carveOffsets, n = (c.1 + d.1, c.2 + d.2)) :
    G n = pathChar := by
  rcases hinv.2.2.2.2.2 n with hW | hP
  · exfalso
    have hun : n ∈ unvisitedNeighbors (2 * w + 1) (2 * h + 1) G c := by
      rw [mem_unvisitedNeighbors]
      have hni := centersF_subset_interior hw hh hn
      rw [mem_interiorF] at hni
      exact ⟨hd, by omega, by omega, by omega, by omega, hW⟩
    rcases hinv.2.1 c hc hcP with hmem | hexh
    · exact List.not_mem_nil c hmem
    · rw [hexh] at hun
      exact List.not_mem_nil n hun
  · exact hP

/-- Horizontally adjacent centres are carved together at exit. -/
theorem exit_hstep (w h : Int) (hw : 1 ≤ w) (hh : 1 ≤ h) (G : GridF)
    (hinv : CarveInv w h G []) (i j : Nat) (hi : i + 1 < w.toNat)
    (hj : j < h.toNat) :
    (G (2 * (i : Int) + 1, 2 * (j : Int) + 1) = pathChar ↔
     G (2 * ((i + 1 : Nat) : Int) + 1, 2 * (j : Int) + 1) = pathChar) := by
  have hcm : ((2 * (i : Int) + 1, 2 * (j : Int) + 1) : Coord) ∈ centersF w h :=
    mem_centersF.mpr ⟨i, j, by omega, hj, rfl⟩
  have hnm : ((2 * ((i + 1 : Nat) : Int) + 1, 2 * (j : Int) + 1) : Coord) ∈
      centersF w h := mem_centersF.mpr ⟨i + 1, j, hi, hj, rfl⟩
  constructor
  · intro hp
    refine exit_adj w h hw hh G hinv hcm hp hnm ⟨(2, 0), by simp [carveOffsets], ?_⟩
    simp only [Prod.mk.injEq]
    constructor <;> push_cast <;> omega
  · intro hp
    refine exit_adj w h hw hh G hinv hnm hp hcm ⟨(-2, 0), by simp [carveOffsets], ?_⟩
    simp only [Prod.mk.injEq]
    constructor <;> push_cast <;> omega

/-- Vertically adjacent centres are carved together at exit. -/
theorem exit_vstep (w h : Int) (hw : 1 ≤ w) (hh : 1 ≤ h) (G : GridF)
    (hinv : CarveInv w h G []) (i j : Nat) (hi : i < w.toNat)
    (hj : j + 1 < h.toNat) :
    (G (2 * (i : Int) + 1, 2 * (j : Int) + 1) = pathChar ↔
     G (2 * (i : Int) + 1, 2 * ((j + 1 : Nat) : Int) + 1) = pathChar) := by
  have hcm : ((2 * (i : Int) + 1, 2 * (j : Int) + 1) : Coord) ∈ centersF w h :=
    mem_centersF.mpr ⟨i, j, hi, by omega, rfl⟩
  have hnm : ((2 * (i : Int) + 1, 2 * ((j + 1 : Nat) : Int) + 1) : Coord) ∈
      centersF w h := mem_centersF.mpr ⟨i, j + 1, hi, hj, rfl⟩
  constructor
  · intro hp
    refine exit_adj w h hw hh G hinv hcm hp hnm ⟨(0, 2), by simp [carveOffsets], ?_⟩
    simp only [Prod.mk.injEq]
    constructor <;> push_cast <;> omega
  · intro hp
    refine exit_adj w h hw hh G hinv hnm hp hcm ⟨(0, -2), by simp [carveOffsets], ?_⟩
    simp only [Prod.mk.injEq]
    constructor <;> push_cast <;> omega

/-- A centre is carved iff the leftmost centre of its row is. -/
theorem exit_hwalk (w h : Int) (hw : 1 ≤ w) (hh : 1 ≤ h) (G : GridF)
    (hinv : CarveInv w h G []) :
    ∀ i, i < w.toNat → ∀ j, j < h.toNat →
      (G (2 * (i : Int) + 1, 2 * (j : Int) + 1) = pathChar ↔
       G (2 * ((0 : Nat) : Int) + 1, 2 * (j : Int) + 1) = pathChar) := by
  intro i
  induction i with
  | zero => intro _ j _; exact Iff.rfl
  | succ i ih =>
    intro hi j hj
    exact (exit_hstep w h hw hh G hinv i j hi hj).symm.trans
      (ih (by omega) j hj)

/-- A leftmost-column centre is carved iff the top-left centre is. -/
theorem exit_vwalk (w h : Int) (hw : 1 ≤ w) (hh : 1 ≤ h) (G : GridF)
    (hinv : CarveInv w h G []) :
    ∀ j, j < h.toNat →
      (G (2 * ((0 : Nat) : Int) + 1, 2 * (j : Int) + 1) = pathChar ↔
       G (2 * ((0 : Nat) : Int) + 1, 2 * ((0 : Nat) : Int) + 1) = pathChar) := by
  intro j
  induction j with
  | zero => intro _; exact Iff.rfl
  | succ j ih =>
    intro hj
    exact (exit_vstep w h hw hh G hinv 0 j (by omega) hj).symm.trans
      (ih (by omega))

/-- At loop exit every passage centre has been carved. -/
theorem exit_all_carved (w h : Int) (hw : 1 ≤ w) (hh : 1 ≤ h) (G : GridF)
    (hinv : CarveInv w h G []) :
    ∀ c ∈ centersF w h, G c = pathChar := by
  have hpos : 0 < centerPathCount G w h := by
    have h3 := hinv.2.2.1
    omega
  obtain ⟨cst, hcst⟩ := Finset.card_pos.mp hpos
  obtain ⟨hcstC, hcstP⟩ := Finset.mem_filter.mp hcst
  obtain ⟨a, b, ha, hb, rfl⟩ := mem_centersF.mp hcstC
  have h00 : G (2 * ((0 : Nat) : Int) + 1, 2 * ((0 : Nat) : Int) + 1) =
      pathChar := by
    have hstep1 := (exit_hwalk w h hw hh G hinv a ha b hb).mp hcstP
    exact (exit_vwalk w h hw hh G hinv b hb).mp hstep1
  intro c hc
  obtain ⟨i, j, hi, hj, rfl⟩ := mem_centersF.mp hc
  have hstep2 := (exit_vwalk w h hw hh G hinv j hj).mpr h00
  exact (exit_hwalk w h hw hh G hinv i hi j hj).mpr hstep2

/-- At exit the carved centre count is `w·h` and the carved joint count
is `w·h − 1`: the spanning-tree counts. -/
theorem exit_counts (w h : Int) (hw : 1 ≤ w) (hh : 1 ≤ h) (G : GridF)
    (hinv : CarveInv w h G []) :
    centerPathCount G w h = w.toNat * h.toNat ∧
    jointPathCount G w h = w.toNat * h.toNat - 1 := by
  have hall := exit_all_carved w h hw hh G hinv
  have hfc : (centersF w h).filter (fun c => G c = pathChar) = centersF w h :=
    Finset.filter_eq_self.mpr hall
  have h1 : centerPathCount G w h = w.toNat * h.toNat := by
    rw [centerPathCount, hfc, centersF_card]
  have h3 := hinv.2.2.1
  exact ⟨h1, by omega⟩

/-- Reading the tabulated list grid inside its bounds gives back the
function grid. -/
theorem getCell_toListGrid (F : GridF) (gw gh : Nat) (x y : Int)
    (hx : 0 ≤ x) (hx2 : x < (gw : Int)) (hy : 0 ≤ y) (hy2 : y < (gh : Int)) :
    getCell (toListGrid F gw gh) x y = F (x, y) := by
  have hyn : y.toNat < gh := by omega
  have hxn : x.toNat < gw := by omega
  rw [getCell, toListGrid]
  simp only [List.getD_eq_get?]
  rw [List.get?_map, List.get?_range hyn]
  simp only [Option.map_some', Option.getD_some]
  rw [List.get?_map, List.get?_range hxn]
  simp only [Option.map_some', Option.getD_some]
  congr 1
  simp only [Prod.mk.injEq]
  constructor <;> omega

/-- Carving a boundary cell does not change the carved centre count. -/
theorem centerPathCount_setPath_border (F : GridF) (w h : Int) (hw : 1 ≤ w)
    (hh : 1 ≤ h) (t : Coord)
    (ht : t.1 = 0 ∨ t.1 = 2 * w ∨ t.2 = 0 ∨ t.2 = 2 * h) :
    centerPathCount (setPathF F t) w h = centerPathCount F w h := by
  refine filter_path_set_not_mem _ _ _ (fun hmem => ?_)
  have hi := centersF_subset_interior hw hh hmem
  rw [mem_interiorF] at hi
  omega

/-- Carving a boundary cell does not change the carved joint count. -/
theorem jointPathCount_setPath_border (F : GridF) (w h : Int) (hw : 1 ≤ w)
    (hh : 1 ≤ h) (t : Coord)
    (ht : t.1 = 0 ∨ t.1 = 2 * w ∨ t.2 = 0 ∨ t.2 = 2 * h) :
    jointPathCount (setPathF F t) w h = jointPathCount F w h := by
  refine filter_path_set_not_mem _ _ _ (fun hmem => ?_)
  have hi := jointsF_subset_interior hw hh hmem
  rw [mem_interiorF] at hi
  omega

/-- Every opening cell lies on the boundary of the grid. -/
theorem getOpeningCoords_border (lx ly w h : Int) :
    (getOpeningCoords lx ly (2 * w + 1) (2 * h + 1) w h).1 = 0 ∨
    (getOpeningCoords lx ly (2 * w + 1) (2 * h + 1) w h).1 = 2 * w ∨
    (getOpeningCoords lx ly (2 * w + 1) (2 * h + 1) w h).2 = 0 ∨
    (getOpeningCoords lx ly (2 * w + 1) (2 * h + 1) w h).2 = 2 * h := by
  rw [getOpeningCoords]
  split_ifs <;> simp <;> omega

/-- Structure of a successful `create_maze` run: the produced grid is the
final carved function grid plus two boundary openings. -/
theorem create_maze_structure (w h : Int) (hw : 1 ≤ w) (hh : 1 ≤ h)
    (ρ : List Nat) :
    ∃ (G : GridF) (o1 o2 : Coord),
      create_maze w h ρ = some
        (toListGrid (setPathF (setPathF G o1) o2) (2 * w + 1).toNat
          (2 * h + 1).toNat, o1, o2) ∧
      CarveInv w h G [] ∧
      (o1.1 = 0 ∨ o1.1 = 2 * w ∨ o1.2 = 0 ∨ o1.2 = 2 * h) ∧
      (o2.1 = 0 ∨ o2.1 = 2 * w ∨ o2.2 = 0 ∨ o2.2 = 2 * h) := by
  rw [create_maze, if_pos ⟨hw, hh⟩]
  simp only []
  have hc0 : ((2 * ((randBelow w.toNat ρ).1 : Int) + 1,
      2 * ((randBelow h.toNat (randBelow w.toNat ρ).2).1 : Int) + 1) : Coord) ∈
      centersF w h :=
    mem_centersF.mpr ⟨_, _, randBelow_lt _ _ (by omega),
      randBelow_lt _ _ (by omega), rfl⟩
  have hinv0 := carve_init_inv w h _ hc0
  have hmeas0 : 2 * wallInteriorCount
      (setPathF (fun _ => wallChar)
        (2 * ((randBelow w.toNat ρ).1 : Int) + 1,
         2 * ((randBelow h.toNat (randBelow w.toNat ρ).2).1 : Int) + 1)) w h +
      ([(((2 * ((randBelow w.toNat ρ).1 : Int) + 1,
          2 * ((randBelow h.toNat (randBelow w.toNat ρ).2).1 : Int) + 1)) :
          Coord)]).length < carveFuel w h := by
    have hle := wallInteriorCount_le
      (setPathF (fun _ => wallChar)
        (2 * ((randBelow w.toNat ρ).1 : Int) + 1,
         2 * ((randBelow h.toNat (randBelow w.toNat ρ).2).1 : Int) + 1)) w h
    rw [carveFuel]
    simp only [List.length_singleton]
    omega
  obtain ⟨G, ρ', hloop, hexit⟩ :=
    carveLoop_some w h hw hh (carveFuel w h) _ _
      (randBelow h.toNat (randBelow w.toNat ρ).2).2 hinv0 hmeas0
  rw [hloop]
  simp only []
  split_ifs with hb1 hb2 hb3
  · exact ⟨G, _, _, rfl, hexit, by simp, by simp⟩
  · exact ⟨G, _, _, rfl, hexit, by simp, by simp <;> omega⟩
  · exact ⟨G, _, _, rfl, hexit, getOpeningCoords_border _ _ w h,
      getOpeningCoords_border _ _ w h⟩
  · exact ⟨G, _, _, rfl, hexit, getOpeningCoords_border _ _ w h,
      getOpeningCoords_border _ _ w h⟩

/-- The returned list grid has the same carved-centre and carved-joint
counts as the carved function grid: the two openings are on the boundary
and the tabulation is faithful. -/
theorem grid_counts_openings (G : GridF) (w h : Int) (hw : 1 ≤ w) (hh : 1 ≤ h)
    (o1 o2 : Coord)
    (h1 : o1.1 = 0 ∨ o1.1 = 2 * w ∨ o1.2 = 0 ∨ o1.2 = 2 * h)
    (h2 : o2.1 = 0 ∨ o2.1 = 2 * w ∨ o2.2 = 0 ∨ o2.2 = 2 * h) :
    gridCenterPathCount (toListGrid (setPathF (setPathF G o1) o2)
      (2 * w + 1).toNat (2 * h + 1).toNat) w h = centerPathCount G w h ∧
    gridJointPathCount (toListGrid (setPathF (setPathF G o1) o2)
      (2 * w + 1).toNat (2 * h + 1).toNat) w h = jointPathCount G w h := by
  have hbridge : ∀ c : Coord, c ∈ interiorF w h →
      getCell (toListGrid (setPathF (setPathF G o1) o2)
        (2 * w + 1).toNat (2 * h + 1).toNat) c.1 c.2 =
      setPathF (setPathF G o1) o2 c := by
    intro c hc
    rw [mem_interiorF] at hc
    exact getCell_toListGrid _ _ _ c.1 c.2 (by omega) (by omega) (by omega)
      (by omega)
  constructor
  · have hstep : gridCenterPathCount (toListGrid (setPathF (setPathF G o1) o2)
        (2 * w + 1).toNat (2 * h + 1).toNat) w h =
        centerPathCount (setPathF (setPathF G o1) o2) w h := by
      rw [gridCenterPathCount, centerPathCount]
      congr 1
      exact Finset.filter_congr (fun c hc => by
        rw [hbridge c (centersF_subset_interior hw hh hc)])
    rw [hstep, centerPathCount_setPath_border _ _ _ hw hh _ h2,
      centerPathCount_setPath_border _ _ _ hw hh _ h1]
  · have hstep : gridJointPathCount (toListGrid (setPathF (setPathF G o1) o2)
        (2 * w + 1).toNat (2 * h + 1).toNat) w h =
        jointPathCount (setPathF (setPathF G o1) o2) w h := by
      rw [gridJointPathCount, jointPathCount]
      congr 1
      exact Finset.filter_congr (fun c hc => by
        rw [hbridge c (jointsF_subset_interior hw hh hc)])
    rw [hstep, jointPathCount_setPath_border _ _ _ hw hh _ h2,
      jointPathCount_setPath_border _ _ _ hw hh _ h1]

/-- C4: for every valid logical size `w × h` the carving loop terminates,
and in the returned grid the number of carved passage-centre cells is
`w·h` while the number of carved inter-cell wall joints is `w·h − 1`:
the spanning-tree counts of the logical lattice. -/
theorem C4_spanning_tree_counts (w h : Int) (hw : 1 ≤ w) (hh : 1 ≤ h)
    (ρ : List Nat) :
    ∃ g s e, create_maze w h ρ = some (g, s, e) ∧
      gridCenterPathCount g w h = w.toNat * h.toNat ∧
      gridJointPathCount g w h = w.toNat * h.toNat - 1 := by
  obtain ⟨G, o1, o2, hcm, hexit, hb1, hb2⟩ := create_maze_structure w h hw hh ρ
  obtain ⟨hc, hj⟩ := exit_counts w h hw hh G hexit
  obtain ⟨ht1, ht2⟩ := grid_counts_openings G w h hw hh o1 o2 hb1 hb2
  exact ⟨_, _, _, hcm, by rw [ht1, hc], by rw [ht2, hj]⟩

/-- Witness for C4 at the concrete size 1×1 with the empty oracle. -/
theorem C4_witness :
    (1 : Int) ≤ 1 ∧ (1 : Int) ≤ 1 ∧
    (∃ g s e, create_maze 1 1 [] = some (g, s, e) ∧
      gridCenterPathCount g 1 1 = (1 : Int).toNat * (1 : Int).toNat ∧
      gridJointPathCount g 1 1 = (1 : Int).toNat * (1 : Int).toNat - 1) :=
  ⟨by decide, by decide,
   C4_spanning_tree_counts 1 1 (by decide) (by decide) []⟩

/-- C5: generation succeeds exactly when both arguments are integers at
least 1; any other pair of arguments yields the invalid-dimension result
with no grid, start node or end node. -/
theorem C5_invalid_dimensions (a b : PyArg) (ρ : List Nat) :
    (∃ g s e, create_maze_py a b ρ = some (g, s, e)) ↔
    (∃ w h : Int, a = .int w ∧ b = .int h ∧ 1 ≤ w ∧ 1 ≤ h) := by
  constructor
  · rintro ⟨g, s, e, hsome⟩
    cases a with
    | nonInt => cases b <;> simp [create_maze_py] at hsome
    | int w =>
      cases b with
      | nonInt => simp [create_maze_py] at hsome
      | int v =>
        have hvalid : 1 ≤ w ∧ 1 ≤ v := by
          by_contra hc
          simp only [create_maze_py] at hsome
          rw [create_maze, if_neg hc] at hsome
          cases hsome
        exact ⟨w, v, rfl, rfl, hvalid.1, hvalid.2⟩
  · rintro ⟨w, v, rfl, rfl, hw, hv⟩
    obtain ⟨G, o1, o2, hcm, _, _, _⟩ := create_maze_structure w v hw hv ρ
    exact ⟨_, _, _, hcm⟩

/-- For a logical `2 × 1` maze both sampled edge cells lie on the top
logical row, so both openings are cut into the top boundary row. -/
theorem create_maze_2_1_structure (ρ : List Nat) :
    ∃ (G : GridF) (o1 o2 : Coord),
      create_maze 2 1 ρ = some
        (toListGrid (setPathF (setPathF G o1) o2) 5 3, o1, o2) ∧
      CarveInv 2 1 G [] ∧ (o1.2 = 0 ∧ o1.1 % 2 = 1) ∧
      (o2.2 = 0 ∧ o2.1 % 2 = 1) := by
  rw [create_maze, if_pos (by decide : (1 : Int) ≤ 2 ∧ (1 : Int) ≤ 1)]
  simp only []
  have hc0 : ((2 * ((randBelow (2 : Int).toNat ρ).1 : Int) + 1,
      2 * ((randBelow (1 : Int).toNat (randBelow (2 : Int).toNat ρ).2).1 : Int)
        + 1) : Coord) ∈ centersF 2 1 :=
    mem_centersF.mpr ⟨_, _, randBelow_lt _ _ (by decide),
      randBelow_lt _ _ (by decide), rfl⟩
  have hinv0 := carve_init_inv 2 1 _ hc0
  obtain ⟨G, ρ', hloop, hexit⟩ :=
    carveLoop_some 2 1 (by decide) (by decide) (carveFuel 2 1) _ _
      (randBelow (1 : Int).toNat (randBelow (2 : Int).toNat ρ).2).2 hinv0
      (by
        have hle := wallInteriorCount_le
          (setPathF (fun _ => wallChar)
            (2 * ((randBelow (2 : Int).toNat ρ).1 : Int) + 1,
             2 * ((randBelow (1 : Int).toNat
               (randBelow (2 : Int).toNat ρ).2).1 : Int) + 1)) 2 1
        rw [carveFuel]
        simp only [List.length_singleton]
        omega)
  rw [hloop]
  simp only []
  split_ifs with hb1 hb2 hb3
  · exact absurd hb1 (by decide)
  · exact absurd hb2 (by decide)
  · exact absurd hb3 (by decide)
  have htop : ∀ x ∈ edgeCellsLogical 2 1, x.2 = (0 : Int) := by decide
  have hly1 : (sampleTwo (edgeCellsLogical 2 1) ρ').1.1.2 = (0 : Int) := by
    rw [sampleTwo_fst]
    exact getD_prop _ _ (fun x : Coord => x.2 = (0 : Int)) htop rfl _
  have hly2 : (sampleTwo (edgeCellsLogical 2 1) ρ').1.2.2 = (0 : Int) := by
    rw [sampleTwo_snd]
    exact getD_prop _ _ (fun x : Coord => x.2 = (0 : Int)) htop rfl _
  refine ⟨G, _, _, rfl, hexit, ⟨?_, ?_⟩, ⟨?_, ?_⟩⟩
  · rw [getOpeningCoords, if_pos hly1]
  · rw [getOpeningCoords, if_pos hly1]
    show (2 * (sampleTwo (edgeCellsLogical 2 1) ρ').1.1.1 + 1) % 2 = 1
    omega
  · rw [getOpeningCoords, getOpeningCoords, if_pos hly2]
  · rw [getOpeningCoords, getOpeningCoords, if_pos hly2]
    show (2 * (sampleTwo (edgeCellsLogical 2 1) ρ').1.2.1 + 1) % 2 = 1
    omega

/-- A cell with a coordinate outside the open box is not interior. -/
theorem not_mem_interiorF (w h x y : Int)
    (hxy : x < 1 ∨ 2 * w - 1 < x ∨ y < 1 ∨ 2 * h - 1 < y) :
    ((x, y) : Coord) ∉ interiorF w h := by
  intro hmem
  obtain ⟨a1, a2, a3, a4⟩ := mem_interiorF.mp hmem
  have b1 : 1 ≤ x := a1
  have b2 : x ≤ 2 * w - 1 := a2
  have b3 : 1 ≤ y := a3
  have b4 : y ≤ 2 * h - 1 := a4
  omega

/-- On every generated 2×1 maze the end-node discovery fails: the bottom
row and right column are all walls (both openings are on the top row),
and the hard-coded probe `grid[height-2][width-1]` hits a wall. -/
theorem c3_end_missing (G : GridF) (o1 o2 : Coord)
    (hexit : CarveInv 2 1 G []) (h1 : o1.2 = 0) (h1' : o1.1 % 2 = 1)
    (h2 : o2.2 = 0) (h2' : o2.1 % 2 = 1) :
    ∃ so, findStartEnd (toListGrid (setPathF (setPathF G o1) o2) 5 3) =
      .ok (so, none) := by
  have hwallF : ∀ x y : Int, x = 4 ∨ y = 2 →
      setPathF (setPathF G o1) o2 (x, y) = wallChar := by
    intro x y hxy
    have hne2 : ((x, y) : Coord) ≠ o2 := by
      intro e
      have e1 : x = o2.1 := congrArg Prod.fst e
      have e2 : y = o2.2 := congrArg Prod.snd e
      omega
    have hne1 : ((x, y) : Coord) ≠ o1 := by
      intro e
      have e1 : x = o1.1 := congrArg Prod.fst e
      have e2 : y = o1.2 := congrArg Prod.snd e
      omega
    rw [setPathF_ne _ _ _ hne2, setPathF_ne _ _ _ hne1]
    exact carveInv_outside_wall (by decide) (by decide) hexit
      (not_mem_interiorF 2 1 x y (by omega))
  have hbridge : ∀ x y : Int, 0 ≤ x → x < 5 → 0 ≤ y → y < 3 →
      getCell (toListGrid (setPathF (setPathF G o1) o2) 5 3) x y =
        setPathF (setPathF G o1) o2 (x, y) := by
    intro x y hx hx5 hy hy3
    exact getCell_toListGrid _ 5 3 x y hx (by exact_mod_cast hx5) hy
      (by exact_mod_cast hy3)
  have hwallCell : ∀ x y : Int, 0 ≤ x → x < 5 → 0 ≤ y → y < 3 →
      (x = 4 ∨ y = 2) →
      getCell (toListGrid (setPathF (setPathF G o1) o2) 5 3) x y =
        wallChar := by
    intro x y hx hx5 hy hy3 hxy
    rw [hbridge x y hx hx5 hy hy3]
    exact hwallF x y hxy
  have hglen : (toListGrid (setPathF (setPathF G o1) o2) 5 3).length = 3 := by
    simp [toListGrid]
  have hgw : ((toListGrid (setPathF (setPathF G o1) o2) 5 3).headD []).length
      = 5 := by
    rfl
  have hbot : solverBottomEnds (toListGrid (setPathF (setPathF G o1) o2) 5 3)
      = [] := by
    rw [solverBottomEnds, List.filterMap_eq_nil]
    intro x hxmem
    rw [hgw] at hxmem
    rw [hglen]
    simp only [List.pure_def, List.bind_eq_bind, List.mem_bind,
      List.mem_singleton, List.mem_range'_1] at hxmem
    obtain ⟨a, ⟨ha1, ha2⟩, rfl⟩ := hxmem
    have hcast : ((3 : Nat) : Int) - 1 = 2 := by norm_num
    have hcell := hwallCell (a : Int) 2 (by omega) (by omega) (by norm_num)
      (by norm_num) (Or.inr rfl)
    rw [hcast, hcell, if_neg (by decide : ¬(wallChar = pathChar))]
  have hright : solverRightEnds (toListGrid (setPathF (setPathF G o1) o2) 5 3)
      = [] := by
    rw [solverRightEnds, List.filterMap_eq_nil]
    intro y hymem
    rw [hglen] at hymem
    rw [hgw]
    simp only [List.pure_def, List.bind_eq_bind, List.mem_bind,
      List.mem_singleton, List.mem_range'_1] at hymem
    obtain ⟨a, ⟨ha1, ha2⟩, rfl⟩ := hymem
    have hcast : ((5 : Nat) : Int) - 1 = 4 := by norm_num
    have hcell := hwallCell 4 (a : Int) (by norm_num) (by norm_num) (by omega)
      (by omega) (Or.inl rfl)
    rw [hcast, hcell, if_neg (by decide : ¬(wallChar = pathChar))]
  have hc40 := hwallCell 4 0 (by norm_num) (by norm_num) (by norm_num)
    (by norm_num) (Or.inl rfl)
  have hc42 := hwallCell 4 2 (by norm_num) (by norm_num) (by norm_num)
    (by norm_num) (Or.inl rfl)
  have hends : solverEnds (toListGrid (setPathF (setPathF G o1) o2) 5 3)
      = [] := by
    simp only [solverEnds, hbot, hright, List.nil_append, List.length_nil]
    rw [if_pos trivial, hgw, hglen]
    have hcast : ((5 : Nat) : Int) - 1 = 4 := by norm_num
    have hcast2 : ((3 : Nat) : Int) - 1 = 2 := by norm_num
    rw [hcast, hcast2, hc40, hc42,
      if_neg (by decide : ¬(wallChar = pathChar)),
      if_neg (by decide : ¬(wallChar = pathChar))]
    rfl
  have hrow : pyNth (toListGrid (setPathF (setPathF G o1) o2) 5 3) 1 =
      some ((List.range 5).map
        (fun (x : Nat) => setPathF (setPathF G o1) o2 ((x : Int), ((1 : Nat) : Int))))
      := by
    simp only [pyNth]
    rw [if_neg (by norm_num : ¬(1 : Int) < 0), if_pos (by norm_num : (0:Int) ≤ 1)]
    rw [toListGrid, List.get?_map, List.get?_range (by norm_num : (1:Int).toNat < 3)]
    rfl
  have hprobe : pyNth ((List.range 5).map
      (fun (x : Nat) => setPathF (setPathF G o1) o2 ((x : Int), ((1 : Nat) : Int)))) 4 =
      some (setPathF (setPathF G o1) o2 (((4 : Nat) : Int), ((1 : Nat) : Int)))
      := by
    simp only [pyNth]
    rw [if_neg (by norm_num : ¬(4 : Int) < 0), if_pos (by norm_num : (0:Int) ≤ 4)]
    rw [List.get?_map, List.get?_range (by norm_num : (4:Int).toNat < 5)]
    rfl
  have hF41 : setPathF (setPathF G o1) o2 (((4 : Nat) : Int), ((1 : Nat) : Int))
      = wallChar := hwallF _ _ (Or.inl (by norm_num))
  have hendnode : solverEndNode (toListGrid (setPathF (setPathF G o1) o2) 5 3)
      = .ok none := by
    rw [solverEndNode, hends]
    simp only [List.head?_nil]
    rw [hglen]
    have hcast : ((3 : Nat) : Int) - 2 = 1 := by norm_num
    rw [hcast, hrow]
    simp only []
    rw [hgw]
    have hcast2 : ((5 : Nat) : Int) - 1 = 4 := by norm_num
    rw [hcast2, hprobe]
    simp only []
    rw [if_neg (by rw [hF41]; decide)]
  have hstart : ∃ so, solverStartNode
      (toListGrid (setPathF (setPathF G o1) o2) 5 3) = .ok so := by
    rw [solverStartNode]
    cases hs : (solverStarts (toListGrid (setPathF (setPathF G o1) o2) 5 3)).head? with
    | some s => exact ⟨some s, rfl⟩
    | none =>
      rw [hrow]
      simp only []
      have hp0 : pyNth ((List.range 5).map
          (fun (x : Nat) => setPathF (setPathF G o1) o2 ((x : Int), ((1 : Nat) : Int))))
          0 = some (setPathF (setPathF G o1) o2
            (((0 : Nat) : Int), ((1 : Nat) : Int))) := by
        simp only [pyNth]
        rw [if_neg (by norm_num : ¬(0 : Int) < 0),
          if_pos (by norm_num : (0:Int) ≤ 0)]
        rw [List.get?_map, List.get?_range (by norm_num : (0:Int).toNat < 5)]
        rfl
      rw [hp0]
      simp only []
      exact ⟨_, rfl⟩
  obtain ⟨so, hso⟩ := hstart
  refine ⟨so, ?_⟩
  rw [findStartEnd, hso]
  simp only []
  rw [hendnode]

/-- C3 (counterexample): on the maze produced by `create_maze(2, 1)` with
a concrete random stream, all three solvers terminate with `done = true`
but with NO result path: the spec's claim that they report a non-empty
result path on 2×1 mazes is false. -/
theorem C3_counterexample_no_path_on_2x1 :
    ∃ g s e, create_maze 2 1 (List.replicate 9 0) = some (g, s, e) ∧
      solve_bfs_step_by_step g = .ok (some [emptyDoneStep]) ∧
      solve_dfs_step_by_step g = .ok (some [emptyDoneStep]) ∧
      solve_astar_step_by_step g = .ok (some [emptyDoneStep]) ∧
      emptyDoneStep.done = true ∧ emptyDoneStep.result = none :=
  ⟨[['#', ' ', '#', ' ', '#'],
    ['#', ' ', ' ', ' ', '#'],
    ['#', '#', '#', '#', '#']],
   (1, 0), (3, 0), rfl, rfl, rfl, rfl, rfl, rfl⟩

/-- C3 (amended): for every maze produced by `create_maze(2, 1)` both
openings are cut into the top border row, while the solvers look for an
end node only on the bottom and right borders (plus the corner and probe
fallbacks); hence every solver's only yield is the terminal tuple with
`done = true` and no result path. -/
theorem C3_amended_2x1_solvers_find_no_path (ρ : List Nat) :
    ∃ g s e, create_maze 2 1 ρ = some (g, s, e) ∧
      solve_bfs_step_by_step g = .ok (some [emptyDoneStep]) ∧
      solve_dfs_step_by_step g = .ok (some [emptyDoneStep]) ∧
      solve_astar_step_by_step g = .ok (some [emptyDoneStep]) := by
  obtain ⟨G, o1, o2, hcm, hexit, ⟨ha1, ha1'⟩, ⟨ha2, ha2'⟩⟩ :=
    create_maze_2_1_structure ρ
  obtain ⟨so, hfe⟩ := c3_end_missing G o1 o2 hexit ha1 ha1' ha2 ha2'
  obtain ⟨hb, hd, ha⟩ := solvers_on_missing_node _ so none hfe (Or.inr rfl)
  exact ⟨_, _, _, hcm, hb, hd, ha⟩

/-- Witness for the amended C3 at a concrete random stream. -/
theorem C3_amended_witness :
    ∃ g s e, create_maze 2 1 (List.replicate 9 1) = some (g, s, e) ∧
      solve_bfs_step_by_step g = .ok (some [emptyDoneStep]) ∧
      solve_dfs_step_by_step g = .ok (some [emptyDoneStep]) ∧
      solve_astar_step_by_step g = .ok (some [emptyDoneStep]) :=
  C3_amended_2x1_solvers_find_no_path (List.replicate 9 1)

/-- The one-node walk. -/
theorem isPath_singleton (g : Grid) (s : Coord) : IsPath g s s [s] :=
  ⟨rfl, rfl, List.chain'_singleton s⟩

/-- Extending a walk by one search move. -/
theorem isPath_snoc (g : Grid) (s c w : Coord) (p : List Coord)
    (hp : IsPath g s c p) (hs : stepAdj g c w) :
    IsPath g s w (p ++ [w]) := by
  obtain ⟨h1, h2, h3⟩ := hp
  refine ⟨?_, ?_, ?_⟩
  · cases p with
    | nil => cases h1
    | cons a l => simpa using h1
  · exact List.getLast?_concat _
  · refine List.Chain'.append h3 (List.chain'_singleton w) ?_
    intro x hx y hy
    rw [h2] at hx
    cases hx
    cases hy
    exact hs

/-- A walk is nonempty. -/
theorem isPath_ne_nil {g : Grid} {s e : Coord} {p : List Coord}
    (hp : IsPath g s e p) : p ≠ [] := by
  intro h
  rw [h] at hp
  cases hp.1

/-- Manhattan distance is a metric: triangle inequality. -/
theorem heuristic_triangle (a b c : Coord) :
    heuristic a c ≤ heuristic a b + heuristic b c := by
  unfold heuristic
  have h1 := abs_sub_le a.1 b.1 c.1
  have h2 := abs_sub_le a.2 b.2 c.2
  omega

/-- One offset step moves the Manhattan distance by exactly one. -/
theorem heuristic_offset (a : Coord) {d : Coord} (hd : d ∈ bfsOffsets) :
    heuristic a (a.1 + d.1, a.2 + d.2) = 1 := by
  simp only [bfsOffsets, List.mem_cons, List.mem_singleton] at hd
  rcases hd with rfl | rfl | rfl | (rfl | h)
  · show |a.1 - (a.1 + 0)| + |a.2 - (a.2 + -1)| = 1
    have e1 : a.1 - (a.1 + 0) = 0 := by ring
    have e2 : a.2 - (a.2 + -1) = 1 := by ring
    rw [e1, e2]
    norm_num
  · show |a.1 - (a.1 + 0)| + |a.2 - (a.2 + 1)| = 1
    have e1 : a.1 - (a.1 + 0) = 0 := by ring
    have e2 : a.2 - (a.2 + 1) = -1 := by ring
    rw [e1, e2]
    norm_num
  · show |a.1 - (a.1 + -1)| + |a.2 - (a.2 + 0)| = 1
    have e1 : a.1 - (a.1 + -1) = 1 := by ring
    have e2 : a.2 - (a.2 + 0) = 0 := by ring
    rw [e1, e2]
    norm_num
  · show |a.1 - (a.1 + 1)| + |a.2 - (a.2 + 0)| = 1
    have e1 : a.1 - (a.1 + 1) = -1 := by ring
    have e2 : a.2 - (a.2 + 0) = 0 := by ring
    rw [e1, e2]
    norm_num
  · exact absurd h (by simp)

/-- Consistency across one search move: the heuristic drops by at most
one. -/
theorem heuristic_step (g : Grid) (t a b : Coord) (h : stepAdj g a b) :
    heuristic a t ≤ 1 + heuristic b t := by
  obtain ⟨-, d, hd, rfl⟩ := h
  have := heuristic_triangle a (a.1 + d.1, a.2 + d.2) t
  rw [heuristic_offset a hd] at this
  omega

/-- Consistency along a walk: the heuristic at the first node is at most
the remaining walk length plus the heuristic at the last node. -/
theorem heuristic_head_le (g : Grid) (t : Coord) :
    ∀ (r : List Coord), List.Chain' (stepAdj g) r →
      ∀ a v, r.head? = some a → r.getLast? = some v →
      heuristic a t ≤ ((r.length : Int) - 1) + heuristic v t := by
  intro r
  induction r with
  | nil => intro _ a v h; cases h
  | cons x l ih =>
    intro hch a v ha hv
    cases l with
    | nil =>
      cases ha
      cases hv
      simp
    | cons y l' =>
      cases ha
      obtain ⟨hxy, hch'⟩ := List.chain'_cons.mp hch
      have hlast : (y :: l').getLast? = some v := by
        rw [List.getLast?_cons_cons] at hv
        exact hv
      have hrec := ih hch' y v rfl hlast
      have hstep := heuristic_step g t x y hxy
      simp only [List.length_cons] at hrec ⊢
      push_cast at hrec ⊢
      omega

/-- Structure of one BFS neighbour scan: it appends a block of freshly
discovered nodes `ws` to the queue and the visited list, yields only
non-terminal tuples, discovers only unvisited open neighbours, and
discovers every open neighbour that was not already visited. -/
theorem bfsScan_struct (g : Grid) (c : Coord) (path : List Coord) :
    ∀ (ds : List Coord) (steps0 : List Step)
      (rest : List (Coord × List Coord)) (visited : List Coord),
      ∃ (ws : List Coord) (stepsAdd : List Step),
        List.foldl (bfsScanStep g (g.headD []).length g.length c path)
          (steps0, rest, visited) ds =
          (steps0 ++ stepsAdd, rest ++ ws.map (fun w => (w, path ++ [w])),
           visited ++ ws) ∧
        (∀ st ∈ stepsAdd, st.result = none) ∧
        ws.Nodup ∧
        (∀ w ∈ ws, inBoundsOpen g w ∧ w ∉ visited) ∧
        (∀ d ∈ ds, inBoundsOpen g (c.1 + d.1, c.2 + d.2) →
          (c.1 + d.1, c.2 + d.2) ∈ visited ∨ (c.1 + d.1, c.2 + d.2) ∈ ws) ∧
        (∀ w ∈ ws, ∃ d ∈ ds, w = (c.1 + d.1, c.2 + d.2)) := by
  intro ds
  induction ds with
  | nil =>
    intro steps0 rest visited
    refine ⟨[], [], ?_, ?_, ?_, ?_, ?_, ?_⟩ <;> simp
  | cons d ds ih =>
    intro steps0 rest visited
    rw [List.foldl_cons]
    by_cases hc : 0 ≤ (c.1 + d.1, c.2 + d.2).2 ∧
        (c.1 + d.1, c.2 + d.2).2 < (g.length : Int) ∧
        0 ≤ (c.1 + d.1, c.2 + d.2).1 ∧
        (c.1 + d.1, c.2 + d.2).1 < ((g.headD []).length : Int) ∧
        getCell g (c.1 + d.1, c.2 + d.2).1 (c.1 + d.1, c.2 + d.2).2 =
          pathChar ∧
        (c.1 + d.1, c.2 + d.2) ∉ visited
    · have hstep : bfsScanStep g (g.headD []).length g.length c path
          (steps0, rest, visited) d =
          (steps0 ++ [⟨visited ++ [(c.1 + d.1, c.2 + d.2)],
             path ++ [(c.1 + d.1, c.2 + d.2)], false, none⟩],
           rest ++ [((c.1 + d.1, c.2 + d.2),
             path ++ [(c.1 + d.1, c.2 + d.2)])],
           visited ++ [(c.1 + d.1, c.2 + d.2)]) := by
        simp only [bfsScanStep]
        rw [if_pos hc]
      rw [hstep]
      obtain ⟨ws, stepsAdd, heq, hres, hnd, hprop, hcomp, hfrom⟩ :=
        ih (steps0 ++ [⟨visited ++ [(c.1 + d.1, c.2 + d.2)],
              path ++ [(c.1 + d.1, c.2 + d.2)], false, none⟩])
           (rest ++ [((c.1 + d.1, c.2 + d.2),
              path ++ [(c.1 + d.1, c.2 + d.2)])])
           (visited ++ [(c.1 + d.1, c.2 + d.2)])
      have hopen : inBoundsOpen g (c.1 + d.1, c.2 + d.2) :=
        ⟨hc.1, hc.2.1, hc.2.2.1, hc.2.2.2.1, hc.2.2.2.2.1⟩
      refine ⟨(c.1 + d.1, c.2 + d.2) :: ws,
        ⟨visited ++ [(c.1 + d.1, c.2 + d.2)],
          path ++ [(c.1 + d.1, c.2 + d.2)], false, none⟩ :: stepsAdd,
        ?_, ?_, ?_, ?_, ?_, ?_⟩
      · rw [heq]
        simp [List.append_assoc]
      · intro st hst
        rcases List.mem_cons.mp hst with rfl | hst'
        · rfl
        · exact hres st hst'
      · refine List.Nodup.cons ?_ hnd
        intro hmem
        have := (hprop _ hmem).2
        exact this (by simp)
      · intro w hw
        rcases List.mem_cons.mp hw with rfl | hw'
        · exact ⟨hopen, hc.2.2.2.2.2⟩
        · obtain ⟨ho, hnv⟩ := hprop w hw'
          exact ⟨ho, fun hmem => hnv (List.mem_append_left _ hmem)⟩
      · intro d' hd' ho
        rcases List.mem_cons.mp hd' with rfl | hd''
        · exact Or.inr (List.mem_cons_self _ _)
        · rcases hcomp d' hd'' ho with hv | hw
          · rcases List.mem_append.mp hv with hv' | hv'
            · exact Or.inl hv'
            · exact Or.inr (by
                rw [List.mem_singleton] at hv'
                rw [hv']
                exact List.mem_cons_self _ _)
          · exact Or.inr (List.mem_cons_of_mem _ hw)
      · intro w hw
        rcases List.mem_cons.mp hw with rfl | hw'
        · exact ⟨d, List.mem_cons_self _ _, rfl⟩
        · obtain ⟨d', hd', he⟩ := hfrom w hw'
          exact ⟨d', List.mem_cons_of_mem _ hd', he⟩
    · have hstep : bfsScanStep g (g.headD []).length g.length c path
          (steps0, rest, visited) d = (steps0, rest, visited) := by
        simp only [bfsScanStep]
        rw [if_neg hc]
      rw [hstep]
      obtain ⟨ws, stepsAdd, heq, hres, hnd, hprop, hcomp, hfrom⟩ :=
        ih steps0 rest visited
      refine ⟨ws, stepsAdd, heq, hres, hnd, hprop, ?_, ?_⟩
      · intro d' hd' ho
        rcases List.mem_cons.mp hd' with rfl | hd''
        · by_cases hv : (c.1 + d'.1, c.2 + d'.2) ∈ visited
          · exact Or.inl hv
          · exact absurd ⟨ho.1, ho.2.1, ho.2.2.1, ho.2.2.2.1, ho.2.2.2.2, hv⟩ hc
        · exact hcomp d' hd'' ho
      · intro w hw
        obtain ⟨d', hd', he⟩ := hfrom w hw
        exact ⟨d', List.mem_cons_of_mem _ hd', he⟩

/-- The BFS cut argument: walking any valid path from a visited node,
either its endpoint is visited within the walk's length budget or the
walk meets the queue within the budget. -/
theorem bfs_cut (g : Grid) (μ : Coord → Nat)
    (queue : List (Coord × List Coord)) (visited : List Coord)
    (hO1 : ∀ x ∈ queue, x.2.length = μ x.1)
    (hO5 : ∀ v ∈ visited, (∀ p, (v, p) ∉ queue) →
      ∀ w, stepAdj g v w → w ∈ visited ∧ μ w ≤ μ v + 1) :
    ∀ (r : List Coord), List.Chain' (stepAdj g) r →
      ∀ (B : Nat) (u v : Coord),
      r.head? = some u → r.getLast? = some v →
      u ∈ visited → μ u ≤ B →
      (v ∈ visited ∧ μ v ≤ B + (r.length - 1)) ∨
      (∃ x ∈ queue, x.2.length + 1 ≤ B + (r.length - 1)) := by
  intro r
  induction r with
  | nil => intro _ B u v h; cases h
  | cons a l ih =>
    intro hch B u v hu hv hmem hB
    cases hu
    cases l with
    | nil =>
      cases hv
      exact Or.inl ⟨hmem, by simpa using hB⟩
    | cons a' l' =>
      obtain ⟨hstep, hch'⟩ := List.chain'_cons.mp hch
      rw [List.getLast?_cons_cons] at hv
      by_cases hq : ∃ p, (a, p) ∈ queue
      · obtain ⟨p, hp⟩ := hq
        refine Or.inr ⟨(a, p), hp, ?_⟩
        have hlp : p.length = μ a := hO1 _ hp
        simp only [List.length_cons]
        omega
      · have hnq : ∀ p, (a, p) ∉ queue := fun p hp => hq ⟨p, hp⟩
        obtain ⟨hmem', hB'⟩ := hO5 a hmem hnq a' hstep
        have hrec := ih hch' (B + 1) a' v rfl hv hmem' (by omega)
        simp only [List.length_cons] at hrec ⊢
        rcases hrec with ⟨h1, h2⟩ | ⟨x, hx, h2⟩
        · refine Or.inl ⟨h1, ?_⟩
          have hlen : 1 ≤ (a' :: l').length := by simp
          omega
        · refine Or.inr ⟨x, hx, ?_⟩
          have hlen : 1 ≤ (a' :: l').length := by simp
          omega

/-- Optimality of the embedded BFS loop: under the invariant, any result
path it reports is a valid walk from `s` to `e` of minimal length among
all valid walks. -/
theorem bfsLoop_optimal (g : Grid) (s e : Coord) :
    ∀ (fuel : Nat) (queue : List (Coord × List Coord))
      (visited : List Coord) (μ : Coord → Nat) (steps : List Step),
      BfsInv g s μ queue visited →
      bfsLoop g (g.headD []).length g.length e fuel queue visited =
        some steps →
      ∀ st ∈ steps, ∀ p, st.result = some p →
        IsPath g s e p ∧ ∀ q, IsPath g s e q → p.length ≤ q.length := by
  intro fuel
  induction fuel with
  | zero => intro queue visited μ steps _ hrun; cases hrun
  | succ fuel ih =>
    intro queue visited μ steps hinv hrun
    cases queue with
    | nil =>
      simp only [bfsLoop, Option.some.injEq] at hrun
      subst hrun
      intro st hst p hres
      rw [List.mem_singleton] at hst
      subst hst
      cases hres
    | cons front rest =>
      obtain ⟨cn, path⟩ := front
      obtain ⟨hO1, hO3, hO4, hO5, hO6, ⟨hO7a, hO7b⟩, hO8⟩ := hinv
      simp only [bfsLoop] at hrun
      obtain ⟨hpathc, hlenc', hmemc'⟩ := hO1 (cn, path) (List.mem_cons_self _ _)
      have hlenc : path.length = μ cn := hlenc'
      have hmemc : cn ∈ visited := hmemc'
      by_cases hend : cn = e
      · rw [if_pos hend] at hrun
        simp only [Option.some.injEq] at hrun
        subst hrun
        intro st hst p hres
        rw [List.mem_singleton] at hst
        subst hst
        have hpp : path = p := by
          have : some path = some p := hres
          injection this
        subst hpp
        subst hend
        refine ⟨hpathc, ?_⟩
        intro q hq
        obtain ⟨hqh, hql, hqc⟩ := hq
        have hcut := bfs_cut g μ ((cn, path) :: rest) visited
          (fun x hx => (hO1 x hx).2.1) hO5 q hqc 1 s cn hqh hql hO7b
          (le_of_eq hO7a)
        have hq1 : 1 ≤ q.length := by
          cases q
          · cases hqh
          · simp
        rcases hcut with ⟨-, hμe⟩ | ⟨x, hx, hxl⟩
        · omega
        · have hμe := hO6 cn hmemc x hx
          omega
      · rw [if_neg hend] at hrun
        obtain ⟨ws, stepsAdd, heq, hres0, hnd, hprop, hcomp, hfrom⟩ :=
          bfsScan_struct g cn path bfsOffsets [] rest visited
        have hscan : bfsScan g (g.headD []).length g.length cn path rest
            visited = (stepsAdd,
              rest ++ ws.map (fun w => (w, path ++ [w])), visited ++ ws) := by
          rw [bfsScan, heq]
          simp
        rw [hscan] at hrun
        obtain ⟨steps', hrun', hsteps⟩ := Option.map_eq_some'.mp hrun
        subst hsteps
        have hμold : ∀ v, v ∈ visited →
            (fun v => if v ∈ ws then path.length + 1 else μ v) v = μ v :=
          fun v hv => if_neg (fun hw => (hprop v hw).2 hv)
        have hμnew : ∀ w ∈ ws,
            (fun v => if v ∈ ws then path.length + 1 else μ v) w =
              path.length + 1 := fun w hw => if_pos hw
        have hhead : ∀ y ∈ rest, path.length ≤ y.2.length := by
          have := List.pairwise_cons.mp hO3
          exact fun y hy => this.1 y hy
        have hrest3 := (List.pairwise_cons.mp hO3).2
        have hinv' : BfsInv g s
            (fun v => if v ∈ ws then path.length + 1 else μ v)
            (rest ++ ws.map (fun w => (w, path ++ [w]))) (visited ++ ws) := by
          refine ⟨?_, ?_, ?_, ?_, ?_, ⟨?_, ?_⟩, ?_⟩
          · intro x hx
            rcases List.mem_append.mp hx with hx' | hx'
            · obtain ⟨h1, h2, h3⟩ := hO1 x (List.mem_cons_of_mem _ hx')
              refine ⟨h1, ?_, List.mem_append_left _ h3⟩
              rw [hμold x.1 h3]
              exact h2
            · obtain ⟨w, hw, rfl⟩ := List.mem_map.mp hx'
              obtain ⟨d, hd, hwd⟩ := hfrom w hw
              refine ⟨isPath_snoc g s cn w path hpathc
                ⟨(hprop w hw).1, d, hd, hwd⟩, ?_, ?_⟩
              · show (path ++ [w]).length = _
                rw [hμnew w hw, List.length_append]
                rfl
              · exact List.mem_append_right _ hw
          · rw [List.pairwise_append]
            refine ⟨hrest3, ?_, ?_⟩
            · rw [List.pairwise_map]
              have hall : ∀ (l : List Coord),
                  List.Pairwise (fun a b : Coord =>
                    ((a, path ++ [a]) : Coord × List Coord).2.length ≤
                    ((b, path ++ [b]) : Coord × List Coord).2.length) l := by
                intro l
                induction l with
                | nil => exact List.Pairwise.nil
                | cons x t iht =>
                    exact List.Pairwise.cons (fun y _ => by simp) iht
              exact hall ws
            · intro x hx y hy
              obtain ⟨w, hw, rfl⟩ := List.mem_map.mp hy
              show x.2.length ≤ (path ++ [w]).length
              have h4 : x.2.length ≤ path.length + 1 :=
                hO4 x (List.mem_cons_of_mem _ hx) (cn, path)
                  (List.mem_cons_self _ _)
              simp only [List.length_append, List.length_singleton]
              omega
          · intro x hx y hy
            rcases List.mem_append.mp hx with hx' | hx' <;>
              rcases List.mem_append.mp hy with hy' | hy'
            · exact hO4 x (List.mem_cons_of_mem _ hx') y
                (List.mem_cons_of_mem _ hy')
            · obtain ⟨w, hw, rfl⟩ := List.mem_map.mp hy'
              have h4 : x.2.length ≤ path.length + 1 :=
                hO4 x (List.mem_cons_of_mem _ hx') (cn, path)
                  (List.mem_cons_self _ _)
              show x.2.length ≤ (path ++ [w]).length + 1
              simp only [List.length_append, List.length_singleton]
              omega
            · obtain ⟨w, hw, rfl⟩ := List.mem_map.mp hx'
              have := hhead y hy'
              show (path ++ [w]).length ≤ y.2.length + 1
              simp only [List.length_append, List.length_singleton]
              omega
            · obtain ⟨w, hw, rfl⟩ := List.mem_map.mp hx'
              obtain ⟨w', hw', rfl⟩ := List.mem_map.mp hy'
              show (path ++ [w]).length ≤ (path ++ [w']).length + 1
              simp
          · intro v hv hnq w hstep
            rcases List.mem_append.mp hv with hv' | hv'
            · by_cases hvc : v = cn
              · subst hvc
                obtain ⟨hopen, d, hd, hwd⟩ := hstep
                rcases hcomp d hd (hwd ▸ hopen) with hwv | hww
                · refine ⟨List.mem_append_left _ (hwd ▸ hwv), ?_⟩
                  rw [hμold v hv', hμold w (hwd ▸ hwv), ← hlenc]
                  exact (hO6 w (hwd ▸ hwv) (v, path) (List.mem_cons_self _ _) :
                    μ w ≤ path.length + 1)
                · refine ⟨List.mem_append_right _ (hwd ▸ hww), ?_⟩
                  rw [hμold v hv', hμnew w (hwd ▸ hww), ← hlenc]
              · have hnq0 : ∀ p', (v, p') ∉ (cn, path) :: rest := by
                  intro p' hp'
                  rcases List.mem_cons.mp hp' with heq' | hp''
                  · exact hvc (congrArg Prod.fst heq')
                  · exact hnq p' (List.mem_append_left _ hp'')
                obtain ⟨hwv, hwμ⟩ := hO5 v hv' hnq0 w hstep
                refine ⟨List.mem_append_left _ hwv, ?_⟩
                rw [hμold v hv', hμold w hwv]
                exact hwμ
            · exfalso
              exact hnq (path ++ [v]) (List.mem_append_right _
                (List.mem_map.mpr ⟨v, hv', rfl⟩))
          · intro v hv x hx
            rcases List.mem_append.mp hv with hv' | hv'
            · rw [hμold v hv']
              rcases List.mem_append.mp hx with hx' | hx'
              · exact hO6 v hv' x (List.mem_cons_of_mem _ hx')
              · obtain ⟨w, hw, rfl⟩ := List.mem_map.mp hx'
                have h6 : μ v ≤ path.length + 1 :=
                  hO6 v hv' (cn, path) (List.mem_cons_self _ _)
                show _ ≤ (path ++ [w]).length + 1
                simp only [List.length_append, List.length_singleton]
                omega
            · rw [hμnew v hv']
              rcases List.mem_append.mp hx with hx' | hx'
              · have := hhead x hx'
                omega
              · obtain ⟨w, hw, rfl⟩ := List.mem_map.mp hx'
                show _ ≤ (path ++ [w]).length + 1
                simp
          · rw [hμold s hO7b]
            exact hO7a
          · exact List.mem_append_left _ hO7b
          · rw [List.map_append]
            have hmm : (ws.map (fun w => (w, path ++ [w]))).map Prod.fst =
                ws := by
              rw [List.map_map]
              have hcompid : (Prod.fst ∘ fun w : Coord => (w, path ++ [w])) =
                  id := by
                funext w
                rfl
              rw [hcompid, List.map_id]
            rw [hmm]
            rw [List.nodup_append]
            have hO8' : (cn :: rest.map Prod.fst).Nodup := hO8
            refine ⟨(List.nodup_cons.mp hO8').2, hnd, ?_⟩
            intro a ha hw
            obtain ⟨x, hx, rfl⟩ := List.mem_map.mp ha
            exact (hprop _ hw).2 (hO1 x (List.mem_cons_of_mem _ hx)).2.2
        intro st hst p hres
        rcases List.mem_append.mp hst with hst' | hst'
        · rw [hres0 st hst'] at hres
          cases hres
        · exact ih (rest ++ ws.map (fun w => (w, path ++ [w])))
            (visited ++ ws) (fun v => if v ∈ ws then path.length + 1 else μ v)
            steps' hinv' hrun' st hst' p hres

/-- The BFS invariant holds initially. -/
theorem bfsInv_init (g : Grid) (s : Coord) :
    BfsInv g s (fun v => if v = s then 1 else 0) [(s, [s])] [s] := by
  refine ⟨?_, ?_, ?_, ?_, ?_, ⟨?_, ?_⟩, ?_⟩
  · intro x hx
    rw [List.mem_singleton] at hx
    subst hx
    exact ⟨isPath_singleton g s, by simp, List.mem_singleton.mpr rfl⟩
  · simp
  · intro x hx y hy
    rw [List.mem_singleton] at hx hy
    subst hx
    subst hy
    simp
  · intro v hv hnq w hstep
    rw [List.mem_singleton] at hv
    subst hv
    exact absurd (List.mem_singleton.mpr rfl) (hnq [v])
  · intro v hv x hx
    rw [List.mem_singleton] at hv hx
    subst hv
    subst hx
    simp
  · simp
  · exact List.mem_singleton.mpr rfl
  · simp

/-- Any result path reported by the BFS solver is a valid walk between
the discovered start and end nodes, of minimal length. -/
theorem bfs_optimal (g : Grid) (s e : Coord) (bsteps : List Step)
    (hfe : findStartEnd g = .ok (some s, some e))
    (hbs : solve_bfs_step_by_step g = .ok (some bsteps))
    (st : Step) (hst : st ∈ bsteps) (p : List Coord)
    (hres : st.result = some p) :
    IsPath g s e p ∧ ∀ q, IsPath g s e q → p.length ≤ q.length := by
  simp only [solve_bfs_step_by_step] at hbs
  by_cases h0 : g.length = 0 ∨ (g.headD []).length = 0
  · rw [if_pos h0] at hbs
    simp only [Except.ok.injEq, Option.some.injEq] at hbs
    subst hbs
    rw [List.mem_singleton] at hst
    subst hst
    cases hres
  · rw [if_neg h0, hfe] at hbs
    simp only [] at hbs
    cases hloop : bfsLoop g (g.headD []).length g.length e (bfsFuel g)
        [(s, [s])] [s] with
    | none =>
      rw [hloop] at hbs
      simp [prependInitial] at hbs
    | some steps' =>
      rw [hloop] at hbs
      simp only [prependInitial, Except.ok.injEq, Option.some.injEq] at hbs
      subst hbs
      rcases List.mem_cons.mp hst with rfl | hst'
      · cases hres
      · exact bfsLoop_optimal g s e (bfsFuel g) [(s, [s])] [s]
          (fun v => if v = s then 1 else 0) steps' (bfsInv_init g s) hloop
          st hst' p hres

/-- A tuple not below another has at least its `f` value. -/
theorem fle_of_not_ltB {a b : AEntry} (h : entryLtB a b = false) :
    b.f ≤ a.f := by
  unfold entryLtB at h
  rw [Bool.or_eq_false_iff] at h
  have h1 := h.1
  rw [decide_eq_false_iff_not] at h1
  omega

/-- A tuple below another has at most its `f` value. -/
theorem fle_of_ltB {a b : AEntry} (h : entryLtB a b = true) :
    a.f ≤ b.f := by
  unfold entryLtB at h
  simp only [Bool.or_eq_true, decide_eq_true_eq, Bool.and_eq_true,
    beq_iff_eq] at h
  rcases h with h | ⟨h1, -⟩
  · omega
  · omega

/-- Pushing into the sorted heap keeps `f` values nondecreasing. -/
theorem pairwise_fle_heapPush (x : AEntry) (l : List AEntry)
    (hl : List.Pairwise fLe l) :
    List.Pairwise fLe (heapPush x l) := by
  rw [heapPush]
  induction l with
  | nil =>
    simp [List.orderedInsert]
  | cons h t iht =>
    rw [List.orderedInsert]
    obtain ⟨hh, ht⟩ := List.pairwise_cons.mp hl
    by_cases hle : entryLe x h
    · rw [if_pos hle]
      have hxh : x.f ≤ h.f := fle_of_not_ltB hle
      refine List.Pairwise.cons ?_ hl
      intro y hy
      rcases List.mem_cons.mp hy with rfl | hy'
      · exact hxh
      · exact le_trans hxh (hh y hy')
    · rw [if_neg hle]
      refine List.Pairwise.cons ?_ (iht ht)
      intro y hy
      rw [List.mem_orderedInsert] at hy
      rcases hy with rfl | hy'
      · have hlt : entryLtB h y = true := by
          unfold entryLe at hle
          exact Bool.of_not_eq_false hle
        exact fle_of_ltB hlt
      · exact hh y hy'

/-- The A* cut argument: walking any valid chain from a node with a
recorded cost within budget, either the open list holds an entry whose
`f` value is within the budget extended by the walk (corrected by the
endpoint heuristic), or the walk's endpoint has a recorded cost within
the extended budget. -/
theorem astar_cut (g : Grid) (e : Coord) (opn : List AEntry)
    (gcs : Coord → Option Int) (P : List Coord)
    (hA4 : ∀ v gv, gcs v = some gv →
      v ∈ P ∨ ∃ y ∈ opn, y.node = v ∧ y.g = gv)
    (hA5 : ∀ u ∈ P, ∃ gu, gcs u = some gu ∧
      (∀ d ∈ bfsOffsets, inBoundsOpen g (u.1 + d.1, u.2 + d.2) →
        ∃ gw, gcs (u.1 + d.1, u.2 + d.2) = some gw ∧ gw ≤ gu + 1))
    (hA1f : ∀ y ∈ opn, y.f = y.g + heuristic y.node e) :
    ∀ (r : List Coord), List.Chain' (stepAdj g) r →
    ∀ (B : Int) (u v : Coord) (gu : Int),
      r.head? = some u → r.getLast? = some v →
      gcs u = some gu → gu ≤ B →
      (∃ y ∈ opn, y.f ≤ B + ((r.length : Int) - 1) + heuristic v e) ∨
      (∃ gv, gcs v = some gv ∧ gv ≤ B + ((r.length : Int) - 1)) := by
  intro r
  induction r with
  | nil => intro _ B u v gu h; cases h
  | cons a l ih =>
    intro hch B u v gu hu hv hgu hB
    cases hu
    cases l with
    | nil =>
      cases hv
      refine Or.inr ⟨gu, hgu, ?_⟩
      simp only [List.length_singleton]
      push_cast
      omega
    | cons a' l' =>
      obtain ⟨hstep, hch'⟩ := List.chain'_cons.mp hch
      rw [List.getLast?_cons_cons] at hv
      rcases hA4 a gu hgu with hP | ⟨y, hy, hnode, hg⟩
      · obtain ⟨gu', hgu', hnbr⟩ := hA5 a hP
        have hgueq : gu' = gu := by
          rw [hgu] at hgu'
          injection hgu' with h
          exact h.symm
        subst hgueq
        obtain ⟨hopen, d, hd, hwd⟩ := hstep
        obtain ⟨gw, hgw, hgwle⟩ := hnbr d hd (hwd ▸ hopen)
        have hgw' : gcs a' = some gw := by
          rw [hwd]
          exact hgw
        have hrec := ih hch' (B + 1) a' v gw rfl hv hgw' (by omega)
        simp only [List.length_cons] at hrec ⊢
        push_cast at hrec ⊢
        rcases hrec with ⟨y, hy, hfy⟩ | ⟨gv, hgv, hgvle⟩
        · exact Or.inl ⟨y, hy, by omega⟩
        · exact Or.inr ⟨gv, hgv, by omega⟩
      · refine Or.inl ⟨y, hy, ?_⟩
        have hyf := hA1f y hy
        have hcons := heuristic_head_le g e (a :: a' :: l') hch a v rfl
          (by rw [List.getLast?_cons_cons]; exact hv)
        rw [hyf, hnode, hg]
        simp only [List.length_cons] at hcons ⊢
        push_cast at hcons ⊢
        omega

/-- Structure of one A* neighbour relaxation scan: old heap entries
survive, every new entry is a relaxation of an open in-bounds neighbour
of the popped node at cost one more, recorded costs only improve, any
change records exactly the new cost together with a matching heap entry,
every open in-bounds neighbour ends up recorded at most one above the
popped cost, and the heap stays sorted by `f`. -/
theorem astarScan_struct (g : Grid) (e c : Coord) (gc : Int)
    (path : List Coord) :
    ∀ (ds : List Coord), (∀ d ∈ ds, d ∈ bfsOffsets) →
    ∀ (steps0 : List Step) (opn : List AEntry) (gcs : Coord → Option Int)
      (vis : List Coord), List.Pairwise fLe opn →
      ∃ (stepsAdd : List Step) (opn' : List AEntry)
        (gcs' : Coord → Option Int) (vis' : List Coord),
        List.foldl (astarScanStep g (g.headD []).length g.length e c gc path)
          (steps0, opn, gcs, vis) ds =
          (steps0 ++ stepsAdd, opn', gcs', vis') ∧
        (∀ st ∈ stepsAdd, st.result = none) ∧
        List.Pairwise fLe opn' ∧
        (∀ y ∈ opn, y ∈ opn') ∧
        (∀ y ∈ opn', y ∈ opn ∨
          (y.g = gc + 1 ∧ y.f = gc + 1 + heuristic y.node e ∧
           y.path = path ++ [y.node] ∧ stepAdj g c y.node ∧
           ∃ gy, gcs' y.node = some gy ∧ gy ≤ gc + 1)) ∧
        (∀ v a, gcs v = some a → ∃ b, gcs' v = some b ∧ b ≤ a) ∧
        (∀ v, gcs' v ≠ gcs v → gcs' v = some (gc + 1) ∧ stepAdj g c v ∧
          (∀ a, gcs v = some a → gc + 1 < a) ∧
          (∃ y ∈ opn', y.node = v ∧ y.g = gc + 1)) ∧
        (∀ d ∈ ds, inBoundsOpen g (c.1 + d.1, c.2 + d.2) →
          ∃ b, gcs' (c.1 + d.1, c.2 + d.2) = some b ∧ b ≤ gc + 1) := by
  intro ds
  induction ds with
  | nil =>
    intro _ steps0 opn gcs vis hpw
    refine ⟨[], opn, gcs, vis, by simp, by simp, hpw, fun y hy => hy,
      fun y hy => Or.inl hy, fun v a ha => ⟨a, ha, le_refl a⟩,
      fun v hv => absurd rfl hv, by simp⟩
  | cons d ds ih =>
    intro hds steps0 opn gcs vis hpw
    have hds' : ∀ d' ∈ ds, d' ∈ bfsOffsets :=
      fun d' hd' => hds d' (List.mem_cons_of_mem _ hd')
    have hdmem : d ∈ bfsOffsets := hds d (List.mem_cons_self _ _)
    rw [List.foldl_cons]
    by_cases hin : 0 ≤ (c.1 + d.1, c.2 + d.2).2 ∧
        (c.1 + d.1, c.2 + d.2).2 < (g.length : Int) ∧
        0 ≤ (c.1 + d.1, c.2 + d.2).1 ∧
        (c.1 + d.1, c.2 + d.2).1 < ((g.headD []).length : Int) ∧
        getCell g (c.1 + d.1, c.2 + d.2).1 (c.1 + d.1, c.2 + d.2).2 =
          pathChar
    · have hopen : inBoundsOpen g (c.1 + d.1, c.2 + d.2) := hin
      have hstepA : stepAdj g c (c.1 + d.1, c.2 + d.2) :=
        ⟨hopen, d, hdmem, rfl⟩
      by_cases hfire : (match gcs (c.1 + d.1, c.2 + d.2) with
          | none => true
          | some old => decide (gc + 1 < old)) = true
      · have hfired : ∀ a, gcs (c.1 + d.1, c.2 + d.2) = some a →
            gc + 1 < a := by
          intro a ha
          rw [ha] at hfire
          simpa using hfire
        have hstep : astarScanStep g (g.headD []).length g.length e c gc
            path (steps0, opn, gcs, vis) d =
            ((if (c.1 + d.1, c.2 + d.2) ∉ vis then
                steps0 ++ [⟨vis ++ [(c.1 + d.1, c.2 + d.2)],
                  path ++ [(c.1 + d.1, c.2 + d.2)], false, none⟩]
              else steps0),
             heapPush ⟨gc + 1 + heuristic (c.1 + d.1, c.2 + d.2) e,
               gc + 1, (c.1 + d.1, c.2 + d.2),
               path ++ [(c.1 + d.1, c.2 + d.2)]⟩ opn,
             (fun p => if p = (c.1 + d.1, c.2 + d.2) then some (gc + 1)
               else gcs p),
             (if (c.1 + d.1, c.2 + d.2) ∉ vis then
                vis ++ [(c.1 + d.1, c.2 + d.2)] else vis)) := by
          simp only [astarScanStep]
          rw [if_pos hin, if_pos hfire]
          by_cases hvin : (c.1 + d.1, c.2 + d.2) ∉ vis
          · rw [if_pos hvin, if_pos hvin, if_pos hvin]
          · rw [if_neg hvin, if_neg hvin, if_neg hvin]
        rw [hstep]
        obtain ⟨sa, opn2, gcs2, vis2, heq, hres2, hpw2, hold2, hnew2,
            himpv2, hchg2, hds2⟩ :=
          ih hds'
            (if (c.1 + d.1, c.2 + d.2) ∉ vis then
              steps0 ++ [⟨vis ++ [(c.1 + d.1, c.2 + d.2)],
                path ++ [(c.1 + d.1, c.2 + d.2)], false, none⟩]
             else steps0)
            (heapPush ⟨gc + 1 + heuristic (c.1 + d.1, c.2 + d.2) e,
               gc + 1, (c.1 + d.1, c.2 + d.2),
               path ++ [(c.1 + d.1, c.2 + d.2)]⟩ opn)
            (fun p => if p = (c.1 + d.1, c.2 + d.2) then some (gc + 1)
               else gcs p)
            (if (c.1 + d.1, c.2 + d.2) ∉ vis then
              vis ++ [(c.1 + d.1, c.2 + d.2)] else vis)
            (pairwise_fle_heapPush _ _ hpw)
        refine ⟨(if (c.1 + d.1, c.2 + d.2) ∉ vis then
            [⟨vis ++ [(c.1 + d.1, c.2 + d.2)],
              path ++ [(c.1 + d.1, c.2 + d.2)], false, none⟩]
          else []) ++ sa, opn2, gcs2, vis2, ?_, ?_, hpw2, ?_, ?_, ?_, ?_, ?_⟩
        · rw [heq]
          by_cases hvin : (c.1 + d.1, c.2 + d.2) ∉ vis
          · rw [if_pos hvin, if_pos hvin]
            simp [List.append_assoc]
          · rw [if_neg hvin, if_neg hvin]
            simp
        · intro st hst
          rcases List.mem_append.mp hst with h1 | h2
          · by_cases hvin : (c.1 + d.1, c.2 + d.2) ∉ vis
            · rw [if_pos hvin] at h1
              rw [List.mem_singleton] at h1
              subst h1
              rfl
            · rw [if_neg hvin] at h1
              cases h1
          · exact hres2 st h2
        · intro y hy
          refine hold2 y ?_
          rw [heapPush, List.mem_orderedInsert]
          exact Or.inr hy
        · intro y hy
          rcases hnew2 y hy with hyo | hdesc
          · rw [heapPush, List.mem_orderedInsert] at hyo
            rcases hyo with rfl | hyopn
            · refine Or.inr ⟨rfl, rfl, rfl, hstepA, ?_⟩
              exact himpv2 (c.1 + d.1, c.2 + d.2) (gc + 1) (by simp)
            · exact Or.inl hyopn
          · exact Or.inr hdesc
        · intro v a ha
          by_cases hvn : v = (c.1 + d.1, c.2 + d.2)
          · subst hvn
            obtain ⟨b, hb, hble⟩ :=
              himpv2 (c.1 + d.1, c.2 + d.2) (gc + 1) (by simp)
            refine ⟨b, hb, ?_⟩
            have := hfired a ha
            omega
          · exact himpv2 v a (by rw [if_neg hvn]; exact ha)
        · intro v hne
          by_cases hv1 : gcs2 v =
              (fun p => if p = (c.1 + d.1, c.2 + d.2) then some (gc + 1)
                else gcs p) v
          · by_cases hvn : v = (c.1 + d.1, c.2 + d.2)
            · subst hvn
              refine ⟨by rw [hv1]; simp, hstepA, hfired, ?_⟩
              refine ⟨⟨gc + 1 + heuristic (c.1 + d.1, c.2 + d.2) e,
                gc + 1, (c.1 + d.1, c.2 + d.2),
                path ++ [(c.1 + d.1, c.2 + d.2)]⟩, ?_, rfl, rfl⟩
              refine hold2 _ ?_
              rw [heapPush, List.mem_orderedInsert]
              exact Or.inl rfl
            · exfalso
              apply hne
              rw [hv1]
              simp [hvn]
          · obtain ⟨hval, hstepc, hmid, hwit⟩ := hchg2 v hv1
            refine ⟨hval, hstepc, ?_, hwit⟩
            intro a ha
            by_cases hvn : v = (c.1 + d.1, c.2 + d.2)
            · subst hvn
              exact absurd (hmid (gc + 1) (by simp)) (by omega)
            · exact hmid a (by rw [if_neg hvn]; exact ha)
        · intro d' hd' ho'
          rcases List.mem_cons.mp hd' with rfl | hd''
          · exact himpv2 (c.1 + d'.1, c.2 + d'.2) (gc + 1) (by simp)
          · exact hds2 d' hd'' ho'
      · have hnof : ∃ old, gcs (c.1 + d.1, c.2 + d.2) = some old ∧
            old ≤ gc + 1 := by
          cases hgv : gcs (c.1 + d.1, c.2 + d.2) with
          | none =>
            rw [hgv] at hfire
            simp at hfire
          | some old =>
            rw [hgv] at hfire
            simp only [decide_eq_true_eq] at hfire
            exact ⟨old, rfl, by omega⟩
        have hstep : astarScanStep g (g.headD []).length g.length e c gc
            path (steps0, opn, gcs, vis) d = (steps0, opn, gcs, vis) := by
          simp only [astarScanStep]
          rw [if_pos hin, if_neg hfire]
        rw [hstep]
        obtain ⟨sa, opn2, gcs2, vis2, heq, hres2, hpw2, hold2, hnew2,
            himpv2, hchg2, hds2⟩ := ih hds' steps0 opn gcs vis hpw
        refine ⟨sa, opn2, gcs2, vis2, heq, hres2, hpw2, hold2, hnew2,
          himpv2, hchg2, ?_⟩
        intro d' hd' ho'
        rcases List.mem_cons.mp hd' with rfl | hd''
        · obtain ⟨old, hold, holdle⟩ := hnof
          obtain ⟨b, hb, hble⟩ := himpv2 _ old hold
          exact ⟨b, hb, by omega⟩
        · exact hds2 d' hd'' ho'
    · have hstep : astarScanStep g (g.headD []).length g.length e c gc
          path (steps0, opn, gcs, vis) d = (steps0, opn, gcs, vis) := by
        simp only [astarScanStep]
        rw [if_neg hin]
      rw [hstep]
      obtain ⟨sa, opn2, gcs2, vis2, heq, hres2, hpw2, hold2, hnew2,
          himpv2, hchg2, hds2⟩ := ih hds' steps0 opn gcs vis hpw
      refine ⟨sa, opn2, gcs2, vis2, heq, hres2, hpw2, hold2, hnew2,
        himpv2, hchg2, ?_⟩
      intro d' hd' ho'
      rcases List.mem_cons.mp hd' with rfl | hd''
      · exact absurd ho' hin
      · exact hds2 d' hd'' ho'

/-- No cell is its own search neighbour. -/
theorem no_self_step (g : Grid) (c : Coord) (h : stepAdj g c c) : False := by
  obtain ⟨-, d, hd, he⟩ := h
  have h1 : c.1 = c.1 + d.1 := congrArg Prod.fst he
  have h2 : c.2 = c.2 + d.2 := congrArg Prod.snd he
  simp only [bfsOffsets, List.mem_cons, List.mem_singleton] at hd
  rcases hd with rfl | rfl | rfl | (rfl | hfalse)
  · simp at h2
  · simp at h2
  · simp at h1
  · simp at h1
  · exact absurd hfalse (by simp)

/-- Optimality at a non-stale pop: the popped cost is at most any valid
walk to the popped node. -/
theorem astar_pop_opt (g : Grid) (s e : Coord) (x : AEntry)
    (rest : List AEntry) (gcs : Coord → Option Int) (P : List Coord)
    (hinv : AstarInv g s e (x :: rest) gcs P)
    (gx : Int) (hgx : gcs x.node = some gx) (hstale : gx = x.g) :
    ∀ q, IsPath g s x.node q → x.g + 1 ≤ (q.length : Int) := by
  obtain ⟨hA1, hA2, hA3, hA4, hA5, hA6⟩ := hinv
  intro q hq
  obtain ⟨hqh, hql, hqc⟩ := hq
  have hcut := astar_cut g e (x :: rest) gcs P hA4
    (fun u hu => by
      obtain ⟨gu, h1, -, h3⟩ := hA5 u hu
      exact ⟨gu, h1, h3⟩)
    (fun y hy => (hA1 y hy).2.2.2.1)
    q hqc 0 s x.node 0 hqh hql hA3 (le_refl 0)
  rcases hcut with ⟨y, hy, hfy⟩ | ⟨gv, hgv, hgvle⟩
  · have hxyf : x.f ≤ y.f := by
      rcases List.mem_cons.mp hy with rfl | hy'
      · exact le_refl _
      · exact (List.pairwise_cons.mp hA2).1 y hy'
    have hxf : x.f = x.g + heuristic x.node e :=
      (hA1 x (List.mem_cons_self _ _)).2.2.2.1
    omega
  · have hveq : gv = gx := by
      rw [hgx] at hgv
      injection hgv with h
      exact h.symm
    omega

/-- Optimality of the embedded A* loop: under the invariant, any result
path it reports is a valid walk from `s` to `e` of minimal length among
all valid walks. -/
theorem astarLoop_optimal (g : Grid) (s e : Coord) :
    ∀ (fuel : Nat) (opn : List AEntry) (gcs : Coord → Option Int)
      (vis : List Coord) (P : List Coord) (steps : List Step),
      AstarInv g s e opn gcs P →
      astarLoop g (g.headD []).length g.length e fuel opn gcs vis =
        some steps →
      ∀ st ∈ steps, ∀ p, st.result = some p →
        IsPath g s e p ∧ ∀ q, IsPath g s e q → p.length ≤ q.length := by
  intro fuel
  induction fuel with
  | zero => intro opn gcs vis P steps _ hrun; cases hrun
  | succ fuel ih =>
    intro opn gcs vis P steps hinv hrun
    cases opn with
    | nil =>
      simp only [astarLoop, Option.some.injEq] at hrun
      subst hrun
      intro st hst p hres
      rw [List.mem_singleton] at hst
      subst hst
      cases hres
    | cons x rest =>
      obtain ⟨hA1, hA2, hA3, hA4, hA5, hA6⟩ := hinv
      simp only [astarLoop] at hrun
      obtain ⟨hpathx, hplenx, hgnnx, hfx, gx, hgx, hgxle⟩ :=
        hA1 x (List.mem_cons_self _ _)
      by_cases hend : x.node = e
      · rw [if_pos hend] at hrun
        simp only [Option.some.injEq] at hrun
        subst hrun
        intro st hst p hres
        rw [List.mem_singleton] at hst
        subst hst
        have hpp : x.path = p := by
          have h' : some x.path = some p := hres
          injection h'
        subst hpp
        rcases hA4 x.node gx hgx with hP | ⟨y, hy, hynode, hyg⟩
        · exact absurd (hend ▸ hP) hA6
        · have hyf : y.f = y.g + heuristic y.node e := (hA1 y hy).2.2.2.1
          have hxyf : x.f ≤ y.f := by
            rcases List.mem_cons.mp hy with rfl | hy'
            · exact le_refl _
            · exact (List.pairwise_cons.mp hA2).1 y hy'
          have hgeq : gx = x.g := by
            rw [hynode, hyg] at hyf
            omega
          have hopt := astar_pop_opt g s e x rest gcs P
            ⟨hA1, hA2, hA3, hA4, hA5, hA6⟩ gx hgx hgeq
          refine ⟨hend ▸ hpathx, ?_⟩
          intro q hq
          have hb := hopt q (hend ▸ hq)
          omega
      · rw [if_neg hend] at hrun
        obtain ⟨sa, opn2, gcs2, vis2, heq, hres2, hpw2, hold2, hnew2,
            himpv2, hchg2, hds2⟩ :=
          astarScan_struct g e x.node x.g x.path bfsOffsets
            (fun d hd => hd) [] rest gcs vis ((List.pairwise_cons.mp hA2).2)
        have hscan : astarScan g (g.headD []).length g.length e x.node x.g
            x.path rest gcs vis = (sa, opn2, gcs2, vis2) := by
          rw [astarScan, heq]
          simp
        rw [hscan] at hrun
        obtain ⟨steps', hrun', hsteps⟩ := Option.map_eq_some'.mp hrun
        subst hsteps
        have hxunch : gcs2 x.node = gcs x.node := by
          by_contra hch
          exact no_self_step g x.node (hchg2 x.node hch).2.1
        have hA1' : ∀ y ∈ opn2, IsPath g s y.node y.path ∧
            (y.path.length : Int) = y.g + 1 ∧ 0 ≤ y.g ∧
            y.f = y.g + heuristic y.node e ∧
            ∃ gy, gcs2 y.node = some gy ∧ gy ≤ y.g := by
          intro y hy
          rcases hnew2 y hy with hyold | hdesc
          · obtain ⟨p1, p2, p3, p4, gy, hgy, hgyle⟩ :=
              hA1 y (List.mem_cons_of_mem _ hyold)
            obtain ⟨b, hb, hble⟩ := himpv2 y.node gy hgy
            exact ⟨p1, p2, p3, p4, b, hb, le_trans hble hgyle⟩
          · obtain ⟨hg', hf', hpath', hstep', gy, hgy, hgyle⟩ := hdesc
            refine ⟨?_, ?_, by omega, by rw [hf', hg'], gy, hgy, by omega⟩
            · rw [hpath']
              exact isPath_snoc g s x.node y.node x.path hpathx hstep'
            · rw [hpath', hg']
              simp only [List.length_append, List.length_singleton]
              push_cast
              omega
        have hA3' : gcs2 s = some 0 := by
          by_cases hch : gcs2 s = gcs s
          · rw [hch]
            exact hA3
          · have hmid := (hchg2 s hch).2.2.1 0 hA3
            omega
        have hA5P : ∀ u ∈ P, ∃ gu, gcs2 u = some gu ∧
            (∀ q, IsPath g s u q → gu + 1 ≤ (q.length : Int)) ∧
            (∀ d ∈ bfsOffsets, inBoundsOpen g (u.1 + d.1, u.2 + d.2) →
              ∃ gw, gcs2 (u.1 + d.1, u.2 + d.2) = some gw ∧ gw ≤ gu + 1) := by
          intro u hu
          obtain ⟨gu, hgu, hopt_u, hnbr_u⟩ := hA5 u hu
          have hguu : gcs2 u = some gu := by
            by_cases hch : gcs2 u = gcs u
            · rw [hch]
              exact hgu
            · exfalso
              obtain ⟨hval, hstepc, hmid, -⟩ := hchg2 u hch
              have hlt := hmid gu hgu
              have hql := hopt_u (x.path ++ [u])
                (isPath_snoc g s x.node u x.path hpathx hstepc)
              rw [List.length_append, List.length_singleton] at hql
              push_cast at hql
              omega
          refine ⟨gu, hguu, hopt_u, ?_⟩
          intro d hd ho
          obtain ⟨gw, hgw, hgwle⟩ := hnbr_u d hd ho
          obtain ⟨b, hb, hble⟩ := himpv2 _ gw hgw
          exact ⟨b, hb, by omega⟩
        by_cases hstale : gx = x.g
        · have hopt := astar_pop_opt g s e x rest gcs P
            ⟨hA1, hA2, hA3, hA4, hA5, hA6⟩ gx hgx hstale
          have hinv' : AstarInv g s e opn2 gcs2 (x.node :: P) := by
            refine ⟨hA1', hpw2, hA3', ?_, ?_, ?_⟩
            · intro v gv hgv2
              by_cases hch : gcs2 v = gcs v
              · rw [hch] at hgv2
                rcases hA4 v gv hgv2 with hP | ⟨y, hy, hyn, hyg⟩
                · exact Or.inl (List.mem_cons_of_mem _ hP)
                · rcases List.mem_cons.mp hy with rfl | hy'
                  · exact Or.inl (hyn ▸ List.mem_cons_self _ _)
                  · exact Or.inr ⟨y, hold2 y hy', hyn, hyg⟩
              · obtain ⟨hval, -, -, y, hy, hyn, hyg⟩ := hchg2 v hch
                have hgveq : gv = x.g + 1 := by
                  rw [hval] at hgv2
                  injection hgv2 with h
                  exact h.symm
                exact Or.inr ⟨y, hy, hyn, by rw [hyg, hgveq]⟩
            · intro u hu
              rcases List.mem_cons.mp hu with rfl | hu'
              · refine ⟨x.g, ?_, hopt, ?_⟩
                · rw [hxunch, hgx, hstale]
                · intro d hd ho
                  obtain ⟨b, hb, hble⟩ := hds2 d hd ho
                  exact ⟨b, hb, hble⟩
              · exact hA5P u hu'
            · intro hmem
              rcases List.mem_cons.mp hmem with heq' | hmem'
              · exact hend heq'.symm
              · exact hA6 hmem'
          intro st hst p hres
          rcases List.mem_append.mp hst with hst' | hst'
          · rw [hres2 st hst'] at hres
            cases hres
          · exact ih opn2 gcs2 vis2 (x.node :: P) steps' hinv' hrun'
              st hst' p hres
        · have hinv' : AstarInv g s e opn2 gcs2 P := by
            refine ⟨hA1', hpw2, hA3', ?_, hA5P, hA6⟩
            intro v gv hgv2
            by_cases hch : gcs2 v = gcs v
            · rw [hch] at hgv2
              rcases hA4 v gv hgv2 with hP | ⟨y, hy, hyn, hyg⟩
              · exact Or.inl hP
              · rcases List.mem_cons.mp hy with rfl | hy'
                · exfalso
                  rw [hyn, hgv2] at hgx
                  simp only [Option.some.injEq] at hgx
                  exact hstale (by rw [← hgx, ← hyg])
                · exact Or.inr ⟨y, hold2 y hy', hyn, hyg⟩
            · obtain ⟨hval, -, -, y, hy, hyn, hyg⟩ := hchg2 v hch
              have hgveq : gv = x.g + 1 := by
                rw [hval] at hgv2
                injection hgv2 with h
                exact h.symm
              exact Or.inr ⟨y, hy, hyn, by rw [hyg, hgveq]⟩
          intro st hst p hres
          rcases List.mem_append.mp hst with hst' | hst'
          · rw [hres2 st hst'] at hres
            cases hres
          · exact ih opn2 gcs2 vis2 P steps' hinv' hrun' st hst' p hres

/-- The A* invariant holds initially. -/
theorem astarInv_init (g : Grid) (s e : Coord) :
    AstarInv g s e [⟨0 + heuristic s e, 0, s, [s]⟩]
      (fun p => if p = s then some 0 else none) [] := by
  refine ⟨?_, ?_, ?_, ?_, ?_, ?_⟩
  · intro x hx
    rw [List.mem_singleton] at hx
    subst hx
    refine ⟨isPath_singleton g s, by simp, le_refl 0, rfl, 0, by simp,
      le_refl 0⟩
  · simp
  · simp
  · intro v gv hgv
    by_cases hvs : v = s
    · subst hvs
      have hgv' : (if v = v then some (0 : Int) else none) = some gv := hgv
      rw [if_pos rfl] at hgv'
      injection hgv' with h
      exact Or.inr ⟨⟨0 + heuristic v e, 0, v, [v]⟩,
        List.mem_singleton.mpr rfl, rfl, h⟩
    · have hgv' : (if v = s then some (0 : Int) else none) = some gv := hgv
      rw [if_neg hvs] at hgv'
      cases hgv'
  · intro u hu
    cases hu
  · simp

/-- Any result path reported by the A* solver is a valid walk between
the discovered start and end nodes, of minimal length. -/
theorem astar_optimal (g : Grid) (s e : Coord) (asteps : List Step)
    (hfe : findStartEnd g = .ok (some s, some e))
    (has : solve_astar_step_by_step g = .ok (some asteps))
    (st : Step) (hst : st ∈ asteps) (p : List Coord)
    (hres : st.result = some p) :
    IsPath g s e p ∧ ∀ q, IsPath g s e q → p.length ≤ q.length := by
  simp only [solve_astar_step_by_step] at has
  by_cases h0 : g.length = 0 ∨ (g.headD []).length = 0
  · rw [if_pos h0] at has
    simp only [Except.ok.injEq, Option.some.injEq] at has
    subst has
    rw [List.mem_singleton] at hst
    subst hst
    cases hres
  · rw [if_neg h0, hfe] at has
    simp only [] at has
    cases hloop : astarLoop g (g.headD []).length g.length e (astarFuel g)
        [⟨0 + heuristic s e, 0, s, [s]⟩]
        (fun p => if p = s then some 0 else none) [s] with
    | none =>
      rw [hloop] at has
      simp [prependInitial] at has
    | some steps' =>
      rw [hloop] at has
      simp only [prependInitial, Except.ok.injEq, Option.some.injEq] at has
      subst has
      rcases List.mem_cons.mp hst with rfl | hst'
      · cases hres
      · exact astarLoop_optimal g s e (astarFuel g)
          [⟨0 + heuristic s e, 0, s, [s]⟩]
          (fun p => if p = s then some 0 else none) [s] []
          steps' (astarInv_init g s e) hloop st hst' p hres

/-- C7: whenever the BFS and the A* solvers run on a grid with the same
discovered start and end nodes and both report a result path, the two
paths have the same length, both are valid walks from start to end, and
that length is minimal among all valid walks of the grid graph. -/
theorem C7_bfs_astar_shortest (g : Grid) (s e : Coord)
    (hfe : findStartEnd g = .ok (some s, some e))
    (bsteps asteps : List Step) (pb pa : List Coord)
    (hbs : solve_bfs_step_by_step g = .ok (some bsteps))
    (has : solve_astar_step_by_step g = .ok (some asteps))
    (hbp : ∃ st ∈ bsteps, st.result = some pb)
    (hap : ∃ st ∈ asteps, st.result = some pa) :
    pb.length = pa.length ∧ IsPath g s e pb ∧ IsPath g s e pa ∧
    ∀ q, IsPath g s e q → pb.length ≤ q.length := by
  obtain ⟨stb, hstb, hresb⟩ := hbp
  obtain ⟨sta, hsta, hresa⟩ := hap
  obtain ⟨hbP, hbmin⟩ := bfs_optimal g s e bsteps hfe hbs stb hstb pb hresb
  obtain ⟨haP, hamin⟩ := astar_optimal g s e asteps hfe has sta hsta pa hresa
  exact ⟨Nat.le_antisymm (hbmin pa haP) (hamin pb hbP), hbP, haP, hbmin⟩

/-- Witness for C7 on the 3×3 single-corridor grid: both solvers find
the length-3 path down the corridor, which is optimal. -/
theorem C7_witness :
    findStartEnd mazeGrid11 = .ok (some (1, 0), some (1, 2)) ∧
    solve_bfs_step_by_step mazeGrid11 = .ok (some steps11) ∧
    solve_astar_step_by_step mazeGrid11 = .ok (some steps11) ∧
    (∃ st ∈ steps11, st.result = some [(1, 0), (1, 1), (1, 2)]) ∧
    (([(1, 0), (1, 1), (1, 2)] : List Coord).length =
        ([(1, 0), (1, 1), (1, 2)] : List Coord).length ∧
      IsPath mazeGrid11 (1, 0) (1, 2) [(1, 0), (1, 1), (1, 2)] ∧
      IsPath mazeGrid11 (1, 0) (1, 2) [(1, 0), (1, 1), (1, 2)] ∧
      ∀ q, IsPath mazeGrid11 (1, 0) (1, 2) q →
        ([(1, 0), (1, 1), (1, 2)] : List Coord).length ≤ q.length) :=
  ⟨rfl, rfl, rfl, by decide,
   C7_bfs_astar_shortest mazeGrid11 (1, 0) (1, 2) rfl steps11 steps11
     [(1, 0), (1, 1), (1, 2)] [(1, 0), (1, 1), (1, 2)] rfl rfl
     (by decide) (by decide)⟩

end MazeRepo
